import Mathlib

/-!
# DZco: identification of a transfer function from a frequency response

A shallow embedding of `src/src/dz_tf_ident_fr.c`.  The C `double` is read as a
real number (exact arithmetic); the purely algebraic parts are written over an
arbitrary field `K` so that they can be evaluated on rational inputs.

Where the C code would produce a value that is not a real number, the
embedding says so: a complex division by zero and the gain in decibels of a
zero complex gain are `none`, and `HUGE_VAL` is `none` in the values that the
loop of the identification compares.  The working set of the identification
holds real numbers only.  The division `1.0 / ( rr*rr + ri*ri )` of
`_dzFreqResIdentDataUpdateMag` is written with the division of the field, and
with a zero divisor, where the C code stores `HUGE_VAL`, the working set of the
embedding is no longer an image of the C object: `storedMag` is the value
stored, `none` there, and `UpdateDefined` and `loopDefined` say that no
divisor is zero.  What is proved about the weights is stated under them.

The functions of the ZM and ZEDA libraries, which are outside this
repository, are written by their meaning; what depends on the state of the
machine (the allocator) or is not fixed by this file (the linear equation
solver, the tolerance, the default number of iterations, the conversions of
`fprintf` and `fscanf`) is a parameter.
-/

namespace Dzco

/-! ## Complex numbers (ZM library) -/

/-- Cartesian complex number, the `zComplex` of the ZM library. -/
structure zComplex (K : Type) where
  re : K
  im : K

/-- The `zComplexCreate( c, r, i )` of ZM: set the two components. -/
def zComplexCreate {K : Type} (r i : K) : zComplex K := ⟨r, i⟩

/-- The `zComplexCMul( c1, c2, c )` of ZM: complex product. -/
def zComplexCMul {K : Type} [Field K] (c1 c2 : zComplex K) : zComplex K :=
  ⟨c1.re * c2.re - c1.im * c2.im, c1.re * c2.im + c1.im * c2.re⟩

/-- The `zComplexCDiv( c1, c2, c )` of ZM: complex quotient `c1 / c2`.  The
library reports a zero division and leaves the output unset when `c2 = 0`;
this is `none`. -/
def zComplexCDiv {K : Type} [Field K] [DecidableEq K] (c1 c2 : zComplex K) :
    Option (zComplex K) :=
  if c2.re = 0 ∧ c2.im = 0 then none
  else
    let r := c2.re * c2.re + c2.im * c2.im
    some ⟨(c1.re * c2.re + c1.im * c2.im) / r, (c1.im * c2.re - c1.re * c2.im) / r⟩

/-- The `zComplexCreatePolar( c, r, t )` of ZM: `r (cos t + j sin t)`. -/
noncomputable def zComplexCreatePolar (r t : ℝ) : zComplex ℝ :=
  zComplexCreate (r * Real.cos t) (r * Real.sin t)

/-- The `zComplexAbs( c )` of ZM: modulus. -/
noncomputable def zComplexAbs (c : zComplex ℝ) : ℝ :=
  Real.sqrt (c.re * c.re + c.im * c.im)

/-- The `zComplexArg( c )` of ZM: `atan2( im, re )`, a value in `(-π, π]`. -/
noncomputable def zComplexArg (c : zComplex ℝ) : ℝ :=
  Complex.arg ⟨c.re, c.im⟩

/-- A `zComplex` over the reals as a complex number of Mathlib. -/
def zComplex.toC (c : zComplex ℝ) : ℂ := ⟨c.re, c.im⟩

/-- The constant `zPIx2` of ZM. -/
noncomputable def zPIx2 : ℝ := 2 * Real.pi

/-- The `zDeg2Rad( deg )` of ZM. -/
noncomputable def zDeg2Rad (deg : ℝ) : ℝ := deg * Real.pi / 180

/-- The `zRad2Deg( rad )` of ZM. -/
noncomputable def zRad2Deg (rad : ℝ) : ℝ := rad * 180 / Real.pi

/-! ## Frequency response samples -/

/-- One sample of a frequency response: frequency [Hz], gain [dB], phase [deg]. -/
structure dzFreqRes where
  f : ℝ
  g : ℝ
  p : ℝ

/-- Source `dzFreqResToComplex`: the complex gain and the angular frequency
(the value stored to `*af`) of a sample. -/
noncomputable def dzFreqResToComplex (fr : dzFreqRes) : zComplex ℝ × ℝ :=
  (zComplexCreatePolar ((10 : ℝ) ^ (0.05 * fr.g)) (zDeg2Rad fr.p), zPIx2 * fr.f)

/-- Source `dzFreqResFromComplex`.  For `c = 0` the C code stores
`20 * log10( 0 )`, which is not a real number; the embedding gives `none`
there. -/
noncomputable def dzFreqResFromComplex (c : zComplex ℝ) (af : ℝ) : Option dzFreqRes :=
  if zComplexAbs c = 0 then none
  else some
    { f := af / zPIx2
      g := 20 * Real.logb 10 (zComplexAbs c)
      p := zRad2Deg (zComplexArg c) }

/-! ## Vectors, matrices and polynomials (ZM library)

A `zVec` is a size together with its buffer; the buffer is a total function
and only the indices below `size` are memory of the C object.  `zVecAlloc`
clears the buffer, as the `calloc` based allocator of the library does. -/

/-- Real vector `zVec` of ZM. -/
structure zVec (K : Type) where
  size : Nat
  buf : Nat → K

/-- Real matrix `zMat` of ZM. -/
structure zMat (K : Type) where
  row : Nat
  col : Nat
  buf : Nat → Nat → K

/-- The `zVecAlloc( size )` of ZM (a granted request). -/
def zVecAlloc {K : Type} [Field K] (size : Nat) : zVec K := ⟨size, fun _ => 0⟩

/-- The `zMatAllocSqr( size )` of ZM (a granted request). -/
def zMatAllocSqr {K : Type} [Field K] (size : Nat) : zMat K := ⟨size, size, fun _ _ => 0⟩

/-- The `zVecSizeNC( v )` of ZM. -/
def zVecSizeNC {K : Type} (v : zVec K) : Nat := v.size

/-- The `zVecElemNC( v, i )` of ZM, read access. -/
def zVecElemNC {K : Type} (v : zVec K) (i : Nat) : K := v.buf i

/-- The `zVecSetElemNC( v, i, x )` of ZM, also the assignment
`zVecElemNC( v, i ) = x`. -/
def zVecSetElemNC {K : Type} (v : zVec K) (i : Nat) (x : K) : zVec K :=
  { v with buf := Function.update v.buf i x }

/-- The `zVecZero( v )` of ZM. -/
def zVecZero {K : Type} [Field K] (v : zVec K) : zVec K := { v with buf := fun _ => 0 }

/-- The `zMatZero( m )` of ZM. -/
def zMatZero {K : Type} [Field K] (m : zMat K) : zMat K := { m with buf := fun _ _ => 0 }

/-- The `zMatAddDyadNC( m, a, b )` of ZM: `m += a bᵀ` on the components of `m`. -/
def zMatAddDyadNC {K : Type} [Field K] (m : zMat K) (a b : zVec K) : zMat K :=
  { m with buf := fun i j =>
      if i < m.row ∧ j < m.col then m.buf i j + a.buf i * b.buf j else m.buf i j }

/-- The `zVecCatDRC( v, k, a )` of ZM: `v += k a` on the components of `v`. -/
def zVecCatDRC {K : Type} [Field K] (v : zVec K) (k : K) (a : zVec K) : zVec K :=
  { v with buf := fun i => if i < v.size then v.buf i + k * a.buf i else v.buf i }

/-- Polynomial `zPex` of ZM: a vector of the coefficients in ascending order
of the powers; a polynomial of dimension `n` has `n + 1` coefficients. -/
abbrev zPex (K : Type) := zVec K

/-- The `zPexAlloc( dim )` of ZM (a granted request). -/
def zPexAlloc {K : Type} [Field K] (dim : Nat) : zPex K := zVecAlloc (dim + 1)

/-- The `zPexSetCoeff( p, i, c )` of ZM. -/
def zPexSetCoeff {K : Type} (p : zPex K) (i : Nat) (c : K) : zPex K := zVecSetElemNC p i c

/-! ## Lists (ZEDA library)

A `zList` is kept as the sequence of its cells in the order in which
`zListForEach` visits them, which is from the tail to the head.
`zListInsertHead` links a new cell at the head, that is, behind the cells
already present in that order. -/

/-- Bidirectional ring list of ZEDA, as the sequence `zListForEach` visits. -/
abbrev zList (α : Type) := List α

/-- The `zListInit( list )` of ZEDA. -/
def zListInit {α : Type} : zList α := []

/-- The `zListInsertHead( list, cell )` of ZEDA. -/
def zListInsertHead {α : Type} (list : zList α) (cell : α) : zList α := list ++ [cell]

/-- The `zListSize( list )` of ZEDA. -/
def zListSize {α : Type} (list : zList α) : Nat := list.length

/-! ## Transfer functions -/

/-- Source `dzTF` (dz_tf.h): numerator and denominator polynomials. -/
structure dzTF (K : Type) where
  num : zPex K
  den : zPex K

/-- Modelled from the spec: evaluation of a real polynomial at `jω` (§4.2), used
by `dzTFFreqRes` of dz_tf.c, which is not among the sources.  The real part
accumulates `c_j ω^j (-1)^(j/2)` over the even `j`, the imaginary part
`c_j ω^j (-1)^((j-1)/2)` over the odd `j`. -/
def zPexValAtJw {K : Type} [Field K] (c : zPex K) (w : K) : zComplex K :=
  ⟨((List.range c.size).map fun j =>
      if j % 2 = 0 then c.buf j * w ^ j * (-1) ^ (j / 2) else 0).sum,
   ((List.range c.size).map fun j =>
      if j % 2 = 0 then 0 else c.buf j * w ^ j * (-1) ^ ((j - 1) / 2)).sum⟩

/-- Modelled from the spec: `dzTFFreqRes` of dz_tf.c, which is not among the
sources (§4.3): `num(jω) / den(jω)`, failing when `den(jω) = 0`. -/
def dzTFFreqRes {K : Type} [Field K] [DecidableEq K] (tf : dzTF K) (af : K) :
    Option (zComplex K) :=
  zComplexCDiv (zPexValAtJw tf.num af) (zPexValAtJw tf.den af)

/-- Modelled from the spec: `dzTFAlloc` of dz_tf.c, which is not among the
sources (dz_tf.h: it creates the polynomials of dimensions `nsize` and
`dsize` and returns whether it succeeded).  `okNum` and `okDen` tell whether
the two allocations are granted; on failure the transfer function is left
without polynomials. -/
def dzTFAlloc {K : Type} [Field K] (okNum okDen : Bool) (nsize dsize : Nat) :
    Bool × dzTF K :=
  if okNum && okDen then (true, ⟨zPexAlloc nsize, zPexAlloc dsize⟩)
  else (false, ⟨⟨0, fun _ => 0⟩, ⟨0, fun _ => 0⟩⟩)

/-! ## Transforms of one sample -/

/-- Source `dzFreqResConnectTF`: cascade connection of a sample with a
transfer function.  `none` when the frequency response of `tf` is not
defined or the product has no gain in decibels. -/
noncomputable def dzFreqResConnectTF (frin : dzFreqRes) (tf : dzTF ℝ) : Option dzFreqRes :=
  let gin := (dzFreqResToComplex frin).1
  let af := (dzFreqResToComplex frin).2
  match dzTFFreqRes tf af with
  | none => none
  | some cg => dzFreqResFromComplex (zComplexCMul cg gin) af

/-- Source `dzFreqRes2Closed`: open loop to closed loop. -/
noncomputable def dzFreqRes2Closed (frin : dzFreqRes) : Option dzFreqRes :=
  let gin := (dzFreqResToComplex frin).1
  let af := (dzFreqResToComplex frin).2
  let gin1 := zComplexCreate (1 + gin.re) gin.im
  match zComplexCDiv gin gin1 with
  | none => none
  | some gout => dzFreqResFromComplex gout af

/-- Source `dzFreqRes2Open`: closed loop to open loop. -/
noncomputable def dzFreqRes2Open (frin : dzFreqRes) : Option dzFreqRes :=
  let gin := (dzFreqResToComplex frin).1
  let af := (dzFreqResToComplex frin).2
  let gin1 := zComplexCreate (1 - gin.re) (-gin.im)
  match zComplexCDiv gin gin1 with
  | none => none
  | some gout => dzFreqResFromComplex gout af

/-! ## Lists of samples -/

/-- The loop of the macro `DZ_FREQRESLIST_CONV`: the cells of the input list
still to visit, the number of allocation requests made so far and the output
list.  `alloc k` tells whether request number `k` is granted; a refused
request leaves the loop (`break`). -/
def convLoop {α β : Type} (conv : α → β) (alloc : Nat → Bool) :
    List α → Nat → zList β → zList β
  | [], _, outlist => outlist
  | cpin :: rest, k, outlist =>
    if alloc k then convLoop conv alloc rest (k + 1) (zListInsertHead outlist (conv cpin))
    else outlist

/-- Source macro `DZ_FREQRESLIST_CONV( __conv )`: the output list and the
returned size. -/
def DZ_FREQRESLIST_CONV {α β : Type} (conv : α → β) (alloc : Nat → Bool)
    (inlist : zList α) : zList β × Nat :=
  let outlist := convLoop conv alloc inlist 0 zListInit
  (outlist, zListSize outlist)

/-- Source `dzFreqResList2Closed`.  A cell of the output holds `none` where
the transform of the sample is not defined. -/
noncomputable def dzFreqResList2Closed (alloc : Nat → Bool) (inlist : zList dzFreqRes) :
    zList (Option dzFreqRes) × Nat :=
  DZ_FREQRESLIST_CONV dzFreqRes2Closed alloc inlist

/-- Source `dzFreqResList2Open`. -/
noncomputable def dzFreqResList2Open (alloc : Nat → Bool) (inlist : zList dzFreqRes) :
    zList (Option dzFreqRes) × Nat :=
  DZ_FREQRESLIST_CONV dzFreqRes2Open alloc inlist

/-- Source `dzFreqResListConnectTF`. -/
noncomputable def dzFreqResListConnectTF (alloc : Nat → Bool) (inlist : zList dzFreqRes)
    (tf : dzTF ℝ) : zList (Option dzFreqRes) × Nat :=
  DZ_FREQRESLIST_CONV (fun fr => dzFreqResConnectTF fr tf) alloc inlist

/-- Source `dzFreqResListFPrint`.  A stream of numbers is the sequence of its
fields of type `Tok` (the white space between the fields is not kept); `fp`
is what the stream holds before the call and `fmt` is the conversion `%.10g`
of `fprintf`.  The bounds are C `double` values, which may be infinite.  The
result is the stream after the call and the returned count. -/
noncomputable def dzFreqResListFPrint {Tok : Type} (fmt : ℝ → Tok) (fp : List Tok)
    (list : zList dzFreqRes) (fmin fmax : EReal) : List Tok × Nat :=
  list.foldl (fun (s : List Tok × Nat) cp =>
    if (cp.f : EReal) < fmin ∨ (cp.f : EReal) > fmax then s
    else (s.1 ++ [fmt cp.f, fmt cp.g, fmt cp.p], s.2 + 1)) (fp, 0)

/-- The `while` loop of source `dzFreqResListFScan`: the fields still to read,
the number of allocation requests made so far and the list.  `rd` is the
conversion `%lf` of `fscanf`, `none` on a field that is not a number; with
fewer than three numbers left `fscanf` does not return 3 and the loop is
left. -/
noncomputable def scanLoop {Tok : Type} (rd : Tok → Option ℝ) (alloc : Nat → Bool)
    (fmin fmax : EReal) : List Tok → Nat → zList dzFreqRes → zList dzFreqRes
  | t1 :: t2 :: t3 :: rest, k, list =>
    match rd t1, rd t2, rd t3 with
    | some f, some g, some p =>
      if (f : EReal) < fmin ∨ (f : EReal) > fmax then scanLoop rd alloc fmin fmax rest k list
      else if alloc k then
        scanLoop rd alloc fmin fmax rest (k + 1) (zListInsertHead list ⟨f, g, p⟩)
      else list
    | _, _, _ => list
  | _, _, list => list

/-- Source `dzFreqResListFScan`: the list and the returned size. -/
noncomputable def dzFreqResListFScan {Tok : Type} (rd : Tok → Option ℝ) (alloc : Nat → Bool)
    (fp : List Tok) (fmin fmax : EReal) : zList dzFreqRes × Nat :=
  let list := scanLoop rd alloc fmin fmax fp 0 zListInit
  (list, zListSize list)

/-! ## Identification of a transfer function from a frequency response -/

/-- Source `dzFreqResIdentData`: the working set of one identification.
`ps_re`, `ps_im`, `fr_re`, `fr_im` are the `zVecArray` tables, indexed by the
sample `k` and the power `j` as in `zVecArrayElem( array, k, j )`.  The
components of `phi_prev` may hold `HUGE_VAL`, which is `none`. -/
structure dzFreqResIdentData (K : Type) where
  ns : Nat
  nn : Nat
  nd : Nat
  ndim : Nat
  freq_res : Nat → zComplex K
  ang_freq : zVec K
  mag : zVec K
  phi : zVec K
  ps_re : Nat → Nat → K
  ps_im : Nat → Nat → K
  fr_re : Nat → Nat → K
  fr_im : Nat → Nat → K
  q : zMat K
  p : zVec K
  phi_prev : zVec (Option K)
  xr : zVec K
  xi : zVec K
  gr : K
  gi : K

/-- Assignment to `zVecArrayElem( array, k, j )`. -/
def zVecArraySetElem {K : Type} (a : Nat → Nat → K) (k j : Nat) (x : K) : Nat → Nat → K :=
  Function.update a k (Function.update (a k) j x)

/-- Source `_dzFreqResIdentDataAlloc`.  `alloc i` tells whether the `i`-th
allocation request of the identification is granted; an array of `size`
vectors has `zArraySize` equal to `size` when granted and `0` otherwise.  The
members used only for the iteration are not set by the C code; they are
empty here. -/
def _dzFreqResIdentDataAlloc {K : Type} [Field K] (alloc : Nat → Bool) (nn nd size : Nat) :
    Bool × dzFreqResIdentData K :=
  let arraySize : Nat → Nat := fun i => if alloc i then size else 0
  (alloc 0 && alloc 1 && alloc 2 && alloc 3 &&
    arraySize 4 != 0 && arraySize 5 != 0 && arraySize 6 != 0 && arraySize 7 != 0,
   { ns := size
     nn := nn
     nd := nd
     ndim := max nn nd
     freq_res := fun _ => ⟨0, 0⟩
     ang_freq := zVecAlloc size
     mag := zVecAlloc size
     phi := zVecAlloc (nn + nd + 1)
     ps_re := fun _ _ => 0
     ps_im := fun _ _ => 0
     fr_re := fun _ _ => 0
     fr_im := fun _ _ => 0
     q := ⟨0, 0, fun _ _ => 0⟩
     p := ⟨0, fun _ => 0⟩
     phi_prev := ⟨0, fun _ => some 0⟩
     xr := ⟨0, fun _ => 0⟩
     xi := ⟨0, fun _ => 0⟩
     gr := 0
     gi := 0 })

/-- Source `_dzFreqResIdentDataLSMAlloc`; the requests are number 8 to 12. -/
def _dzFreqResIdentDataLSMAlloc {K : Type} [Field K] (alloc : Nat → Bool)
    (fri : dzFreqResIdentData K) : Bool × dzFreqResIdentData K :=
  (alloc 8 && alloc 9 && alloc 10 && alloc 11 && alloc 12,
   { fri with
     q := zMatAllocSqr (zVecSizeNC fri.phi)
     p := zVecAlloc (zVecSizeNC fri.phi)
     phi_prev := ⟨zVecSizeNC fri.phi, fun _ => some 0⟩
     xr := zVecAlloc (zVecSizeNC fri.phi)
     xi := zVecAlloc (zVecSizeNC fri.phi) })

/-- The loop over `j` of source `_dzFreqResIdentDataRead` for the sample `k`
of angular frequency `omega`: the powers `(j omega)^j` by the sign table on
`j mod 4`, and their products with the sampled gain. -/
def readPowers {K : Type} [Field K] (fri : dzFreqResIdentData K) (k : Nat) (omega : K) :
    dzFreqResIdentData K :=
  (List.range (fri.ndim + 1)).foldl (fun s j =>
    let omegaj := omega ^ j
    let iomegaj : zComplex K :=
      if j % 2 = 0 then zComplexCreate (if (j / 2) % 2 = 0 then omegaj else -omegaj) 0
      else zComplexCreate 0 (if ((j - 1) / 2) % 2 = 0 then omegaj else -omegaj)
    let c := zComplexCMul (s.freq_res k) iomegaj
    { s with
      ps_re := zVecArraySetElem s.ps_re k j iomegaj.re
      ps_im := zVecArraySetElem s.ps_im k j iomegaj.im
      fr_re := zVecArraySetElem s.fr_re k j c.re
      fr_im := zVecArraySetElem s.fr_im k j c.im }) fri

/-- The loop `zListForEach( list, cp )` of source `_dzFreqResIdentDataRead`:
the cells still to visit and the counter `k`. -/
noncomputable def readLoop :
    List dzFreqRes → Nat → dzFreqResIdentData ℝ → dzFreqResIdentData ℝ
  | [], _, fri => fri
  | cp :: rest, k, fri =>
    let conv := dzFreqResToComplex cp
    let fri1 : dzFreqResIdentData ℝ :=
      { fri with
        freq_res := Function.update fri.freq_res k conv.1
        ang_freq := zVecSetElemNC fri.ang_freq k conv.2
        mag := zVecSetElemNC fri.mag k 1 }
    readLoop rest (k + 1) (readPowers fri1 k conv.2)

/-- Source `_dzFreqResIdentDataRead`: the returned count and the working set. -/
noncomputable def _dzFreqResIdentDataRead (alloc : Nat → Bool) (list : zList dzFreqRes)
    (nn nd : Nat) : Nat × dzFreqResIdentData ℝ :=
  let a : Bool × dzFreqResIdentData ℝ := _dzFreqResIdentDataAlloc alloc nn nd (zListSize list)
  if !a.1 then (0, a.2)
  else
    let fri := readLoop list 0 a.2
    (fri.ns, fri)

/-- The body of the loop over the samples of source
`_dzFreqResIdentDataLSMCreate`, for the sample `k`. -/
def lsmAddSample {K : Type} [Field K] (fri : dzFreqResIdentData K) (k : Nat) :
    dzFreqResIdentData K :=
  let fri1 := (List.range (fri.nn + 1)).foldl (fun s j =>
    { s with
      xr := zVecSetElemNC s.xr j (s.ps_re k j * zVecElemNC s.mag k)
      xi := zVecSetElemNC s.xi j (s.ps_im k j * zVecElemNC s.mag k) }) fri
  let fri2 := (List.range' 1 fri1.nd).foldl (fun s j =>
    { s with
      xr := zVecSetElemNC s.xr (s.nn + j) (-s.fr_re k j * zVecElemNC s.mag k)
      xi := zVecSetElemNC s.xi (s.nn + j) (-s.fr_im k j * zVecElemNC s.mag k) }) fri1
  let fri3 := { fri2 with
    gr := fri2.fr_re k 0 * zVecElemNC fri2.mag k
    gi := fri2.fr_im k 0 * zVecElemNC fri2.mag k }
  { fri3 with
    q := zMatAddDyadNC (zMatAddDyadNC fri3.q fri3.xr fri3.xr) fri3.xi fri3.xi
    p := zVecCatDRC (zVecCatDRC fri3.p fri3.gr fri3.xr) fri3.gi fri3.xi }

/-- Source `_dzFreqResIdentDataLSMCreate`: the normal equations `q`, `p`. -/
def _dzFreqResIdentDataLSMCreate {K : Type} [Field K] (fri : dzFreqResIdentData K) :
    dzFreqResIdentData K :=
  (List.range fri.ns).foldl lsmAddSample { fri with q := zMatZero fri.q, p := zVecZero fri.p }

/-- Source `_dzFreqResIdentDataUpdateMag`: the new weight of every sample.
The division is that of the field; it is the division of the C code where no
divisor is zero (`UpdateDefined`), see the head of the file. -/
def _dzFreqResIdentDataUpdateMag {K : Type} [Field K] (fri : dzFreqResIdentData K) :
    dzFreqResIdentData K :=
  (List.range fri.ns).foldl (fun s k =>
    let rr0 := s.ps_re k 0
    let ri0 := s.ps_im k 0
    let r := (List.range' 1 s.nd).foldl (fun (r : K × K) j =>
      (r.1 + s.ps_re k j * zVecElemNC s.phi (s.nn + j),
       r.2 + s.ps_im k j * zVecElemNC s.phi (s.nn + j))) (rr0, ri0)
    { s with mag := zVecSetElemNC s.mag k (1 / (r.1 * r.1 + r.2 * r.2)) }) fri

/-- What the identification takes from the ZM and ZEDA libraries: the
allocator (`zAlloc i` tells whether the `i`-th request is granted), the
linear equation solver `zLESolveGauss( a, b, ans )` (whether the returned
pointer is not `NULL`, and the components of `ans` afterwards), the tolerance
`zTOL` of `zIsTiny` and the default number of iterations. -/
structure zmEnv where
  zAlloc : Nat → Bool
  zLESolveGauss : zMat ℝ → zVec ℝ → zVec ℝ → Bool × (Nat → ℝ)
  zTOL : ℝ
  Z_MAX_ITER_NUM : Nat

/-- Modelled from the spec: the macro `ZITERINIT( iter )` of ZEDA, which
replaces a number of iterations `iter ≤ 0` by the default one (§9). -/
def ZITERINIT (Z_MAX_ITER_NUM : Nat) (iter : Int) : Nat :=
  if iter ≤ 0 then Z_MAX_ITER_NUM else iter.toNat

/-- The `zVecDist( v1, v2 )` of ZM, the Euclidean distance, where the second
vector may hold `HUGE_VAL`; the distance is then `HUGE_VAL` (`none`). -/
noncomputable def zVecDist (v1 : zVec ℝ) (v2 : zVec (Option ℝ)) : Option ℝ :=
  if (List.range v1.size).all (fun i => (v2.buf i).isSome) then
    some (Real.sqrt ((List.range v1.size).map fun i => (v1.buf i - (v2.buf i).getD 0) ^ 2).sum)
  else none

/-- The test `zIsTiny( dist - dist_prev )` of the source, on values that may
be `HUGE_VAL`: the difference is then infinite or not a number, and the test
is false.  `zIsTiny` of ZM compares the absolute value with the tolerance
`zTOL` (§4.5: the difference falls below a small tolerance). -/
noncomputable def zIsTinyDiff (zTOL : ℝ) : Option ℝ → Option ℝ → Bool
  | some d, some dp => decide (|d - dp| < zTOL)
  | _, _ => false

/-- The `for` loop of source `_dzFreqResIdent`: the number of iterations left,
the working set and `dist_prev`. -/
noncomputable def identLoop (env : zmEnv) :
    Nat → dzFreqResIdentData ℝ → Option ℝ → dzFreqResIdentData ℝ
  | 0, fri, _ => fri
  | n + 1, fri, dist_prev =>
    let fri1 := _dzFreqResIdentDataLSMCreate fri
    let fri2 := { fri1 with
      phi := { fri1.phi with buf := (env.zLESolveGauss fri1.q fri1.p fri1.phi).2 } }
    let dist := zVecDist fri2.phi fri2.phi_prev
    if zIsTinyDiff env.zTOL dist dist_prev then fri2
    else
      let fri3 := _dzFreqResIdentDataUpdateMag fri2
      let fri4 := { fri3 with
        phi_prev := { fri3.phi_prev with buf := fun i => some (fri3.phi.buf i) } }
      identLoop env n fri4 dist

/-- What one pass of the loop of `_dzFreqResIdent` did: whether
`zLESolveGauss` reported a solution (a pointer that is not `NULL`), the
distance `dist` computed (`none` for `HUGE_VAL`) and whether the loop was left
by `break`. -/
structure PassLog where
  solved : Bool
  dist : Option ℝ
  stop : Bool

/-- The `for` loop of source `_dzFreqResIdent` together with the record of its
passes, one entry for every call of `zLESolveGauss`, in the order of the
calls. -/
noncomputable def identRun (env : zmEnv) :
    Nat → dzFreqResIdentData ℝ → Option ℝ → dzFreqResIdentData ℝ × List PassLog
  | 0, fri, _ => (fri, [])
  | n + 1, fri, dist_prev =>
    let fri1 := _dzFreqResIdentDataLSMCreate fri
    let r := env.zLESolveGauss fri1.q fri1.p fri1.phi
    let fri2 := { fri1 with phi := { fri1.phi with buf := r.2 } }
    let dist := zVecDist fri2.phi fri2.phi_prev
    if zIsTinyDiff env.zTOL dist dist_prev then (fri2, [⟨r.1, dist, true⟩])
    else
      let fri3 := _dzFreqResIdentDataUpdateMag fri2
      let fri4 := { fri3 with
        phi_prev := { fri3.phi_prev with buf := fun i => some (fri3.phi.buf i) } }
      ((identRun env n fri4 dist).1, ⟨r.1, dist, false⟩ :: (identRun env n fri4 dist).2)

/-- Source `_dzFreqResIdent`. -/
noncomputable def _dzFreqResIdent (env : zmEnv) (list : zList dzFreqRes) (nn nd : Nat)
    (iter : Int) : Bool × dzFreqResIdentData ℝ :=
  let r := _dzFreqResIdentDataRead env.zAlloc list nn nd
  if r.1 = 0 then (false, r.2)
  else
    let a := _dzFreqResIdentDataLSMAlloc env.zAlloc r.2
    if !a.1 then (false, a.2)
    else
      let fri := { a.2 with phi_prev := { a.2.phi_prev with buf := fun _ => none } }
      (true, identLoop env (ZITERINIT env.Z_MAX_ITER_NUM iter) fri none)

/-- Source `dzTFIdentFromFreqRes`.  The result is whether the returned pointer
is `tf` (and not `NULL`), together with the contents of `*tf` afterwards.
The degrees are of type `int` in C; the embedding covers the non-negative
ones. -/
noncomputable def dzTFIdentFromFreqRes (env : zmEnv) (tf : dzTF ℝ) (list : zList dzFreqRes)
    (nn nd : Nat) (iter : Int) : Bool × dzTF ℝ :=
  let r := _dzFreqResIdent env list nn nd iter
  if !r.1 then (false, tf)
  else
    let fri := r.2
    let a : Bool × dzTF ℝ := dzTFAlloc (env.zAlloc 13) (env.zAlloc 14) nn nd
    if !a.1 then (false, a.2)
    else
      let tf1 := (List.range (fri.nn + 1)).foldl (fun (t : dzTF ℝ) i =>
        { t with num := zPexSetCoeff t.num i (zVecElemNC fri.phi i) }) a.2
      let tf2 := { tf1 with den := zPexSetCoeff tf1.den 0 1 }
      let tf3 := (List.range' 1 fri.nd).foldl (fun (t : dzTF ℝ) i =>
        { t with den := zPexSetCoeff t.den i (zVecElemNC fri.phi (fri.nn + i)) }) tf2
      (true, tf3)

/-! ## Closed forms of the tables and of the normal equations -/

/-- The value `iomegaj` of source `_dzFreqResIdentDataRead`: the power
`(j omega)^j` by the sign table on `j mod 4`. -/
def iomegaPow {K : Type} [Field K] (omega : K) (j : Nat) : zComplex K :=
  if j % 2 = 0 then zComplexCreate (if (j / 2) % 2 = 0 then omega ^ j else -omega ^ j) 0
  else zComplexCreate 0 (if ((j - 1) / 2) % 2 = 0 then omega ^ j else -omega ^ j)

/-- What the working set holds about one sample `k`: its weight and its rows
of the four tables. -/
structure SampleRow (K : Type) where
  mag : K
  ps_re : Nat → K
  ps_im : Nat → K
  fr_re : Nat → K
  fr_im : Nat → K

/-- The data of the sample `k` in a working set. -/
def sampleRow {K : Type} (fri : dzFreqResIdentData K) (k : Nat) : SampleRow K :=
  ⟨fri.mag.buf k, fri.ps_re k, fri.ps_im k, fri.fr_re k, fri.fr_im k⟩

/-- The data of all samples of a working set, in the order of the samples. -/
def sampleRows {K : Type} (fri : dzFreqResIdentData K) : List (SampleRow K) :=
  (List.range fri.ns).map (sampleRow fri)

/-- The vector `xr` that source `_dzFreqResIdentDataLSMCreate` builds for a
sample, on the indices `0 .. nn + nd`. -/
def rowRe {K : Type} [Field K] (nn : Nat) (d : SampleRow K) (i : Nat) : K :=
  if i ≤ nn then d.ps_re i * d.mag else -d.fr_re (i - nn) * d.mag

/-- The vector `xi` that source `_dzFreqResIdentDataLSMCreate` builds for a
sample, on the indices `0 .. nn + nd`. -/
def rowIm {K : Type} [Field K] (nn : Nat) (d : SampleRow K) (i : Nat) : K :=
  if i ≤ nn then d.ps_im i * d.mag else -d.fr_im (i - nn) * d.mag

/-- The contribution of one sample to the component `(i, j)` of `q`. -/
def qTerm {K : Type} [Field K] (nn : Nat) (d : SampleRow K) (i j : Nat) : K :=
  rowRe nn d i * rowRe nn d j + rowIm nn d i * rowIm nn d j

/-- The contribution of one sample to the component `i` of `p`. -/
def pTerm {K : Type} [Field K] (nn : Nat) (d : SampleRow K) (i : Nat) : K :=
  d.fr_re 0 * d.mag * rowRe nn d i + d.fr_im 0 * d.mag * rowIm nn d i

/-- The weight that source `_dzFreqResIdentDataUpdateMag` gives to a sample
under the parameters `phi`. -/
def newMag {K : Type} [Field K] (nn nd : Nat) (phi : Nat → K) (d : SampleRow K) : K :=
  let rr := d.ps_re 0 + ((List.range' 1 nd).map fun j => d.ps_re j * phi (nn + j)).sum
  let ri := d.ps_im 0 + ((List.range' 1 nd).map fun j => d.ps_im j * phi (nn + j)).sum
  1 / (rr * rr + ri * ri)

/-- The rows of the tables that source `_dzFreqResIdentDataRead` writes for a
sample of complex gain `c` and angular frequency `omega`. -/
def readRow {K : Type} [Field K] (ndim : Nat) (c : zComplex K) (omega : K) : SampleRow K :=
  ⟨1,
   fun j => if j ≤ ndim then (iomegaPow omega j).re else 0,
   fun j => if j ≤ ndim then (iomegaPow omega j).im else 0,
   fun j => if j ≤ ndim then (zComplexCMul c (iomegaPow omega j)).re else 0,
   fun j => if j ≤ ndim then (zComplexCMul c (iomegaPow omega j)).im else 0⟩

/-- The part of the working set that reading the samples leaves alone. -/
def ReadFrame {K : Type} (s t : dzFreqResIdentData K) : Prop :=
  s.ns = t.ns ∧ s.nn = t.nn ∧ s.nd = t.nd ∧ s.ndim = t.ndim ∧ s.phi = t.phi ∧
  s.mag.size = t.mag.size ∧ s.q = t.q ∧ s.p = t.p ∧ s.phi_prev = t.phi_prev ∧
  s.xr = t.xr ∧ s.xi = t.xi

/-- The rows of the tables from the sample `k0` on are still clear. -/
def RowsClear {K : Type} [Field K] (t : dzFreqResIdentData K) (k0 : Nat) : Prop :=
  ∀ k, k0 ≤ k → ∀ j, t.ps_re k j = 0 ∧ t.ps_im k j = 0 ∧ t.fr_re k j = 0 ∧ t.fr_im k j = 0

/-- What assembling the normal equations leaves alone. -/
structure LSMFrame {K : Type} (s u : dzFreqResIdentData K) : Prop where
  ns : s.ns = u.ns
  nn : s.nn = u.nn
  nd : s.nd = u.nd
  ndim : s.ndim = u.ndim
  freq_res : s.freq_res = u.freq_res
  ang_freq : s.ang_freq = u.ang_freq
  mag : s.mag = u.mag
  phi : s.phi = u.phi
  ps_re : s.ps_re = u.ps_re
  ps_im : s.ps_im = u.ps_im
  fr_re : s.fr_re = u.fr_re
  fr_im : s.fr_im = u.fr_im
  phi_prev : s.phi_prev = u.phi_prev
  qrow : s.q.row = u.q.row
  qcol : s.q.col = u.q.col
  psize : s.p.size = u.p.size

/-- The first half of one pass of the loop of `_dzFreqResIdent`: assemble the
normal equations and solve them into `phi`. -/
noncomputable def solveStep (env : zmEnv) (fri : dzFreqResIdentData ℝ) : dzFreqResIdentData ℝ :=
  { _dzFreqResIdentDataLSMCreate fri with
    phi := { (_dzFreqResIdentDataLSMCreate fri).phi with
      buf := (env.zLESolveGauss (_dzFreqResIdentDataLSMCreate fri).q
        (_dzFreqResIdentDataLSMCreate fri).p (_dzFreqResIdentDataLSMCreate fri).phi).2 } }

/-- The second half of one pass of the loop of `_dzFreqResIdent`: update the
weights and keep `phi` as `phi_prev`. -/
def nextStep {K : Type} [Field K] (fri : dzFreqResIdentData K) : dzFreqResIdentData K :=
  { _dzFreqResIdentDataUpdateMag fri with
    phi_prev := { (_dzFreqResIdentDataUpdateMag fri).phi_prev with
      buf := fun i => some ((_dzFreqResIdentDataUpdateMag fri).phi.buf i) } }

/-- The working set with which the loop of `_dzFreqResIdent` starts, made from
the working set after the samples are read. -/
def loopStart {K : Type} [Field K] (alloc : Nat → Bool) (fri : dzFreqResIdentData K) :
    dzFreqResIdentData K :=
  { (_dzFreqResIdentDataLSMAlloc alloc fri).2 with
    phi_prev := { (_dzFreqResIdentDataLSMAlloc alloc fri).2.phi_prev with buf := fun _ => none } }

/-- The value that `1.0 / ( rr*rr + ri*ri )` of source
`_dzFreqResIdentDataUpdateMag` stores to `mag[k]` for the sample `d` under the
parameters `phi`, as a real number.  With a zero divisor the C code stores
`HUGE_VAL`, which is not a real number: `none`. -/
noncomputable def storedMag (nn nd : Nat) (phi : Nat → ℝ) (d : SampleRow ℝ) : Option ℝ :=
  let rr := d.ps_re 0 + ((List.range' 1 nd).map fun j => d.ps_re j * phi (nn + j)).sum
  let ri := d.ps_im 0 + ((List.range' 1 nd).map fun j => d.ps_im j * phi (nn + j)).sum
  if rr * rr + ri * ri = 0 then none else some (1 / (rr * rr + ri * ri))

/-- No division of `_dzFreqResIdentDataUpdateMag`, called on the working set
`s`, is a division by zero: every weight that it stores is a real number. -/
def UpdateDefined (s : dzFreqResIdentData ℝ) : Prop :=
  ∀ k, k < s.ns → storedMag s.nn s.nd s.phi.buf (sampleRow s k) ≠ none

/-- No call of `_dzFreqResIdentDataUpdateMag` in the loop of `_dzFreqResIdent`
divides by zero: the working set holds real numbers throughout the loop.  The
arguments are those of `identLoop`. -/
noncomputable def loopDefined (env : zmEnv) :
    Nat → dzFreqResIdentData ℝ → Option ℝ → Prop
  | 0, _, _ => True
  | n + 1, s, dist_prev =>
    if zIsTinyDiff env.zTOL
        (zVecDist (solveStep env s).phi (solveStep env s).phi_prev) dist_prev = true
    then True
    else UpdateDefined (solveStep env s) ∧
      loopDefined env n (nextStep (solveStep env s))
        (zVecDist (solveStep env s).phi (solveStep env s).phi_prev)

/-- The first `m` allocation requests are granted. -/
def allocGranted (alloc : Nat → Bool) (m : Nat) : Prop := ∀ i, i < m → alloc i = true

/-- The sizes and dimensions of a working set inside the loop. -/
structure Shape {K : Type} (a b c : Nat) (s : dzFreqResIdentData K) : Prop where
  nn : s.nn = a
  nd : s.nd = b
  ns : s.ns = c
  qrow : s.q.row = a + b + 1
  qcol : s.q.col = a + b + 1
  psize : s.p.size = a + b + 1
  phisize : s.phi.size = a + b + 1
  prevsize : s.phi_prev.size = a + b + 1

/-- The vector `x` solves the linear equation `a x = b`. -/
def IsSolution (a : zMat ℝ) (b : zVec ℝ) (x : Nat → ℝ) : Prop :=
  ∀ i, i < a.row → ∑ j in Finset.range a.col, a.buf i j * x j = b.buf i

/-- The vector `x` is the one solution of `a x = b`. -/
def IsUniqueSolution (a : zMat ℝ) (b : zVec ℝ) (x : Nat → ℝ) : Prop :=
  IsSolution a b x ∧ ∀ y, IsSolution a b y → ∀ i, i < a.col → y i = x i

/-- An exact linear equation solver: whenever `a x = b` has exactly one
solution, the solver stores it to `ans`. -/
def IsExactSolver (solve : zMat ℝ → zVec ℝ → zVec ℝ → Bool × (Nat → ℝ)) : Prop :=
  ∀ a b ans x, IsUniqueSolution a b x → ∀ i, i < a.col → (solve a b ans).2 i = x i

open Classical in

/-- An exact solver: it stores the unique solution when there is one, and
otherwise reports a failure and leaves `ans` as it is. -/
noncomputable def exactSolve (a : zMat ℝ) (b ans : zVec ℝ) : Bool × (Nat → ℝ) :=
  if h : ∃ x, IsUniqueSolution a b x then
    (true, fun i => if i < a.col then Classical.choose h i else ans.buf i)
  else (false, ans.buf)

/-- An environment for examples: every allocation request is granted, the
solver is exact, the tolerance is `1e-12` and the default number of
iterations is `1000`. -/
noncomputable def idealEnv : zmEnv := ⟨fun _ => true, exactSolve, 1e-12, 1000⟩

/-- The rows of the tables of one sample of the list, as read. -/
noncomputable def readRowOf (ndim : Nat) (cp : dzFreqRes) : SampleRow ℝ :=
  readRow ndim (dzFreqResToComplex cp).1 (dzFreqResToComplex cp).2

/-- The working set with which the loop starts for a list of samples. -/
noncomputable def startOf (alloc : Nat → Bool) (list : zList dzFreqRes) (nn nd : Nat) :
    dzFreqResIdentData ℝ :=
  loopStart alloc (readLoop list 0 (_dzFreqResIdentDataAlloc alloc nn nd (zListSize list)).2)

/-- A sample with the weight that `_dzFreqResIdentDataUpdateMag` gives it. -/
def reweigh {K : Type} [Field K] (nn nd : Nat) (phi : Nat → K) (d : SampleRow K) : SampleRow K :=
  { d with mag := newMag nn nd phi d }

/-- Two working sets inside the loop that hold the same samples in a
different order and agree on the parameters and the normal equations. -/
structure Permuted (nn nd ns : Nat) (a b : dzFreqResIdentData ℝ) : Prop where
  left : Shape nn nd ns a
  right : Shape nn nd ns b
  rows : (sampleRows a).Perm (sampleRows b)
  phi : a.phi = b.phi
  phi_prev : a.phi_prev = b.phi_prev
  q : a.q = b.q
  p : a.p = b.p

/-- The parameter vector `[b_0 .. b_nn, a_1 .. a_nd]` of a transfer function. -/
def paramsOf (tf0 : dzTF ℝ) (nn : Nat) : Nat → ℝ :=
  fun i => if i ≤ nn then tf0.num.buf i else tf0.den.buf (i - nn)

/-- The value at `j omega` of the polynomial with the coefficients
`c 0 .. c n`. -/
noncomputable def polyAtJw (c : Nat → ℝ) (n : Nat) (omega : ℝ) : ℂ :=
  ∑ j in Finset.range (n + 1), (c j : ℂ) * (Complex.I * omega) ^ j

/-- The sample is generated exactly by the transfer function `tf0` of the
dimensions `nn`, `nd`: `tf0` has no pole at the frequency of the sample and
the complex gain of the sample is `num(j omega) / den(j omega)`. -/
def GeneratedBy (tf0 : dzTF ℝ) (nn nd : Nat) (fr : dzFreqRes) : Prop :=
  polyAtJw tf0.den.buf nd (dzFreqResToComplex fr).2 ≠ 0 ∧
  (dzFreqResToComplex fr).1.toC
    = polyAtJw tf0.num.buf nn (dzFreqResToComplex fr).2
      / polyAtJw tf0.den.buf nd (dzFreqResToComplex fr).2

/-- The product of the vector `xr` of a sample with a parameter vector. -/
def dotRe {K : Type} [Field K] (nn nd : Nat) (d : SampleRow K) (x : Nat → K) : K :=
  ∑ i in Finset.range (nn + nd + 1), rowRe nn d i * x i

/-- The product of the vector `xi` of a sample with a parameter vector. -/
def dotIm {K : Type} [Field K] (nn nd : Nat) (d : SampleRow K) (x : Nat → K) : K :=
  ∑ i in Finset.range (nn + nd + 1), rowIm nn d i * x i

/-- The sample `d` of a working set has the tables read for the sample `d0`
and a weight that is not zero. -/
def SameTables (d d0 : SampleRow ℝ) : Prop :=
  d.ps_re = d0.ps_re ∧ d.ps_im = d0.ps_im ∧ d.fr_re = d0.fr_re ∧ d.fr_im = d0.fr_im ∧ d.mag ≠ 0

/-- The left side `N(j omega) - G (D(j omega) - 1)` of the linear equation of
one sample, for the parameter vector `x`. -/
noncomputable def modelAtJw (nn nd : Nat) (x : Nat → ℝ) (G : ℂ) (omega : ℝ) : ℂ :=
  ∑ i in Finset.range (nn + 1), (x i : ℂ) * (Complex.I * omega) ^ i
    - G * ∑ j in Finset.range nd, (x (nn + 1 + j) : ℂ) * (Complex.I * omega) ^ (j + 1)

/-- The residual of the real row of a sample for the parameter vector `x`. -/
def resRe {K : Type} [Field K] (nn nd : Nat) (d : SampleRow K) (x : Nat → K) : K :=
  dotRe nn nd d x - d.fr_re 0 * d.mag

/-- The residual of the imaginary row of a sample for the parameter vector `x`. -/
def resIm {K : Type} [Field K] (nn nd : Nat) (d : SampleRow K) (x : Nat → K) : K :=
  dotIm nn nd d x - d.fr_im 0 * d.mag

/-- The normal equations assembled from the samples `rows`. -/
def NormalEq (nn nd : Nat) (rows : List (SampleRow ℝ)) (q : zMat ℝ) (p : zVec ℝ) : Prop :=
  q.row = nn + nd + 1 ∧ q.col = nn + nd + 1 ∧
  (∀ i j, i < nn + nd + 1 → j < nn + nd + 1 → q.buf i j = (rows.map fun d => qTerm nn d i j).sum) ∧
  (∀ i, i < nn + nd + 1 → p.buf i = (rows.map fun d => pTerm nn d i).sum)

/-- The samples determine the parameters: only the zero vector has a
vanishing left side `N(j omega) - G (D(j omega) - 1)` at every sample. -/
def Identifiable (nn nd : Nat) (list : List dzFreqRes) : Prop :=
  ∀ v : Nat → ℝ,
    (∀ fr, fr ∈ list →
      modelAtJw nn nd v (dzFreqResToComplex fr).1.toC (dzFreqResToComplex fr).2 = 0) →
    ∀ i, i < nn + nd + 1 → v i = 0

/-- The sample `d` of a working set comes from the sample `fr` of the list,
which the transfer function `tf0` generates. -/
def Tracked (tf0 : dzTF ℝ) (nn nd : Nat) (d : SampleRow ℝ) (fr : dzFreqRes) : Prop :=
  SameTables d (readRowOf (max nn nd) fr) ∧ GeneratedBy tf0 nn nd fr

/-- The working set holds the samples of the list, in the order of the list,
with weights that are not zero. -/
def Tracks (tf0 : dzTF ℝ) (nn nd : Nat) (list : List dzFreqRes) (s : dzFreqResIdentData ℝ) :
    Prop :=
  Shape nn nd list.length s ∧ List.Forall₂ (Tracked tf0 nn nd) (sampleRows s) list

/-- The working set holds the samples of the list and the parameters of the
generating transfer function. -/
def Solved (tf0 : dzTF ℝ) (nn nd : Nat) (list : List dzFreqRes) (s : dzFreqResIdentData ℝ) :
    Prop :=
  Tracks tf0 nn nd list s ∧ ∀ i, i < nn + nd + 1 → s.phi.buf i = paramsOf tf0 nn i

/-- The real polynomial with the coefficients `c 0 .. c n`. -/
noncomputable def toPoly (c : Nat → ℝ) (n : Nat) : Polynomial ℝ :=
  ∑ i in Finset.range (n + 1), Polynomial.C (c i) * Polynomial.X ^ i

/-- The denominator part `[0, a_1 .. a_nd]` of a parameter vector. -/
def denPart (nn : Nat) (v : Nat → ℝ) : Nat → ℝ :=
  fun j => if j = 0 then 0 else v (nn + j)

/-- The call of `dzTFIdentFromFreqRes` succeeds and returns the coefficients of
the transfer function `tf0`, with the constant term `1` of the denominator. -/
def RecoversTF (env : zmEnv) (tf : dzTF ℝ) (list : zList dzFreqRes) (nn nd : Nat) (iter : Int)
    (tf0 : dzTF ℝ) : Prop :=
  ∃ tfout, dzTFIdentFromFreqRes env tf list nn nd iter = (true, tfout) ∧
    tfout.num.size = nn + 1 ∧ (∀ i, i ≤ nn → tfout.num.buf i = tf0.num.buf i) ∧
    tfout.den.size = nd + 1 ∧ (∀ i, i ≤ nd → tfout.den.buf i = tf0.den.buf i) ∧
    tfout.den.buf 0 = 1

/-- The transfer function `1 / (1 + 0 s)` of the constant gain scenario. -/
def tfConst : dzTF ℝ :=
  ⟨⟨1, fun i => if i = 0 then 1 else 0⟩, ⟨2, fun i => if i = 0 then 1 else 0⟩⟩

/-- The transfer function `(1 + s) / (1 + s)`. -/
def tfCancelA : dzTF ℝ :=
  ⟨⟨2, fun i => if i ≤ 1 then 1 else 0⟩, ⟨2, fun i => if i ≤ 1 then 1 else 0⟩⟩

/-- The transfer function `(1 + 2 s) / (1 + 2 s)`. -/
def tfCancelB : dzTF ℝ :=
  ⟨⟨2, fun i => if i = 0 then 1 else if i = 1 then 2 else 0⟩,
   ⟨2, fun i => if i = 0 then 1 else if i = 1 then 2 else 0⟩⟩

/-- The transfer function `0 / (1 + 0 s)`, whose parameter vector is zero. -/
def tfZero : dzTF ℝ :=
  ⟨⟨2, fun _ => 0⟩, ⟨2, fun i => if i = 0 then 1 else 0⟩⟩

/-- Three samples of gain `1` (0 dB, 0 deg) at 1, 2 and 3 Hz. -/
def samplesUnit : zList dzFreqRes := [⟨1, 0, 0⟩, ⟨2, 0, 0⟩, ⟨3, 0, 0⟩]

/-! ## Notions used to state the properties -/

/-- The conversion `%.10g` on the numbers 0, 1, 2 and 3, which it writes as
one digit; no other number is used with it. -/
noncomputable def fmtDigit (x : ℝ) : String :=
  if x = 0 then "0" else if x = 1 then "1" else if x = 2 then "2" else if x = 3 then "3" else ""

/-- The conversion `%lf` on the fields of one digit 0, 1, 2 or 3. -/
def rdDigit (t : String) : Option ℝ :=
  if t = "0" then some 0 else if t = "1" then some 1 else if t = "2" then some 2
  else if t = "3" then some 3 else none

/-- The values of a sample survive the text formatting: what `%lf` reads from
what `%.10g` wrote is the value itself. -/
def Survives {Tok : Type} (fmt : ℝ → Tok) (rd : Tok → Option ℝ) (fr : dzFreqRes) : Prop :=
  rd (fmt fr.f) = some fr.f ∧ rd (fmt fr.g) = some fr.g ∧ rd (fmt fr.p) = some fr.p

/-- The fields that `dzFreqResListFPrint` writes for a list of samples. -/
def fieldsOf {Tok : Type} (fmt : ℝ → Tok) (list : List dzFreqRes) : List Tok :=
  list.flatMap fun cp => [fmt cp.f, fmt cp.g, fmt cp.p]

/-- The sample `d` of a working set has the tables that
`_dzFreqResIdentDataRead` writes for the sample `fr` of the list; its weight
is not fixed. -/
def TablesOf (nn nd : Nat) (d : SampleRow ℝ) (fr : dzFreqRes) : Prop :=
  d.ps_re = (readRowOf (max nn nd) fr).ps_re ∧ d.ps_im = (readRowOf (max nn nd) fr).ps_im ∧
  d.fr_re = (readRowOf (max nn nd) fr).fr_re ∧ d.fr_im = (readRowOf (max nn nd) fr).fr_im

/-- A working set of the loop of `_dzFreqResIdent` for the list of samples
`list` and the degrees `nn`, `nd`: it has the sizes that the allocation sets
and holds the tables read from the list, in the order of the list.  The
weights, `phi`, `phi_prev` and the scratch members are not fixed. -/
def Holds (nn nd : Nat) (list : List dzFreqRes) (s : dzFreqResIdentData ℝ) : Prop :=
  Shape nn nd list.length s ∧ List.Forall₂ (TablesOf nn nd) (sampleRows s) list

/-- The numerator `N(j omega; b)` with `b_i = x i`, `i = 0 .. nn`. -/
noncomputable def numAtJw (nn : Nat) (x : Nat → ℝ) (omega : ℝ) : ℂ :=
  ∑ i in Finset.range (nn + 1), (x i : ℂ) * (Complex.I * omega) ^ i

/-- The denominator `D(j omega; a) = 1 + a_1 (j omega) + .. + a_nd (j omega)^nd`
with `a_j = x (nn + j)`. -/
noncomputable def denAtJw (nn nd : Nat) (x : Nat → ℝ) (omega : ℝ) : ℂ :=
  1 + ∑ j in Finset.range nd, (x (nn + (j + 1)) : ℂ) * (Complex.I * omega) ^ (j + 1)

/-- The residual `N(j omega_k; b) - G_k D(j omega_k; a)` of the sample `fr`
for the parameter vector `x = [b_0 .. b_nn, a_1 .. a_nd]`. -/
noncomputable def fitResidual (nn nd : Nat) (x : Nat → ℝ) (fr : dzFreqRes) : ℂ :=
  numAtJw nn x (dzFreqResToComplex fr).2
    - (dzFreqResToComplex fr).1.toC * denAtJw nn nd x (dzFreqResToComplex fr).2

/-- The weighted squared residual `sum_k w_k^pw |N(j omega_k; b) - G_k D(j omega_k; a)|^2`
of a working set, where `w_k` is the value stored in `mag[k]`. -/
noncomputable def weightedError (pw : Nat) (nn nd : Nat) (s : dzFreqResIdentData ℝ)
    (list : List dzFreqRes) (x : Nat → ℝ) : ℝ :=
  (List.zipWith (fun (d : SampleRow ℝ) fr =>
    d.mag ^ pw * Complex.normSq (fitResidual nn nd x fr)) (sampleRows s) list).sum

/-- The matrix has only the trivial solution of `q y = 0`. -/
def Nonsingular (q : zMat ℝ) : Prop :=
  ∀ y : Nat → ℝ, (∀ i, i < q.row → ∑ j in Finset.range q.col, q.buf i j * y j = 0) →
    ∀ j, j < q.col → y j = 0

/-- Two samples: gain `1` (0 dB, 0 deg) at the angular frequency `1` and gain
`j` (0 dB, 90 deg) at the angular frequency `2`. -/
noncomputable def samplesTwo : zList dzFreqRes :=
  [⟨1 / (2 * Real.pi), 0, 0⟩, ⟨1 / Real.pi, 0, 90⟩]

/-- The first sample of `samplesTwo` in a working set, with the weight `m`. -/
noncomputable def rowOne (m : ℝ) : SampleRow ℝ :=
  { readRowOf 1 ⟨1 / (2 * Real.pi), 0, 0⟩ with mag := m }

/-- The second sample of `samplesTwo` in a working set, with the weight `m`. -/
noncomputable def rowTwo (m : ℝ) : SampleRow ℝ :=
  { readRowOf 1 ⟨1 / Real.pi, 0, 90⟩ with mag := m }

/-- The working set at the head of the second pass of the loop of
`_dzFreqResIdent` for the samples `samplesTwo`, the degrees `n_n = 0`,
`n_d = 1` and the exact solver. -/
noncomputable def secondPass : dzFreqResIdentData ℝ :=
  nextStep (solveStep idealEnv (startOf idealEnv.zAlloc samplesTwo 0 1))

/-- Following the spec (§4.5, row assembly): the real row `x_r` of a sample
with the weight `w`, `Re((j omega)^i) √w` for `i = 0 .. nn` and
`-Re(G (j omega)^j) √w` at the index `nn + j`. -/
noncomputable def specRowRe (nn : Nat) (fr : dzFreqRes) (w : ℝ) (i : Nat) : ℝ :=
  if i ≤ nn then ((Complex.I * (dzFreqResToComplex fr).2) ^ i).re * Real.sqrt w
  else -((dzFreqResToComplex fr).1.toC
      * (Complex.I * (dzFreqResToComplex fr).2) ^ (i - nn)).re * Real.sqrt w

/-- Following the spec (§4.5, row assembly): the imaginary row `x_i` of a
sample with the weight `w`. -/
noncomputable def specRowIm (nn : Nat) (fr : dzFreqRes) (w : ℝ) (i : Nat) : ℝ :=
  if i ≤ nn then ((Complex.I * (dzFreqResToComplex fr).2) ^ i).im * Real.sqrt w
  else -((dzFreqResToComplex fr).1.toC
      * (Complex.I * (dzFreqResToComplex fr).2) ^ (i - nn)).im * Real.sqrt w

/-- Following the spec (§4.5): the normal equations accumulated over the
weighted samples `(w_k, sample k)`, `Q = sum x_r x_r^T + x_i x_i^T` and
`P = sum g_r x_r + g_i x_i` with `g_r = Re(G) √w`, `g_i = Im(G) √w`. -/
noncomputable def specNormalEq (nn nd : Nat) (wl : List (ℝ × dzFreqRes)) : zMat ℝ × zVec ℝ :=
  (⟨nn + nd + 1, nn + nd + 1, fun i j => (wl.map fun c =>
      specRowRe nn c.2 c.1 i * specRowRe nn c.2 c.1 j
        + specRowIm nn c.2 c.1 i * specRowIm nn c.2 c.1 j).sum⟩,
   ⟨nn + nd + 1, fun i => (wl.map fun c =>
      (dzFreqResToComplex c.2).1.toC.re * Real.sqrt c.1 * specRowRe nn c.2 c.1 i
        + (dzFreqResToComplex c.2).1.toC.im * Real.sqrt c.1 * specRowIm nn c.2 c.1 i).sum⟩)

/-- The samples of the list, each with the weight `t w_k`, where `w_k` is the
value that the working set holds in `mag[k]`. -/
def weightedSamples (t : ℝ → ℝ) (s : dzFreqResIdentData ℝ) (list : List dzFreqRes) :
    List (ℝ × dzFreqRes) :=
  List.zipWith (fun (d : SampleRow ℝ) fr => (t d.mag, fr)) (sampleRows s) list

/-- The working set for `samplesTwo` and the degrees `n_n = 0`, `n_d = 1` with
the weights `1` and `4`. -/
noncomputable def weighedTwo : dzFreqResIdentData ℝ :=
  { startOf idealEnv.zAlloc samplesTwo 0 1 with mag := ⟨2, fun k => if k = 0 then 1 else 4⟩ }

/-- Following the spec (§9, open question): the power `(j omega)^j` by
incremental complex multiplication, starting at `1 + 0j` and multiplying by
`j omega` in each step. -/
def powIncr {K : Type} [Field K] (omega : K) : Nat → zComplex K
  | 0 => zComplexCreate 1 0
  | j + 1 => zComplexCMul (powIncr omega j) (zComplexCreate 0 omega)

/-- The transfer function with numerator and denominator `[1]`. -/
noncomputable def TF_one : dzTF ℝ :=
  ⟨zPexSetCoeff (zPexAlloc 0) 0 1, zPexSetCoeff (zPexAlloc 0) 0 1⟩

/-- The sample of the complex gain `c` at the angular frequency `omega`, as
`dzFreqResFromComplex` makes it: `f = omega / 2 pi`, `g = 20 log10 |c|`,
`p = arg c` in degrees. -/
noncomputable def sampleOf (c : zComplex ℝ) (omega : ℝ) : dzFreqRes :=
  ⟨omega / zPIx2, 20 * Real.logb 10 (zComplexAbs c), zRad2Deg (zComplexArg c)⟩

/-- Two samples: gain `-12 - 2j` at the angular frequency `1` and gain
`-2 + j` at the angular frequency `2`. -/
noncomputable def samplesPole : zList dzFreqRes :=
  [sampleOf ⟨-12, -2⟩ 1, sampleOf ⟨-2, 1⟩ 2]

/-- The transfer function `1 / (1 + s)`. -/
def tfLag : dzTF ℝ :=
  ⟨⟨1, fun i => if i = 0 then 1 else 0⟩, ⟨2, fun i => if i ≤ 1 then 1 else 0⟩⟩

/-- Two samples of `1 / (1 + s)`: gain `(1 - j) / 2` at the angular frequency
`1` and gain `(1 - 2j) / 5` at the angular frequency `2`. -/
noncomputable def samplesLag : zList dzFreqRes :=
  [sampleOf ⟨1 / 2, -1 / 2⟩ 1, sampleOf ⟨1 / 5, -2 / 5⟩ 2]

/-- The working set at the head of the second pass of the loop of
`_dzFreqResIdent` for the samples `samplesLag`, the degrees `n_n = 0`,
`n_d = 1` and the exact solver. -/
noncomputable def lagPass : dzFreqResIdentData ℝ :=
  nextStep (solveStep idealEnv (startOf idealEnv.zAlloc samplesLag 0 1))

/-- The first sample of `samplesLag` in a working set, with the weight `m`. -/
noncomputable def lagRowOne (m : ℝ) : SampleRow ℝ :=
  { readRowOf 1 (sampleOf ⟨1 / 2, -1 / 2⟩ 1) with mag := m }

/-- The second sample of `samplesLag` in a working set, with the weight `m`. -/
noncomputable def lagRowTwo (m : ℝ) : SampleRow ℝ :=
  { readRowOf 1 (sampleOf ⟨1 / 5, -2 / 5⟩ 2) with mag := m }

/-! ## Basic facts on the polar form -/

theorem zComplexAbs_createPolar (r t : ℝ) (hr : 0 ≤ r) :
    zComplexAbs (zComplexCreatePolar r t) = r := by
  unfold zComplexAbs zComplexCreatePolar zComplexCreate
  have h : r * Real.cos t * (r * Real.cos t) + r * Real.sin t * (r * Real.sin t) = r ^ 2 := by
    have := Real.sin_sq_add_cos_sq t
    nlinarith [this]
  simp only [h]
  exact Real.sqrt_sq hr

theorem zComplexArg_createPolar (r t : ℝ) (hr : 0 < r) (h1 : -Real.pi < t) (h2 : t ≤ Real.pi) :
    zComplexArg (zComplexCreatePolar r t) = t := by
  unfold zComplexArg zComplexCreatePolar zComplexCreate
  have h := Complex.arg_mul_cos_add_sin_mul_I hr ⟨h1, h2⟩
  have e : (⟨r * Real.cos t, r * Real.sin t⟩ : ℂ)
      = (r : ℂ) * (Complex.cos t + Complex.sin t * Complex.I) := by
    apply Complex.ext <;> simp [Complex.cos_ofReal_re, Complex.sin_ofReal_re,
      Complex.cos_ofReal_im, Complex.sin_ofReal_im]
  rw [e]; exact h

theorem zRad2Deg_zDeg2Rad (p : ℝ) : zRad2Deg (zDeg2Rad p) = p := by
  unfold zRad2Deg zDeg2Rad
  field_simp

theorem zDeg2Rad_range (p : ℝ) (h1 : -180 < p) (h2 : p ≤ 180) :
    -Real.pi < zDeg2Rad p ∧ zDeg2Rad p ≤ Real.pi := by
  unfold zDeg2Rad
  have hpi := Real.pi_pos
  constructor
  · have : -Real.pi = (-180) * Real.pi / 180 := by ring
    rw [this]
    apply div_lt_div_of_pos_right _ (by norm_num)
    exact mul_lt_mul_of_pos_right h1 hpi
  · have : Real.pi = 180 * Real.pi / 180 := by ring
    nth_rewrite 2 [this]
    apply div_le_div_of_nonneg_right _ (by norm_num)
    exact mul_le_mul_of_nonneg_right h2 hpi.le

theorem gain_pos (g : ℝ) : 0 < (10 : ℝ) ^ (0.05 * g) :=
  Real.rpow_pos_of_pos (by norm_num) _

theorem gain_roundtrip (g : ℝ) : 20 * Real.logb 10 ((10 : ℝ) ^ (0.05 * g)) = g := by
  rw [Real.logb_rpow (by norm_num) (by norm_num)]
  ring

theorem dzFreqResFromComplex_ToComplex (fr : dzFreqRes) (h1 : -180 < fr.p) (h2 : fr.p ≤ 180) :
    dzFreqResFromComplex (dzFreqResToComplex fr).1 (dzFreqResToComplex fr).2 = some fr := by
  have hr := gain_pos fr.g
  have hrng := zDeg2Rad_range fr.p h1 h2
  unfold dzFreqResFromComplex dzFreqResToComplex
  simp only [zComplexAbs_createPolar _ _ hr.le, zComplexArg_createPolar _ _ hr hrng.1 hrng.2,
    zRad2Deg_zDeg2Rad, gain_roundtrip, if_neg hr.ne']
  have : zPIx2 * fr.f / zPIx2 = fr.f := by
    unfold zPIx2
    field_simp
  rw [this]

/-- C3 (polar round trip): for a sample with `f > 0` and phase in `(-180, 180]`
degrees, `dzFreqResFromComplex` applied to the complex gain and angular
frequency produced by `dzFreqResToComplex` gives back the same `(f, g, p)`. -/
theorem polar_roundtrip (fr : dzFreqRes) (_hf : 0 < fr.f) (h1 : -180 < fr.p) (h2 : fr.p ≤ 180) :
    dzFreqResFromComplex (dzFreqResToComplex fr).1 (dzFreqResToComplex fr).2 = some fr :=
  dzFreqResFromComplex_ToComplex fr h1 h2

theorem polar_roundtrip_witness :
    dzFreqResFromComplex (dzFreqResToComplex ⟨5, -3.0103, 45⟩).1
      (dzFreqResToComplex ⟨5, -3.0103, 45⟩).2 = some ⟨5, -3.0103, 45⟩ :=
  polar_roundtrip ⟨5, -3.0103, 45⟩ (by norm_num) (by norm_num) (by norm_num)

/-! ## Complex gains as complex numbers -/

theorem toC_injective {a b : zComplex ℝ} (h : a.toC = b.toC) : a = b := by
  cases a; cases b
  simp only [zComplex.toC, Complex.mk.injEq] at h
  simp [h.1, h.2]

theorem toC_eq_zero_iff (c : zComplex ℝ) : c.toC = 0 ↔ (c.re = 0 ∧ c.im = 0) := by
  simp [zComplex.toC, Complex.ext_iff]

theorem toC_CMul (a b : zComplex ℝ) : (zComplexCMul a b).toC = a.toC * b.toC := by
  apply Complex.ext <;> simp [zComplex.toC, zComplexCMul]

theorem zComplexCDiv_eq (a b : zComplex ℝ) (hb : b.toC ≠ 0) :
    ∃ c, zComplexCDiv a b = some c ∧ c.toC = a.toC / b.toC := by
  have hb' : ¬ (b.re = 0 ∧ b.im = 0) := fun h => hb ((toC_eq_zero_iff b).2 h)
  refine ⟨⟨(a.re * b.re + a.im * b.im) / (b.re * b.re + b.im * b.im),
    (a.im * b.re - a.re * b.im) / (b.re * b.re + b.im * b.im)⟩,
    by simp only [zComplexCDiv, if_neg hb'], ?_⟩
  apply Complex.ext
  · simp only [zComplex.toC, Complex.div_re, Complex.normSq_apply]
    ring
  · simp only [zComplex.toC, Complex.div_im, Complex.normSq_apply]
    ring

theorem zComplexAbs_eq (c : zComplex ℝ) : zComplexAbs c = Complex.abs c.toC := by
  simp [zComplexAbs, zComplex.toC, Complex.abs_apply, Complex.normSq_apply]

theorem zComplexAbs_eq_zero_iff (c : zComplex ℝ) : zComplexAbs c = 0 ↔ c.toC = 0 := by
  rw [zComplexAbs_eq]
  exact map_eq_zero Complex.abs

theorem gain_ne_zero (fr : dzFreqRes) : (dzFreqResToComplex fr).1.toC ≠ 0 := by
  intro h
  have h0 := (zComplexAbs_eq_zero_iff _).2 h
  have hr := gain_pos fr.g
  simp only [dzFreqResToComplex, zComplexAbs_createPolar _ _ hr.le] at h0
  exact hr.ne' h0

theorem zDeg2Rad_zRad2Deg (t : ℝ) : zDeg2Rad (zRad2Deg t) = t := by
  unfold zRad2Deg zDeg2Rad
  field_simp

/-- A non-zero complex gain is recovered from the sample made of it. -/
theorem dzFreqResToComplex_FromComplex (c : zComplex ℝ) (af : ℝ) (hc : c.toC ≠ 0) :
    ∃ fr, dzFreqResFromComplex c af = some fr ∧ dzFreqResToComplex fr = (c, af) := by
  have habs : zComplexAbs c ≠ 0 := fun h => hc ((zComplexAbs_eq_zero_iff c).1 h)
  have hpos : 0 < zComplexAbs c := by
    rw [zComplexAbs_eq]; exact Complex.abs.pos hc
  refine ⟨⟨af / zPIx2, 20 * Real.logb 10 (zComplexAbs c), zRad2Deg (zComplexArg c)⟩,
    by simp only [dzFreqResFromComplex, if_neg habs], ?_⟩
  have hg : (10 : ℝ) ^ (0.05 * (20 * Real.logb 10 (zComplexAbs c))) = zComplexAbs c := by
    have : (0.05 : ℝ) * (20 * Real.logb 10 (zComplexAbs c)) = Real.logb 10 (zComplexAbs c) := by
      ring
    rw [this]
    exact Real.rpow_logb (by norm_num) (by norm_num) hpos
  have hf : zPIx2 * (af / zPIx2) = af := by
    unfold zPIx2
    field_simp
  simp only [dzFreqResToComplex, hg, hf, zDeg2Rad_zRad2Deg]
  congr 1
  apply toC_injective
  have hcos := Complex.cos_arg hc
  have hsin := Complex.sin_arg c.toC
  apply Complex.ext
  · simp only [zComplex.toC, zComplexCreatePolar, zComplexCreate, zComplexArg]
    rw [zComplexAbs_eq] at hpos ⊢
    simp only [zComplex.toC] at hcos hpos ⊢
    rw [hcos]
    field_simp
  · simp only [zComplex.toC, zComplexCreatePolar, zComplexCreate, zComplexArg]
    rw [zComplexAbs_eq] at hpos ⊢
    simp only [zComplex.toC] at hsin hpos ⊢
    rw [hsin]
    field_simp

theorem dzFreqResFromComplex_phase_le (c : zComplex ℝ) (af : ℝ) (fr : dzFreqRes)
    (h : dzFreqResFromComplex c af = some fr) : fr.p ≤ 180 := by
  unfold dzFreqResFromComplex at h
  split at h
  · exact absurd h (by simp)
  · have e := Option.some.inj h
    rw [← e]
    simp only [zRad2Deg, zComplexArg]
    have h1 := Complex.arg_le_pi (⟨c.re, c.im⟩ : ℂ)
    have hpi := Real.pi_pos
    rw [div_le_iff₀ hpi]
    nlinarith

/-! ## Transforms of one sample -/

theorem angFreq_eq_iff (a b : dzFreqRes) :
    (dzFreqResToComplex a).2 = (dzFreqResToComplex b).2 ↔ a.f = b.f := by
  have hpi := Real.pi_pos
  simp only [dzFreqResToComplex, zPIx2]
  constructor
  · intro h
    have h2 : (2 * Real.pi) ≠ 0 := by positivity
    exact mul_left_cancel₀ h2 h
  · intro h; rw [h]

theorem dzFreqRes2Closed_eq (frin : dzFreqRes)
    (h : 1 + (dzFreqResToComplex frin).1.toC ≠ 0) :
    ∃ c : zComplex ℝ,
      c.toC = (dzFreqResToComplex frin).1.toC / (1 + (dzFreqResToComplex frin).1.toC) ∧
      dzFreqRes2Closed frin = dzFreqResFromComplex c (dzFreqResToComplex frin).2 := by
  have e : (zComplexCreate (1 + (dzFreqResToComplex frin).1.re)
      (dzFreqResToComplex frin).1.im).toC = 1 + (dzFreqResToComplex frin).1.toC := by
    apply Complex.ext <;> simp [zComplex.toC, zComplexCreate]
  obtain ⟨c, hc, hct⟩ := zComplexCDiv_eq (dzFreqResToComplex frin).1
    (zComplexCreate (1 + (dzFreqResToComplex frin).1.re) (dzFreqResToComplex frin).1.im)
    (by rw [e]; exact h)
  refine ⟨c, by rw [hct, e], ?_⟩
  simp only [dzFreqRes2Closed, hc]

theorem dzFreqRes2Open_eq (frin : dzFreqRes)
    (h : 1 - (dzFreqResToComplex frin).1.toC ≠ 0) :
    ∃ c : zComplex ℝ,
      c.toC = (dzFreqResToComplex frin).1.toC / (1 - (dzFreqResToComplex frin).1.toC) ∧
      dzFreqRes2Open frin = dzFreqResFromComplex c (dzFreqResToComplex frin).2 := by
  have e : (zComplexCreate (1 - (dzFreqResToComplex frin).1.re)
      (-(dzFreqResToComplex frin).1.im)).toC = 1 - (dzFreqResToComplex frin).1.toC := by
    apply Complex.ext <;> simp [zComplex.toC, zComplexCreate]
  obtain ⟨c, hc, hct⟩ := zComplexCDiv_eq (dzFreqResToComplex frin).1
    (zComplexCreate (1 - (dzFreqResToComplex frin).1.re) (-(dzFreqResToComplex frin).1.im))
    (by rw [e]; exact h)
  refine ⟨c, by rw [hct, e], ?_⟩
  simp only [dzFreqRes2Open, hc]

theorem dzFreqRes2Closed_phase_le (frin frout : dzFreqRes)
    (h : dzFreqRes2Closed frin = some frout) : frout.p ≤ 180 := by
  simp only [dzFreqRes2Closed] at h
  split at h
  · exact absurd h (by simp)
  · exact dzFreqResFromComplex_phase_le _ _ _ h

theorem dzFreqRes2Open_phase_le (frin frout : dzFreqRes)
    (h : dzFreqRes2Open frin = some frout) : frout.p ≤ 180 := by
  simp only [dzFreqRes2Open] at h
  split at h
  · exact absurd h (by simp)
  · exact dzFreqResFromComplex_phase_le _ _ _ h

theorem toC_ne_one_of_ne (c : zComplex ℝ) (h : c ≠ ⟨1, 0⟩) : c.toC ≠ 1 := by
  intro e
  apply h
  apply toC_injective
  rw [e]
  apply Complex.ext <;> simp [zComplex.toC]

theorem toC_ne_neg_one_of_ne (c : zComplex ℝ) (h : c ≠ ⟨-1, 0⟩) : c.toC ≠ -1 := by
  intro e
  apply h
  apply toC_injective
  rw [e]
  apply Complex.ext <;> simp [zComplex.toC]

theorem open_then_closed (X : dzFreqRes) (h1 : -180 < X.p) (h2 : X.p ≤ 180)
    (hG : (dzFreqResToComplex X).1.toC ≠ 1) :
    (dzFreqRes2Open X).bind dzFreqRes2Closed = some X := by
  have hG0 := gain_ne_zero X
  have hd : 1 - (dzFreqResToComplex X).1.toC ≠ 0 := fun h => hG (by linear_combination -h)
  obtain ⟨c1, hc1, e1⟩ := dzFreqRes2Open_eq X hd
  have hc1ne : c1.toC ≠ 0 := by rw [hc1]; exact div_ne_zero hG0 hd
  obtain ⟨Y, hY, hYc⟩ := dzFreqResToComplex_FromComplex c1 (dzFreqResToComplex X).2 hc1ne
  have hsum : 1 + c1.toC = 1 / (1 - (dzFreqResToComplex X).1.toC) := by
    rw [hc1]; field_simp
  have hd2 : 1 + (dzFreqResToComplex Y).1.toC ≠ 0 := by
    rw [hYc]; simp only; rw [hsum]; exact one_div_ne_zero hd
  obtain ⟨c2, hc2, e2⟩ := dzFreqRes2Closed_eq Y hd2
  rw [hYc] at hc2 e2
  simp only at hc2 e2
  have hc2eq : c2 = (dzFreqResToComplex X).1 := by
    apply toC_injective
    rw [hc2, hsum, hc1]
    field_simp
  rw [e1, hY, Option.some_bind, e2, hc2eq]
  exact dzFreqResFromComplex_ToComplex X h1 h2

theorem closed_then_open (X : dzFreqRes) (h1 : -180 < X.p) (h2 : X.p ≤ 180)
    (hG : (dzFreqResToComplex X).1.toC ≠ -1) :
    (dzFreqRes2Closed X).bind dzFreqRes2Open = some X := by
  have hG0 := gain_ne_zero X
  have hd : 1 + (dzFreqResToComplex X).1.toC ≠ 0 := fun h => hG (by linear_combination h)
  obtain ⟨c1, hc1, e1⟩ := dzFreqRes2Closed_eq X hd
  have hc1ne : c1.toC ≠ 0 := by rw [hc1]; exact div_ne_zero hG0 hd
  obtain ⟨Y, hY, hYc⟩ := dzFreqResToComplex_FromComplex c1 (dzFreqResToComplex X).2 hc1ne
  have hsum : 1 - c1.toC = 1 / (1 + (dzFreqResToComplex X).1.toC) := by
    rw [hc1]; field_simp
  have hd2 : 1 - (dzFreqResToComplex Y).1.toC ≠ 0 := by
    rw [hYc]; simp only; rw [hsum]; exact one_div_ne_zero hd
  obtain ⟨c2, hc2, e2⟩ := dzFreqRes2Open_eq Y hd2
  rw [hYc] at hc2 e2
  simp only at hc2 e2
  have hc2eq : c2 = (dzFreqResToComplex X).1 := by
    apply toC_injective
    rw [hc2, hsum, hc1]
    field_simp
  rw [e1, hY, Option.some_bind, e2, hc2eq]
  exact dzFreqResFromComplex_ToComplex X h1 h2

theorem sin_270 : Real.sin (zDeg2Rad 270) = -1 := by
  have e : zDeg2Rad 270 = Real.pi / 2 + Real.pi := by
    unfold zDeg2Rad; ring
  rw [e, Real.sin_add_pi, Real.sin_pi_div_two]

/-- C4, as stated, fails for a phase outside `(-180, 180]`: the sample
`(f, g, p) = (1, 0, 270)` has complex gain `-j`, which is neither `1` nor
`-1`, and the round trip through `dzFreqRes2Open` and `dzFreqRes2Closed` does
not give back the phase `270`. -/
theorem open_closed_duality_counterexample :
    (dzFreqResToComplex ⟨1, 0, 270⟩).1 ≠ ⟨-1, 0⟩ ∧
    (dzFreqResToComplex ⟨1, 0, 270⟩).1 ≠ ⟨1, 0⟩ ∧
    ¬ ((dzFreqRes2Open ⟨1, 0, 270⟩).bind dzFreqRes2Closed = some ⟨1, 0, 270⟩ ∧
       (dzFreqRes2Closed ⟨1, 0, 270⟩).bind dzFreqRes2Open = some ⟨1, 0, 270⟩) := by
  have him : (dzFreqResToComplex ⟨1, 0, 270⟩).1.im = -1 := by
    simp [dzFreqResToComplex, zComplexCreatePolar, zComplexCreate, sin_270]
  refine ⟨?_, ?_, ?_⟩
  · intro h
    rw [h] at him
    norm_num at him
  · intro h
    rw [h] at him
    norm_num at him
  · rintro ⟨h, -⟩
    obtain ⟨Y, -, hY⟩ := Option.bind_eq_some.1 h
    have := dzFreqRes2Closed_phase_le Y _ hY
    norm_num at this

/-- C4, amended: for a sample `X` with phase in `(-180, 180]` degrees whose
complex gain is neither `-1` nor `1`, closing the opened sample and opening
the closed sample both give back `X` as an `(f, g, p)` triple. -/
theorem open_closed_duality (X : dzFreqRes) (h1 : -180 < X.p) (h2 : X.p ≤ 180)
    (hm : (dzFreqResToComplex X).1 ≠ ⟨-1, 0⟩) (hp : (dzFreqResToComplex X).1 ≠ ⟨1, 0⟩) :
    (dzFreqRes2Open X).bind dzFreqRes2Closed = some X ∧
    (dzFreqRes2Closed X).bind dzFreqRes2Open = some X :=
  ⟨open_then_closed X h1 h2 (toC_ne_one_of_ne _ hp),
   closed_then_open X h1 h2 (toC_ne_neg_one_of_ne _ hm)⟩

theorem sin_90 : Real.sin (zDeg2Rad 90) = 1 := by
  have e : zDeg2Rad 90 = Real.pi / 2 := by
    unfold zDeg2Rad; ring
  rw [e, Real.sin_pi_div_two]

theorem gain_90_im : (dzFreqResToComplex ⟨1, 0, 90⟩).1.im = 1 := by
  simp [dzFreqResToComplex, zComplexCreatePolar, zComplexCreate, sin_90]

theorem open_closed_duality_witness :
    (dzFreqRes2Open ⟨1, 0, 90⟩).bind dzFreqRes2Closed = some ⟨1, 0, 90⟩ ∧
    (dzFreqRes2Closed ⟨1, 0, 90⟩).bind dzFreqRes2Open = some ⟨1, 0, 90⟩ :=
  open_closed_duality ⟨1, 0, 90⟩ (by norm_num) (by norm_num)
    (by intro h; have := gain_90_im; rw [h] at this; norm_num at this)
    (by intro h; have := gain_90_im; rw [h] at this; norm_num at this)

theorem zPexValAtJw_TF_one (w : ℝ) : zPexValAtJw TF_one.num w = ⟨1, 0⟩ := by
  have hr : List.range 1 = [0] := rfl
  simp [TF_one, zPexValAtJw, zPexSetCoeff, zVecSetElemNC, zPexAlloc, zVecAlloc, hr]

theorem dzTFFreqRes_TF_one (w : ℝ) : dzTFFreqRes TF_one w = some ⟨1, 0⟩ := by
  have hd : TF_one.den = TF_one.num := rfl
  simp [dzTFFreqRes, hd, zPexValAtJw_TF_one, zComplexCDiv]

theorem zComplexCMul_one (c : zComplex ℝ) : zComplexCMul ⟨1, 0⟩ c = c := by
  cases c
  simp [zComplexCMul]

theorem dzFreqResConnectTF_TF_one (X : dzFreqRes) :
    dzFreqResConnectTF X TF_one
      = dzFreqResFromComplex (dzFreqResToComplex X).1 (dzFreqResToComplex X).2 := by
  simp only [dzFreqResConnectTF, dzTFFreqRes_TF_one, zComplexCMul_one]

theorem gain_360 : dzFreqResToComplex ⟨1, 0, 360⟩ = dzFreqResToComplex ⟨1, 0, 0⟩ := by
  have e : zDeg2Rad 360 = 2 * Real.pi := by
    unfold zDeg2Rad; ring
  have e0 : zDeg2Rad 0 = 0 := by
    unfold zDeg2Rad; ring
  simp only [dzFreqResToComplex, e, e0, zComplexCreatePolar, zComplexCreate, Real.cos_two_pi,
    Real.sin_two_pi, Real.cos_zero, Real.sin_zero]

/-- C5, as stated, fails for a phase outside `(-180, 180]`: the sample
`(f, g, p) = (1, 0, 360)` connected with `TF_one` comes back as `(1, 0, 0)`. -/
theorem cascade_identity_counterexample :
    dzFreqResConnectTF ⟨1, 0, 360⟩ TF_one = some ⟨1, 0, 0⟩ ∧
    dzFreqResConnectTF ⟨1, 0, 360⟩ TF_one ≠ some ⟨1, 0, 360⟩ := by
  have h : dzFreqResConnectTF ⟨1, 0, 360⟩ TF_one = some ⟨1, 0, 0⟩ := by
    rw [dzFreqResConnectTF_TF_one, gain_360]
    exact dzFreqResFromComplex_ToComplex ⟨1, 0, 0⟩ (by norm_num) (by norm_num)
  refine ⟨h, ?_⟩
  rw [h]
  intro e
  have := congrArg dzFreqRes.p (Option.some.inj e)
  norm_num at this

/-- C5, amended: the frequency response of `TF_one` is `1` at every angular
frequency, and for every sample `X` with phase in `(-180, 180]` degrees
`dzFreqResConnectTF( X, TF_one )` is `X`. -/
theorem cascade_identity (X : dzFreqRes) (h1 : -180 < X.p) (h2 : X.p ≤ 180) :
    (∀ w : ℝ, dzTFFreqRes TF_one w = some ⟨1, 0⟩) ∧
    dzFreqResConnectTF X TF_one = some X := by
  refine ⟨dzTFFreqRes_TF_one, ?_⟩
  rw [dzFreqResConnectTF_TF_one]
  exact dzFreqResFromComplex_ToComplex X h1 h2

theorem cascade_identity_witness :
    (∀ w : ℝ, dzTFFreqRes TF_one w = some ⟨1, 0⟩) ∧
    dzFreqResConnectTF ⟨5, -3, 45⟩ TF_one = some ⟨5, -3, 45⟩ :=
  cascade_identity ⟨5, -3, 45⟩ (by norm_num) (by norm_num)

/-- C6 (open loop to closed loop): for a sample whose complex gain `G` has
`1 + G ≠ 0`, `dzFreqRes2Closed` yields a sample at the same frequency whose
complex gain is `G / (1 + G)`. -/
theorem open_to_closed_formula (frin : dzFreqRes)
    (h : 1 + (dzFreqResToComplex frin).1.toC ≠ 0) :
    ∃ frout, dzFreqRes2Closed frin = some frout ∧ frout.f = frin.f ∧
      (dzFreqResToComplex frout).1.toC
        = (dzFreqResToComplex frin).1.toC / (1 + (dzFreqResToComplex frin).1.toC) := by
  obtain ⟨c, hc, e⟩ := dzFreqRes2Closed_eq frin h
  have hcne : c.toC ≠ 0 := by rw [hc]; exact div_ne_zero (gain_ne_zero frin) h
  obtain ⟨Y, hY, hYc⟩ := dzFreqResToComplex_FromComplex c (dzFreqResToComplex frin).2 hcne
  refine ⟨Y, by rw [e, hY], ?_, ?_⟩
  · exact (angFreq_eq_iff Y frin).1 (by rw [hYc])
  · rw [hYc]; exact hc

theorem gain_0dB (f : ℝ) : (dzFreqResToComplex ⟨f, 0, 0⟩).1 = ⟨1, 0⟩ := by
  simp [dzFreqResToComplex, zComplexCreatePolar, zComplexCreate, zDeg2Rad]

theorem dzFreqRes2Closed_0dB :
    dzFreqRes2Closed ⟨1, 0, 0⟩ = some ⟨1, 20 * Real.logb 10 (1 / 2), 0⟩ := by
  have hc : zComplexCDiv (⟨1, 0⟩ : zComplex ℝ) (zComplexCreate (1 + 1) 0) = some ⟨1 / 2, 0⟩ := by
    simp only [zComplexCDiv, zComplexCreate]
    norm_num
  have habs : zComplexAbs ⟨1 / 2, 0⟩ = 1 / 2 := by
    unfold zComplexAbs
    have : ((1 : ℝ) / 2 * (1 / 2) + 0 * 0) = (1 / 2) ^ 2 := by norm_num
    rw [this]
    exact Real.sqrt_sq (by norm_num)
  have harg : zComplexArg ⟨1 / 2, 0⟩ = 0 := by
    unfold zComplexArg
    have : (⟨1 / 2, 0⟩ : ℂ) = ((1 / 2 : ℝ) : ℂ) := by
      apply Complex.ext <;> simp
    rw [this]
    exact Complex.arg_ofReal_of_nonneg (by norm_num)
  have haf : (dzFreqResToComplex ⟨1, 0, 0⟩).2 = zPIx2 := by
    simp [dzFreqResToComplex]
  simp only [dzFreqRes2Closed, gain_0dB, haf, hc, dzFreqResFromComplex, habs, harg]
  have hpi : zPIx2 ≠ 0 := by
    unfold zPIx2; positivity
  simp [zRad2Deg, hpi]

theorem open_to_closed_formula_witness :
    (∃ frout, dzFreqRes2Closed ⟨1, 0, 0⟩ = some frout ∧ frout.f = 1 ∧
      (dzFreqResToComplex frout).1.toC
        = (dzFreqResToComplex ⟨1, 0, 0⟩).1.toC / (1 + (dzFreqResToComplex ⟨1, 0, 0⟩).1.toC)) ∧
    (dzFreqResToComplex ⟨1, 0, 0⟩).1.toC / (1 + (dzFreqResToComplex ⟨1, 0, 0⟩).1.toC) = 1 / 2 ∧
    dzFreqRes2Closed ⟨1, 0, 0⟩ = some ⟨1, 20 * Real.logb 10 (1 / 2), 0⟩ := by
  have hG : (dzFreqResToComplex ⟨1, 0, 0⟩).1.toC = 1 := by
    rw [gain_0dB]
    apply Complex.ext <;> simp [zComplex.toC]
  refine ⟨open_to_closed_formula ⟨1, 0, 0⟩ ?_, ?_, dzFreqRes2Closed_0dB⟩
  · rw [hG]; norm_num
  · rw [hG]; norm_num

/-! ## Lists of samples -/

theorem convLoop_granted {α β : Type} (conv : α → β) (alloc : Nat → Bool) :
    ∀ (rest : List α) (k : Nat) (outlist : zList β),
      (∀ i, i < rest.length → alloc (k + i) = true) →
      convLoop conv alloc rest k outlist = outlist ++ rest.map conv
  | [], k, outlist, _ => by simp [convLoop]
  | cpin :: rest, k, outlist, h => by
    have h0 : alloc k = true := by simpa using h 0 (by simp)
    have hrest : ∀ i, i < rest.length → alloc (k + 1 + i) = true := by
      intro i hi
      have := h (i + 1) (by simpa using hi)
      rwa [show k + 1 + i = k + (i + 1) by omega]
    rw [convLoop, if_pos h0, convLoop_granted conv alloc rest (k + 1) _ hrest]
    simp [zListInsertHead]

theorem DZ_FREQRESLIST_CONV_granted {α β : Type} (conv : α → β) (alloc : Nat → Bool)
    (inlist : zList α) (h : ∀ i, i < inlist.length → alloc i = true) :
    DZ_FREQRESLIST_CONV conv alloc inlist = (inlist.map conv, inlist.length) := by
  have e := convLoop_granted conv alloc inlist 0 zListInit (by simpa using h)
  simp only [zListInit, List.nil_append] at e
  simp only [DZ_FREQRESLIST_CONV, zListInit, e, zListSize, List.length_map]

/-- C7 (order preservation): when no allocation request is refused, each of
`dzFreqResList2Closed`, `dzFreqResList2Open` and `dzFreqResListConnectTF`
produces the list of the transformed samples in the order of the input list,
which has the length of the input list, and returns that length. -/
theorem list_transform_order (alloc : Nat → Bool) (inlist : zList dzFreqRes) (tf : dzTF ℝ)
    (h : ∀ i, i < inlist.length → alloc i = true) :
    dzFreqResList2Closed alloc inlist = (inlist.map dzFreqRes2Closed, inlist.length) ∧
    dzFreqResList2Open alloc inlist = (inlist.map dzFreqRes2Open, inlist.length) ∧
    dzFreqResListConnectTF alloc inlist tf
      = (inlist.map (fun fr => dzFreqResConnectTF fr tf), inlist.length) ∧
    (∀ i (hi : i < inlist.length),
      (dzFreqResList2Closed alloc inlist).1[i]? = some (dzFreqRes2Closed inlist[i]) ∧
      (dzFreqResList2Open alloc inlist).1[i]? = some (dzFreqRes2Open inlist[i]) ∧
      (dzFreqResListConnectTF alloc inlist tf).1[i]?
        = some (dzFreqResConnectTF inlist[i] tf)) := by
  have e1 := DZ_FREQRESLIST_CONV_granted dzFreqRes2Closed alloc inlist h
  have e2 := DZ_FREQRESLIST_CONV_granted dzFreqRes2Open alloc inlist h
  have e3 := DZ_FREQRESLIST_CONV_granted (fun fr => dzFreqResConnectTF fr tf) alloc inlist h
  refine ⟨e1, e2, e3, ?_⟩
  intro i hi
  simp only [dzFreqResList2Closed, dzFreqResList2Open, dzFreqResListConnectTF, e1, e2, e3]
  simp [List.getElem?_map, List.getElem?_eq_getElem hi]

theorem list_transform_order_witness :
    dzFreqResList2Closed (fun _ => true) [⟨1, 0, 0⟩, ⟨2, 0, 90⟩]
      = ([dzFreqRes2Closed ⟨1, 0, 0⟩, dzFreqRes2Closed ⟨2, 0, 90⟩], 2) :=
  (list_transform_order (fun _ => true) [⟨1, 0, 0⟩, ⟨2, 0, 90⟩] TF_one (fun _ _ => rfl)).1

/-! ## The working set after reading the samples -/

theorem zVecArraySetElem_fill {K : Type} (a : Nat → Nat → K) (F : Nat → K) (k m : Nat) :
    zVecArraySetElem (fun k' j => if k' = k ∧ j < m then F j else a k' j) k m (F m)
      = fun k' j => if k' = k ∧ j < m + 1 then F j else a k' j := by
  funext k' j
  unfold zVecArraySetElem
  by_cases hk : k' = k
  · subst hk
    by_cases hj : j = m
    · subst hj
      simp
    · have h1 : (j < m + 1) ↔ (j < m) := by omega
      simp [Function.update, hj, h1]
  · simp [Function.update, hk]

theorem readPowers_range {K : Type} [Field K] (t : dzFreqResIdentData K) (k : Nat) (omega : K)
    (m : Nat) :
    (List.range m).foldl (fun s j =>
      let omegaj := omega ^ j
      let iomegaj : zComplex K :=
        if j % 2 = 0 then zComplexCreate (if (j / 2) % 2 = 0 then omegaj else -omegaj) 0
        else zComplexCreate 0 (if ((j - 1) / 2) % 2 = 0 then omegaj else -omegaj)
      let c := zComplexCMul (s.freq_res k) iomegaj
      { s with
        ps_re := zVecArraySetElem s.ps_re k j iomegaj.re
        ps_im := zVecArraySetElem s.ps_im k j iomegaj.im
        fr_re := zVecArraySetElem s.fr_re k j c.re
        fr_im := zVecArraySetElem s.fr_im k j c.im }) t
    = { t with
        ps_re := fun k' j => if k' = k ∧ j < m then (iomegaPow omega j).re else t.ps_re k' j
        ps_im := fun k' j => if k' = k ∧ j < m then (iomegaPow omega j).im else t.ps_im k' j
        fr_re := fun k' j => if k' = k ∧ j < m
          then (zComplexCMul (t.freq_res k) (iomegaPow omega j)).re else t.fr_re k' j
        fr_im := fun k' j => if k' = k ∧ j < m
          then (zComplexCMul (t.freq_res k) (iomegaPow omega j)).im else t.fr_im k' j } := by
  induction m with
  | zero => simp
  | succ m ih =>
    rw [List.range_succ, List.foldl_append, ih]
    simp only [List.foldl_cons, List.foldl_nil]
    have e1 := zVecArraySetElem_fill t.ps_re (fun j => (iomegaPow omega j).re) k m
    have e2 := zVecArraySetElem_fill t.ps_im (fun j => (iomegaPow omega j).im) k m
    have e3 := zVecArraySetElem_fill t.fr_re
      (fun j => (zComplexCMul (t.freq_res k) (iomegaPow omega j)).re) k m
    have e4 := zVecArraySetElem_fill t.fr_im
      (fun j => (zComplexCMul (t.freq_res k) (iomegaPow omega j)).im) k m
    simp only [iomegaPow] at e1 e2 e3 e4 ⊢
    rw [e1, e2, e3, e4]



theorem readPowers_eq {K : Type} [Field K] (t : dzFreqResIdentData K) (k : Nat) (omega : K) :
    readPowers t k omega
    = { t with
        ps_re := fun k' j => if k' = k ∧ j < t.ndim + 1 then (iomegaPow omega j).re
          else t.ps_re k' j
        ps_im := fun k' j => if k' = k ∧ j < t.ndim + 1 then (iomegaPow omega j).im
          else t.ps_im k' j
        fr_re := fun k' j => if k' = k ∧ j < t.ndim + 1
          then (zComplexCMul (t.freq_res k) (iomegaPow omega j)).re else t.fr_re k' j
        fr_im := fun k' j => if k' = k ∧ j < t.ndim + 1
          then (zComplexCMul (t.freq_res k) (iomegaPow omega j)).im else t.fr_im k' j } :=
  readPowers_range t k omega (t.ndim + 1)

theorem readLoop_spec : ∀ (list : List dzFreqRes) (k0 : Nat) (t : dzFreqResIdentData ℝ),
    RowsClear t k0 →
    ReadFrame (readLoop list k0 t) t ∧
    (∀ k, k < k0 → sampleRow (readLoop list k0 t) k = sampleRow t k) ∧
    (∀ i cp, list[i]? = some cp →
      sampleRow (readLoop list k0 t) (k0 + i)
        = readRow t.ndim (dzFreqResToComplex cp).1 (dzFreqResToComplex cp).2)
  | [], k0, t, _ => by
    refine ⟨⟨rfl, rfl, rfl, rfl, rfl, rfl, rfl, rfl, rfl, rfl, rfl⟩, fun _ _ => rfl, ?_⟩
    intro i cp h
    simp at h
  | cp :: rest, k0, t, hclear => by
    have hstep : readLoop (cp :: rest) k0 t
        = readLoop rest (k0 + 1) (readPowers
            { t with
              freq_res := Function.update t.freq_res k0 (dzFreqResToComplex cp).1
              ang_freq := zVecSetElemNC t.ang_freq k0 (dzFreqResToComplex cp).2
              mag := zVecSetElemNC t.mag k0 1 } k0 (dzFreqResToComplex cp).2) := rfl
    rw [hstep, readPowers_eq]
    simp only [Function.update_same]
    generalize ht1 : ({ t with
        freq_res := Function.update t.freq_res k0 (dzFreqResToComplex cp).1
        ang_freq := zVecSetElemNC t.ang_freq k0 (dzFreqResToComplex cp).2
        mag := zVecSetElemNC t.mag k0 1
        ps_re := fun k' j => if k' = k0 ∧ j < t.ndim + 1
          then (iomegaPow (dzFreqResToComplex cp).2 j).re else t.ps_re k' j
        ps_im := fun k' j => if k' = k0 ∧ j < t.ndim + 1
          then (iomegaPow (dzFreqResToComplex cp).2 j).im else t.ps_im k' j
        fr_re := fun k' j => if k' = k0 ∧ j < t.ndim + 1
          then (zComplexCMul (dzFreqResToComplex cp).1
            (iomegaPow (dzFreqResToComplex cp).2 j)).re else t.fr_re k' j
        fr_im := fun k' j => if k' = k0 ∧ j < t.ndim + 1
          then (zComplexCMul (dzFreqResToComplex cp).1
            (iomegaPow (dzFreqResToComplex cp).2 j)).im else t.fr_im k' j } :
        dzFreqResIdentData ℝ) = t1
    have hclear1 : RowsClear t1 (k0 + 1) := by
      intro k hk j
      have hne : ¬ (k = k0 ∧ j < t.ndim + 1) := fun h => by omega
      subst ht1
      simp only [if_neg hne]
      exact hclear k (by omega) j
    obtain ⟨hf, hlow, hrows⟩ := readLoop_spec rest (k0 + 1) t1 hclear1
    have hft : ReadFrame t1 t := by
      subst ht1
      exact ⟨rfl, rfl, rfl, rfl, rfl, rfl, rfl, rfl, rfl, rfl, rfl⟩
    have hlowt : ∀ k, k < k0 → sampleRow t1 k = sampleRow t k := by
      intro k hk
      have hne : k ≠ k0 := by omega
      subst ht1
      simp [sampleRow, zVecSetElemNC, Function.update, hne]
    have hk0 : sampleRow t1 k0
        = readRow t.ndim (dzFreqResToComplex cp).1 (dzFreqResToComplex cp).2 := by
      subst ht1
      simp only [sampleRow, readRow, zVecSetElemNC, Function.update_same, true_and]
      congr 1 <;> funext j <;> by_cases hj : j < t.ndim + 1
      all_goals first
        | (have hj' : j ≤ t.ndim := by omega
           simp [hj, hj'])
        | (have hj' : ¬ j ≤ t.ndim := by omega
           have h0 := hclear k0 (le_refl _) j
           simp [hj, hj', h0.1, h0.2.1, h0.2.2.1, h0.2.2.2])
    refine ⟨?_, ?_, ?_⟩
    · obtain ⟨a1, a2, a3, a4, a5, a6, a7, a8, a9, a10, a11⟩ := hf
      obtain ⟨b1, b2, b3, b4, b5, b6, b7, b8, b9, b10, b11⟩ := hft
      exact ⟨a1.trans b1, a2.trans b2, a3.trans b3, a4.trans b4, a5.trans b5, a6.trans b6,
        a7.trans b7, a8.trans b8, a9.trans b9, a10.trans b10, a11.trans b11⟩
    · intro k hk
      rw [hlow k (by omega), hlowt k hk]
    · intro i c hi
      cases i with
      | zero =>
        simp only [List.getElem?_cons_zero, Option.some.injEq] at hi
        subst hi
        exact (hlow k0 (by omega)).trans hk0
      | succ i =>
        simp only [List.getElem?_cons_succ] at hi
        have := hrows i c hi
        rw [show k0 + (i + 1) = k0 + 1 + i by omega, this, hft.2.2.2.1]

/-! ## The normal equations in closed form -/

theorem update_fill {K : Type} (b F : Nat → K) (lo m : Nat) :
    Function.update (fun i => if lo ≤ i ∧ i < lo + m then F i else b i) (lo + m) (F (lo + m))
      = fun i => if lo ≤ i ∧ i < lo + (m + 1) then F i else b i := by
  funext i
  by_cases hi : i = lo + m
  · subst hi
    simp
  · have h1 : (lo ≤ i ∧ i < lo + (m + 1)) ↔ (lo ≤ i ∧ i < lo + m) := by omega
    simp [Function.update, hi, h1]

theorem lsmRows_numer {K : Type} [Field K] (t : dzFreqResIdentData K) (k m : Nat) :
    (List.range m).foldl (fun s j =>
      { s with
        xr := zVecSetElemNC s.xr j (s.ps_re k j * zVecElemNC s.mag k)
        xi := zVecSetElemNC s.xi j (s.ps_im k j * zVecElemNC s.mag k) }) t
    = { t with
        xr := ⟨t.xr.size, fun i => if 0 ≤ i ∧ i < 0 + m then t.ps_re k i * t.mag.buf k
          else t.xr.buf i⟩
        xi := ⟨t.xi.size, fun i => if 0 ≤ i ∧ i < 0 + m then t.ps_im k i * t.mag.buf k
          else t.xi.buf i⟩ } := by
  induction m with
  | zero => simp
  | succ m ih =>
    rw [List.range_succ, List.foldl_append, ih]
    simp only [List.foldl_cons, List.foldl_nil, zVecSetElemNC, zVecElemNC]
    have e1 := update_fill t.xr.buf (fun i => t.ps_re k i * t.mag.buf k) 0 m
    have e2 := update_fill t.xi.buf (fun i => t.ps_im k i * t.mag.buf k) 0 m
    simp only [Nat.zero_add] at e1 e2 ⊢
    rw [e1, e2]

theorem lsmRows_denom {K : Type} [Field K] (t : dzFreqResIdentData K) (k m : Nat) :
    (List.range' 1 m).foldl (fun s j =>
      { s with
        xr := zVecSetElemNC s.xr (s.nn + j) (-s.fr_re k j * zVecElemNC s.mag k)
        xi := zVecSetElemNC s.xi (s.nn + j) (-s.fr_im k j * zVecElemNC s.mag k) }) t
    = { t with
        xr := ⟨t.xr.size, fun i => if t.nn + 1 ≤ i ∧ i < t.nn + 1 + m
          then -t.fr_re k (i - t.nn) * t.mag.buf k else t.xr.buf i⟩
        xi := ⟨t.xi.size, fun i => if t.nn + 1 ≤ i ∧ i < t.nn + 1 + m
          then -t.fr_im k (i - t.nn) * t.mag.buf k else t.xi.buf i⟩ } := by
  induction m with
  | zero =>
    have h : ∀ i, ¬ (t.nn + 1 ≤ i ∧ i < t.nn + 1 + 0) := fun i => by omega
    simp [h]
  | succ m ih =>
    rw [List.range'_concat, List.foldl_append, ih]
    simp only [List.foldl_cons, List.foldl_nil, zVecSetElemNC, zVecElemNC]
    have e1 := update_fill t.xr.buf (fun i => -t.fr_re k (i - t.nn) * t.mag.buf k) (t.nn + 1) m
    have e2 := update_fill t.xi.buf (fun i => -t.fr_im k (i - t.nn) * t.mag.buf k) (t.nn + 1) m
    have h3 : t.nn + (1 + 1 * m) = t.nn + 1 + m := by omega
    have h4 : t.nn + 1 + m - t.nn = 1 + 1 * m := by omega
    simp only [h4] at e1 e2
    rw [h3, e1, e2]



theorem LSMFrame.refl {K : Type} (s : dzFreqResIdentData K) : LSMFrame s s :=
  ⟨rfl, rfl, rfl, rfl, rfl, rfl, rfl, rfl, rfl, rfl, rfl, rfl, rfl, rfl, rfl, rfl⟩

theorem LSMFrame.trans {K : Type} {a b c : dzFreqResIdentData K}
    (h1 : LSMFrame a b) (h2 : LSMFrame b c) : LSMFrame a c :=
  ⟨h1.ns.trans h2.ns, h1.nn.trans h2.nn, h1.nd.trans h2.nd, h1.ndim.trans h2.ndim,
   h1.freq_res.trans h2.freq_res, h1.ang_freq.trans h2.ang_freq, h1.mag.trans h2.mag,
   h1.phi.trans h2.phi, h1.ps_re.trans h2.ps_re, h1.ps_im.trans h2.ps_im,
   h1.fr_re.trans h2.fr_re, h1.fr_im.trans h2.fr_im, h1.phi_prev.trans h2.phi_prev,
   h1.qrow.trans h2.qrow, h1.qcol.trans h2.qcol, h1.psize.trans h2.psize⟩

theorem LSMFrame.sampleRow {K : Type} {s u : dzFreqResIdentData K} (h : LSMFrame s u)
    (k : Nat) : sampleRow s k = sampleRow u k := by
  simp only [Dzco.sampleRow, h.mag, h.ps_re, h.ps_im, h.fr_re, h.fr_im]

theorem lsmAddSample_spec {K : Type} [Field K] (t : dzFreqResIdentData K) (k : Nat)
    (hrow : t.q.row ≤ t.nn + t.nd + 1) (hcol : t.q.col ≤ t.nn + t.nd + 1)
    (hp : t.p.size ≤ t.nn + t.nd + 1) :
    LSMFrame (lsmAddSample t k) t ∧
    (∀ i j, (lsmAddSample t k).q.buf i j
      = if i < t.q.row ∧ j < t.q.col then t.q.buf i j + qTerm t.nn (sampleRow t k) i j
        else t.q.buf i j) ∧
    (∀ i, (lsmAddSample t k).p.buf i
      = if i < t.p.size then t.p.buf i + pTerm t.nn (sampleRow t k) i else t.p.buf i) := by
  have hx : ∀ (a b c : Nat → K) (i : Nat), i < t.nn + t.nd + 1 →
      (if t.nn + 1 ≤ i ∧ i < t.nn + 1 + t.nd then -a (i - t.nn) * t.mag.buf k
        else if 0 ≤ i ∧ i < 0 + (t.nn + 1) then b i * t.mag.buf k else c i)
      = if i ≤ t.nn then b i * t.mag.buf k else -a (i - t.nn) * t.mag.buf k := by
    intro a b c i hi
    by_cases h1 : i ≤ t.nn
    · have h2 : ¬ (t.nn + 1 ≤ i ∧ i < t.nn + 1 + t.nd) := by omega
      have h3 : 0 ≤ i ∧ i < 0 + (t.nn + 1) := by omega
      simp only [if_neg h2, if_pos h3, if_pos h1]
    · have h2 : t.nn + 1 ≤ i ∧ i < t.nn + 1 + t.nd := by omega
      simp only [if_pos h2, if_neg h1]
  simp only [lsmAddSample, lsmRows_numer, lsmRows_denom]
  simp only [zVecElemNC]
  refine ⟨⟨rfl, rfl, rfl, rfl, rfl, rfl, rfl, rfl, rfl, rfl, rfl, rfl, rfl, rfl, rfl, rfl⟩, ?_, ?_⟩
  · intro i j
    by_cases hg : i < t.q.row ∧ j < t.q.col
    · have hi : i < t.nn + t.nd + 1 := by omega
      have hj : j < t.nn + t.nd + 1 := by omega
      simp only [zMatAddDyadNC, if_pos hg, qTerm, rowRe, rowIm, sampleRow,
        hx _ _ _ i hi, hx _ _ _ j hj]
      ring
    · simp only [zMatAddDyadNC, if_neg hg]
  · intro i
    by_cases hg : i < t.p.size
    · have hi : i < t.nn + t.nd + 1 := by omega
      simp only [zVecCatDRC, if_pos hg, pTerm, rowRe, rowIm, sampleRow, hx _ _ _ i hi]
      ring
    · simp only [zVecCatDRC, if_neg hg]



theorem lsmFold_spec {K : Type} [Field K] :
    ∀ (L : List Nat) (t : dzFreqResIdentData K),
    t.q.row ≤ t.nn + t.nd + 1 → t.q.col ≤ t.nn + t.nd + 1 → t.p.size ≤ t.nn + t.nd + 1 →
    LSMFrame (L.foldl lsmAddSample t) t ∧
    (∀ i j, (L.foldl lsmAddSample t).q.buf i j
      = if i < t.q.row ∧ j < t.q.col
        then t.q.buf i j + (L.map fun k => qTerm t.nn (sampleRow t k) i j).sum
        else t.q.buf i j) ∧
    (∀ i, (L.foldl lsmAddSample t).p.buf i
      = if i < t.p.size then t.p.buf i + (L.map fun k => pTerm t.nn (sampleRow t k) i).sum
        else t.p.buf i)
  | [], t, _, _, _ => by
    refine ⟨LSMFrame.refl t, ?_, ?_⟩
    · intro i j; simp
    · intro i; simp
  | k :: L, t, hrow, hcol, hp => by
    obtain ⟨hf, hq, hpp⟩ := lsmAddSample_spec t k hrow hcol hp
    obtain ⟨hf2, hq2, hp2⟩ := lsmFold_spec L (lsmAddSample t k)
      (by rw [hf.qrow, hf.nn, hf.nd]; exact hrow) (by rw [hf.qcol, hf.nn, hf.nd]; exact hcol)
      (by rw [hf.psize, hf.nn, hf.nd]; exact hp)
    refine ⟨hf2.trans hf, ?_, ?_⟩
    · intro i j
      simp only [List.foldl_cons, hq2 i j, hq i j, hf.qrow, hf.qcol, hf.nn, hf.sampleRow,
        List.map_cons, List.sum_cons]
      by_cases hg : i < t.q.row ∧ j < t.q.col
      · simp only [if_pos hg]; ring
      · simp only [if_neg hg]
    · intro i
      simp only [List.foldl_cons, hp2 i, hpp i, hf.psize, hf.nn, hf.sampleRow,
        List.map_cons, List.sum_cons]
      by_cases hg : i < t.p.size
      · simp only [if_pos hg]; ring
      · simp only [if_neg hg]

/-- Closed form of the normal equations assembled by
`_dzFreqResIdentDataLSMCreate`. -/
theorem LSMCreate_spec {K : Type} [Field K] (t : dzFreqResIdentData K)
    (hrow : t.q.row ≤ t.nn + t.nd + 1) (hcol : t.q.col ≤ t.nn + t.nd + 1)
    (hp : t.p.size ≤ t.nn + t.nd + 1) :
    LSMFrame (_dzFreqResIdentDataLSMCreate t) t ∧
    (∀ i j, (_dzFreqResIdentDataLSMCreate t).q.buf i j
      = if i < t.q.row ∧ j < t.q.col
        then ((sampleRows t).map fun d => qTerm t.nn d i j).sum else 0) ∧
    (∀ i, (_dzFreqResIdentDataLSMCreate t).p.buf i
      = if i < t.p.size then ((sampleRows t).map fun d => pTerm t.nn d i).sum else 0) := by
  obtain ⟨hf, hq, hpp⟩ := lsmFold_spec (List.range t.ns)
    { t with q := zMatZero t.q, p := zVecZero t.p } hrow hcol hp
  have hf0 : LSMFrame ({ t with q := zMatZero t.q, p := zVecZero t.p } : dzFreqResIdentData K) t :=
    ⟨rfl, rfl, rfl, rfl, rfl, rfl, rfl, rfl, rfl, rfl, rfl, rfl, rfl, rfl, rfl, rfl⟩
  refine ⟨hf.trans hf0, ?_, ?_⟩
  · intro i j
    have h := hq i j
    have e : ∀ k, sampleRow
        ({ t with q := zMatZero t.q, p := zVecZero t.p } : dzFreqResIdentData K) k
        = sampleRow t k := fun _ => rfl
    simp only [e, zMatZero, zero_add] at h
    simp only [_dzFreqResIdentDataLSMCreate, sampleRows, List.map_map, Function.comp_def]
    exact h
  · intro i
    have h := hpp i
    have e : ∀ k, sampleRow
        ({ t with q := zMatZero t.q, p := zVecZero t.p } : dzFreqResIdentData K) k
        = sampleRow t k := fun _ => rfl
    simp only [e, zVecZero, zero_add] at h
    simp only [_dzFreqResIdentDataLSMCreate, sampleRows, List.map_map, Function.comp_def]
    exact h

/-! ## The weights in closed form -/

theorem foldl_pair_sum {K : Type} [Field K] (f g : Nat → K) :
    ∀ (L : List Nat) (x y : K),
      L.foldl (fun (r : K × K) j => (r.1 + f j, r.2 + g j)) (x, y)
        = (x + (L.map f).sum, y + (L.map g).sum)
  | [], x, y => by simp
  | j :: L, x, y => by
    simp only [List.foldl_cons, foldl_pair_sum f g L, List.map_cons, List.sum_cons, add_assoc]

theorem updateMag_range {K : Type} [Field K] (t : dzFreqResIdentData K) (m : Nat) :
    (List.range m).foldl (fun s k =>
      let rr0 := s.ps_re k 0
      let ri0 := s.ps_im k 0
      let r := (List.range' 1 s.nd).foldl (fun (r : K × K) j =>
        (r.1 + s.ps_re k j * zVecElemNC s.phi (s.nn + j),
         r.2 + s.ps_im k j * zVecElemNC s.phi (s.nn + j))) (rr0, ri0)
      { s with mag := zVecSetElemNC s.mag k (1 / (r.1 * r.1 + r.2 * r.2)) }) t
    = { t with
        mag := ⟨t.mag.size, fun k => if 0 ≤ k ∧ k < 0 + m
          then newMag t.nn t.nd t.phi.buf (sampleRow t k) else t.mag.buf k⟩ } := by
  induction m with
  | zero => simp
  | succ m ih =>
    rw [List.range_succ, List.foldl_append, ih]
    simp only [List.foldl_cons, List.foldl_nil, zVecSetElemNC, zVecElemNC, foldl_pair_sum]
    have e1 := update_fill t.mag.buf (fun k => newMag t.nn t.nd t.phi.buf (sampleRow t k)) 0 m
    simp only [Nat.zero_add, newMag, sampleRow] at e1 ⊢
    rw [e1]

/-- Closed form of `_dzFreqResIdentDataUpdateMag`. -/
theorem UpdateMag_eq {K : Type} [Field K] (t : dzFreqResIdentData K) :
    _dzFreqResIdentDataUpdateMag t
    = { t with
        mag := ⟨t.mag.size, fun k => if k < t.ns
          then newMag t.nn t.nd t.phi.buf (sampleRow t k) else t.mag.buf k⟩ } := by
  have h := updateMag_range t t.ns
  simp only [Nat.zero_le, true_and, Nat.zero_add] at h
  exact h

/-! ## The loop of the identification -/

theorem identLoop_zero (env : zmEnv) (s : dzFreqResIdentData ℝ) (dp : Option ℝ) :
    identLoop env 0 s dp = s := rfl

theorem identLoop_succ (env : zmEnv) (n : Nat) (s : dzFreqResIdentData ℝ) (dp : Option ℝ) :
    identLoop env (n + 1) s dp
      = if zIsTinyDiff env.zTOL
            (zVecDist (solveStep env s).phi (solveStep env s).phi_prev) dp = true
        then solveStep env s
        else identLoop env n (nextStep (solveStep env s))
          (zVecDist (solveStep env s).phi (solveStep env s).phi_prev) := rfl

/-- A property that holds after every solve, given one that holds at the head
of every pass, holds for the result of a loop of at least one pass. -/
theorem identLoop_post (env : zmEnv) (I J : dzFreqResIdentData ℝ → Prop)
    (hsolve : ∀ s, I s → J (solveStep env s))
    (hnext : ∀ s, J s → I (nextStep s) ∧ J (nextStep s)) :
    ∀ n s dp, I s → J (identLoop env (n + 1) s dp) := by
  have hA : ∀ n s dp, I s → J s → J (identLoop env n s dp) := by
    intro n
    induction n with
    | zero => intro s dp _ hJ; exact hJ
    | succ n ih =>
      intro s dp hI _
      rw [identLoop_succ]
      split
      · exact hsolve s hI
      · exact ih _ _ (hnext _ (hsolve s hI)).1 (hnext _ (hsolve s hI)).2
  intro n s dp hI
  rw [identLoop_succ]
  split
  · exact hsolve s hI
  · exact hA _ _ _ (hnext _ (hsolve s hI)).1 (hnext _ (hsolve s hI)).2

/-- A property kept by both halves of a pass holds for the result of the loop. -/
theorem identLoop_inv (env : zmEnv) (I : dzFreqResIdentData ℝ → Prop)
    (hsolve : ∀ s, I s → I (solveStep env s))
    (hnext : ∀ s, I s → I (nextStep s)) :
    ∀ n s dp, I s → I (identLoop env n s dp) := by
  intro n
  induction n with
  | zero => intro s dp h; exact h
  | succ n ih =>
    intro s dp h
    rw [identLoop_succ]
    split
    · exact hsolve s h
    · exact ih _ _ (hnext _ (hsolve s h))

/-- Two runs of the loop that stay related take the same branches. -/
theorem identLoop_rel (env : zmEnv) (R : dzFreqResIdentData ℝ → dzFreqResIdentData ℝ → Prop)
    (hsolve : ∀ a b, R a b → R (solveStep env a) (solveStep env b))
    (hnext : ∀ a b, R a b → R (nextStep a) (nextStep b))
    (hphi : ∀ a b, R a b → a.phi = b.phi ∧ a.phi_prev = b.phi_prev) :
    ∀ n a b dp, R a b → R (identLoop env n a dp) (identLoop env n b dp) := by
  intro n
  induction n with
  | zero => intro a b dp h; exact h
  | succ n ih =>
    intro a b dp h
    have h1 := hsolve a b h
    obtain ⟨e1, e2⟩ := hphi _ _ h1
    rw [identLoop_succ, identLoop_succ, e1, e2]
    split
    · exact h1
    · exact ih _ _ _ (hnext _ _ h1)

theorem _dzFreqResIdent_eq (env : zmEnv) (list : zList dzFreqRes) (nn nd : Nat) (iter : Int) :
    _dzFreqResIdent env list nn nd iter
      = if (_dzFreqResIdentDataRead env.zAlloc list nn nd).1 = 0
        then (false, (_dzFreqResIdentDataRead env.zAlloc list nn nd).2)
        else if (_dzFreqResIdentDataLSMAlloc env.zAlloc
            (_dzFreqResIdentDataRead env.zAlloc list nn nd).2).1 = true
          then (true, identLoop env (ZITERINIT env.Z_MAX_ITER_NUM iter)
            (loopStart env.zAlloc (_dzFreqResIdentDataRead env.zAlloc list nn nd).2) none)
          else (false, (_dzFreqResIdentDataLSMAlloc env.zAlloc
            (_dzFreqResIdentDataRead env.zAlloc list nn nd).2).2) := by
  unfold _dzFreqResIdent
  by_cases h1 : (_dzFreqResIdentDataRead env.zAlloc list nn nd).1 = 0
  · simp [h1]
  · by_cases h2 : (_dzFreqResIdentDataLSMAlloc env.zAlloc
        (_dzFreqResIdentDataRead env.zAlloc list nn nd).2).1 = true
    · simp [h1, h2, loopStart]
    · simp [h1, h2]

/-! ## Allocation, reading and the shape of the working set -/

theorem Alloc_fst {K : Type} [Field K] (alloc : Nat → Bool) (nn nd size : Nat) :
    (_dzFreqResIdentDataAlloc alloc nn nd size : Bool × dzFreqResIdentData K).1 = true
      ↔ allocGranted alloc 8 ∧ size ≠ 0 := by
  simp only [_dzFreqResIdentDataAlloc, allocGranted]
  constructor
  · intro h
    simp only [Bool.and_eq_true, bne_iff_ne, ne_eq, ite_eq_right_iff, Classical.not_imp] at h
    obtain ⟨⟨⟨⟨⟨⟨⟨h0, h1⟩, h2⟩, h3⟩, h4⟩, h5⟩, h6⟩, h7⟩ := h
    refine ⟨?_, h4.2⟩
    intro i hi
    have : i = 0 ∨ i = 1 ∨ i = 2 ∨ i = 3 ∨ i = 4 ∨ i = 5 ∨ i = 6 ∨ i = 7 := by omega
    rcases this with h | h | h | h | h | h | h | h <;> subst h
    · exact h0
    · exact h1
    · exact h2
    · exact h3
    · exact h4.1
    · exact h5.1
    · exact h6.1
    · exact h7.1
  · rintro ⟨h, hs⟩
    simp [h 0, h 1, h 2, h 3, h 4, h 5, h 6, h 7, hs]

theorem LSMAlloc_fst {K : Type} [Field K] (alloc : Nat → Bool) (fri : dzFreqResIdentData K) :
    (_dzFreqResIdentDataLSMAlloc alloc fri).1 = true
      ↔ ∀ i, 8 ≤ i → i < 13 → alloc i = true := by
  simp only [_dzFreqResIdentDataLSMAlloc]
  constructor
  · intro h
    simp only [Bool.and_eq_true] at h
    obtain ⟨⟨⟨⟨h0, h1⟩, h2⟩, h3⟩, h4⟩ := h
    intro i hi hi'
    have : i = 8 ∨ i = 9 ∨ i = 10 ∨ i = 11 ∨ i = 12 := by omega
    rcases this with h | h | h | h | h <;> subst h
    · exact h0
    · exact h1
    · exact h2
    · exact h3
    · exact h4
  · intro h
    simp [h 8, h 9, h 10, h 11, h 12]

theorem readLoop_ns (list : List dzFreqRes) (alloc : Nat → Bool) (nn nd : Nat) :
    ReadFrame (readLoop list 0 (_dzFreqResIdentDataAlloc alloc nn nd (zListSize list)).2)
      (_dzFreqResIdentDataAlloc alloc nn nd (zListSize list)).2 :=
  (readLoop_spec list 0 (_dzFreqResIdentDataAlloc alloc nn nd (zListSize list)).2
    (by intro k _ j; simp [_dzFreqResIdentDataAlloc])).1

theorem Read_fst_granted (alloc : Nat → Bool) (list : zList dzFreqRes) (nn nd : Nat)
    (h : allocGranted alloc 8) (hl : list ≠ []) :
    (_dzFreqResIdentDataRead alloc list nn nd).1 = list.length ∧
    (_dzFreqResIdentDataRead alloc list nn nd).2
      = readLoop list 0 (_dzFreqResIdentDataAlloc alloc nn nd (zListSize list)).2 := by
  have hne : zListSize list ≠ 0 := by
    simpa [zListSize] using hl
  have h1 := (@Alloc_fst ℝ _ alloc nn nd (zListSize list)).2 ⟨h, hne⟩
  have h2 := (readLoop_ns list alloc nn nd).1
  simp only [_dzFreqResIdentDataRead, h1, h2]
  simp [_dzFreqResIdentDataAlloc, zListSize]

theorem Read_fst_refused (alloc : Nat → Bool) (list : zList dzFreqRes) (nn nd : Nat)
    (h : ¬ (allocGranted alloc 8 ∧ list ≠ [])) :
    (_dzFreqResIdentDataRead alloc list nn nd).1 = 0 := by
  have hne : zListSize list ≠ 0 ↔ list ≠ [] := by
    simp [zListSize]
  have hA := @Alloc_fst ℝ _ alloc nn nd (zListSize list)
  rw [hne] at hA
  have h1 : (_dzFreqResIdentDataAlloc alloc nn nd (zListSize list) :
      Bool × dzFreqResIdentData ℝ).1 = false := by
    cases hb : (_dzFreqResIdentDataAlloc alloc nn nd (zListSize list) :
      Bool × dzFreqResIdentData ℝ).1
    · rfl
    · exact absurd (hA.1 hb) h
  simp only [_dzFreqResIdentDataRead, h1]
  simp

theorem loopStart_shape (alloc : Nat → Bool) (list : zList dzFreqRes) (nn nd : Nat) :
    Shape nn nd list.length
      (loopStart alloc (readLoop list 0 (_dzFreqResIdentDataAlloc alloc nn nd (zListSize list)).2)) := by
  obtain ⟨h1, h2, h3, -, h5, -⟩ := readLoop_ns list alloc nn nd
  constructor <;>
    simp only [loopStart, _dzFreqResIdentDataLSMAlloc, h1, h2, h3, h5, zMatAllocSqr, zVecAlloc,
      zVecSizeNC] <;> rfl

theorem LSMCreate_frame {nn nd ns : Nat} (s : dzFreqResIdentData ℝ)
    (h : Shape nn nd ns s) :
    LSMFrame (_dzFreqResIdentDataLSMCreate s) s :=
  (LSMCreate_spec s (by rw [h.qrow, h.nn, h.nd]) (by rw [h.qcol, h.nn, h.nd])
    (by rw [h.psize, h.nn, h.nd])).1

theorem solveStep_shape (env : zmEnv) {nn nd ns : Nat} (s : dzFreqResIdentData ℝ)
    (h : Shape nn nd ns s) : Shape nn nd ns (solveStep env s) := by
  have hf := LSMCreate_frame s h
  constructor
  · simp only [solveStep, hf.nn, h.nn]
  · simp only [solveStep, hf.nd, h.nd]
  · simp only [solveStep, hf.ns, h.ns]
  · simp only [solveStep, hf.qrow, h.qrow]
  · simp only [solveStep, hf.qcol, h.qcol]
  · simp only [solveStep, hf.psize, h.psize]
  · simp only [solveStep, hf.phi, h.phisize]
  · simp only [solveStep, hf.phi_prev, h.prevsize]

theorem nextStep_shape {nn nd ns : Nat} (s : dzFreqResIdentData ℝ)
    (h : Shape nn nd ns s) : Shape nn nd ns (nextStep s) := by
  constructor
  · simp only [nextStep, UpdateMag_eq, h.nn]
  · simp only [nextStep, UpdateMag_eq, h.nd]
  · simp only [nextStep, UpdateMag_eq, h.ns]
  · simp only [nextStep, UpdateMag_eq, h.qrow]
  · simp only [nextStep, UpdateMag_eq, h.qcol]
  · simp only [nextStep, UpdateMag_eq, h.psize]
  · simp only [nextStep, UpdateMag_eq, h.phisize]
  · simp only [nextStep, UpdateMag_eq, h.prevsize]

theorem identLoop_shape (env : zmEnv) {nn nd ns : Nat} (n : Nat) (s : dzFreqResIdentData ℝ)
    (dp : Option ℝ) (h : Shape nn nd ns s) : Shape nn nd ns (identLoop env n s dp) :=
  identLoop_inv env (Shape nn nd ns) (fun s hs => solveStep_shape env s hs)
    (fun s hs => nextStep_shape s hs) n s dp h

/-- When the identification is granted its requests on a non-empty list, it
succeeds and its working set is the result of the loop. -/
theorem _dzFreqResIdent_granted (env : zmEnv) (list : zList dzFreqRes) (nn nd : Nat)
    (iter : Int) (h : allocGranted env.zAlloc 13) (hl : list ≠ []) :
    _dzFreqResIdent env list nn nd iter
      = (true, identLoop env (ZITERINIT env.Z_MAX_ITER_NUM iter)
          (loopStart env.zAlloc
            (readLoop list 0 (_dzFreqResIdentDataAlloc env.zAlloc nn nd (zListSize list)).2))
          none) := by
  obtain ⟨h1, h2⟩ := Read_fst_granted env.zAlloc list nn nd (fun i hi => h i (by omega)) hl
  have h3 : list.length ≠ 0 := by simpa using hl
  have h4 := (LSMAlloc_fst env.zAlloc (_dzFreqResIdentDataRead env.zAlloc list nn nd).2).2
    (fun i _ hi => h i hi)
  rw [_dzFreqResIdent_eq, h1, if_neg h3, if_pos h4, h2]

theorem _dzFreqResIdent_refused (env : zmEnv) (list : zList dzFreqRes) (nn nd : Nat)
    (iter : Int) (h : ¬ (allocGranted env.zAlloc 13 ∧ list ≠ [])) :
    (_dzFreqResIdent env list nn nd iter).1 = false := by
  rw [_dzFreqResIdent_eq]
  by_cases h8 : allocGranted env.zAlloc 8 ∧ list ≠ []
  · obtain ⟨h1, -⟩ := Read_fst_granted env.zAlloc list nn nd h8.1 h8.2
    have h3 : list.length ≠ 0 := by simpa using h8.2
    rw [h1, if_neg h3]
    have h4 : ¬ ((_dzFreqResIdentDataLSMAlloc env.zAlloc
        (_dzFreqResIdentDataRead env.zAlloc list nn nd).2).1 = true) := by
      intro h5
      have h6 := (LSMAlloc_fst _ _).1 h5
      apply h
      refine ⟨?_, h8.2⟩
      intro i hi
      by_cases hi8 : i < 8
      · exact h8.1 i hi8
      · exact h6 i (by omega) hi
    rw [if_neg h4]
  · rw [Read_fst_refused env.zAlloc list nn nd h8, if_pos rfl]

/-! ## The transfer function assembled from the working set -/

theorem numFold_eq (phi : zVec ℝ) (t0 : dzTF ℝ) (m : Nat) :
    (List.range m).foldl (fun (t : dzTF ℝ) i =>
      { t with num := zPexSetCoeff t.num i (zVecElemNC phi i) }) t0
    = { t0 with num := ⟨t0.num.size, fun i => if 0 ≤ i ∧ i < 0 + m then phi.buf i
          else t0.num.buf i⟩ } := by
  induction m with
  | zero => simp
  | succ m ih =>
    rw [List.range_succ, List.foldl_append, ih]
    simp only [List.foldl_cons, List.foldl_nil, zPexSetCoeff, zVecSetElemNC, zVecElemNC]
    have e1 := update_fill t0.num.buf phi.buf 0 m
    simp only [Nat.zero_add] at e1 ⊢
    rw [e1]

theorem denFold_eq (phi : zVec ℝ) (nn : Nat) (t0 : dzTF ℝ) (m : Nat) :
    (List.range' 1 m).foldl (fun (t : dzTF ℝ) i =>
      { t with den := zPexSetCoeff t.den i (zVecElemNC phi (nn + i)) }) t0
    = { t0 with den := ⟨t0.den.size, fun i => if 1 ≤ i ∧ i < 1 + m then phi.buf (nn + i)
          else t0.den.buf i⟩ } := by
  induction m with
  | zero =>
    have h : ∀ i, ¬ (1 ≤ i ∧ i < 1 + 0) := fun i => by omega
    simp only [h, if_false]
    rfl
  | succ m ih =>
    rw [List.range'_concat, List.foldl_append, ih]
    simp only [List.foldl_cons, List.foldl_nil, zPexSetCoeff, zVecSetElemNC, zVecElemNC]
    have e1 := update_fill t0.den.buf (fun i => phi.buf (nn + i)) 1 m
    simp only [Nat.one_mul] at e1 ⊢
    rw [e1]

/-- The transfer function that `dzTFIdentFromFreqRes` assembles from a working
set, in closed form. -/
theorem dzTFIdentFromFreqRes_granted (env : zmEnv) (tf : dzTF ℝ) (list : zList dzFreqRes)
    (nn nd : Nat) (iter : Int) (h : allocGranted env.zAlloc 15) (hl : list ≠ []) :
    dzTFIdentFromFreqRes env tf list nn nd iter
      = (true,
         ⟨⟨nn + 1, fun i => if i < nn + 1
            then (_dzFreqResIdent env list nn nd iter).2.phi.buf i else 0⟩,
          ⟨nd + 1, fun i => if 1 ≤ i ∧ i < 1 + nd
            then (_dzFreqResIdent env list nn nd iter).2.phi.buf (nn + i)
            else if i = 0 then 1 else 0⟩⟩) := by
  have h13 : allocGranted env.zAlloc 13 := fun i hi => h i (by omega)
  have hI := _dzFreqResIdent_granted env list nn nd iter h13 hl
  have hs := identLoop_shape env (ZITERINIT env.Z_MAX_ITER_NUM iter) _ none
    (loopStart_shape env.zAlloc list nn nd)
  have hnn : (_dzFreqResIdent env list nn nd iter).2.nn = nn := by rw [hI]; exact hs.nn
  have hnd : (_dzFreqResIdent env list nn nd iter).2.nd = nd := by rw [hI]; exact hs.nd
  have h1 : (_dzFreqResIdent env list nn nd iter).1 = true := by rw [hI]
  unfold dzTFIdentFromFreqRes
  simp only [h1, hnn, hnd, dzTFAlloc, h 13 (by omega), h 14 (by omega), numFold_eq, denFold_eq]
  simp only [Bool.not_true, Bool.false_eq_true, if_false, Bool.and_self, if_true, zPexAlloc,
    zVecAlloc, zPexSetCoeff, zVecSetElemNC, Nat.zero_le, true_and, Nat.zero_add]
  congr 3
  funext i
  by_cases hi : i = 0
  · subst hi; simp
  · simp [Function.update, hi]

theorem dzTFIdentFromFreqRes_fst (env : zmEnv) (tf : dzTF ℝ) (list : zList dzFreqRes)
    (nn nd : Nat) (iter : Int) :
    (dzTFIdentFromFreqRes env tf list nn nd iter).1 = true
      ↔ list ≠ [] ∧ allocGranted env.zAlloc 15 := by
  constructor
  · intro h
    by_contra hc
    by_cases h13 : allocGranted env.zAlloc 13 ∧ list ≠ []
    · have h1 : (_dzFreqResIdent env list nn nd iter).1 = true := by
        rw [_dzFreqResIdent_granted env list nn nd iter h13.1 h13.2]
      have h2 : ¬ ((env.zAlloc 13 && env.zAlloc 14) = true) := by
        intro h3
        simp only [Bool.and_eq_true] at h3
        apply hc
        refine ⟨h13.2, ?_⟩
        intro i hi
        by_cases hi13 : i < 13
        · exact h13.1 i hi13
        · have : i = 13 ∨ i = 14 := by omega
          rcases this with e | e <;> subst e
          · exact h3.1
          · exact h3.2
      unfold dzTFIdentFromFreqRes at h
      simp only [h1, dzTFAlloc, if_neg h2] at h
      simp at h
    · have h1 := _dzFreqResIdent_refused env list nn nd iter h13
      unfold dzTFIdentFromFreqRes at h
      simp [h1] at h
  · rintro ⟨hl, h⟩
    rw [dzTFIdentFromFreqRes_granted env tf list nn nd iter h hl]

/-! ## Failure, success and the assembled coefficients -/

theorem exactSolve_exact : IsExactSolver exactSolve := by
  intro a b ans x hx i hi
  have h : ∃ x, IsUniqueSolution a b x := ⟨x, hx⟩
  simp only [exactSolve, dif_pos h, if_pos hi]
  exact hx.2 _ (Classical.choose_spec h).1 i hi

theorem idealEnv_granted (m : Nat) : allocGranted idealEnv.zAlloc m := fun _ _ => rfl

theorem lastSolve (env : zmEnv) (n : Nat) (s : dzFreqResIdentData ℝ) (dp : Option ℝ) :
    ∃ ans, (identLoop env (n + 1) s dp).phi.buf
      = (env.zLESolveGauss (identLoop env (n + 1) s dp).q (identLoop env (n + 1) s dp).p ans).2 := by
  refine identLoop_post env (fun _ => True)
    (fun s => ∃ ans, s.phi.buf = (env.zLESolveGauss s.q s.p ans).2) ?_ ?_ n s dp trivial
  · intro s _
    exact ⟨(_dzFreqResIdentDataLSMCreate s).phi, rfl⟩
  · intro s hs
    refine ⟨trivial, ?_⟩
    obtain ⟨ans, h⟩ := hs
    refine ⟨ans, ?_⟩
    simp only [nextStep, UpdateMag_eq]
    exact h

/-- C10 (empty input): with an empty sample list `dzTFIdentFromFreqRes`
returns `NULL` and leaves `*tf` as it was, whatever the degrees, the number
of iterations and the environment are. -/
theorem empty_input_rejected (env : zmEnv) (tf : dzTF ℝ) (nn nd : Nat) (iter : Int) :
    dzTFIdentFromFreqRes env tf [] nn nd iter = (false, tf) := by
  have h := _dzFreqResIdent_refused env [] nn nd iter (fun h => h.2 rfl)
  unfold dzTFIdentFromFreqRes
  simp only [h, Bool.not_false, if_true]

/-- C9, as stated, fails: with the degrees `n_n = 0` and `n_d = 0 < 1`, one
sample and every allocation request granted, `dzTFIdentFromFreqRes` does not
return `NULL`. -/
theorem degree_validation_counterexample :
    (dzTFIdentFromFreqRes idealEnv TF_one [⟨1, 0, 0⟩] 0 0 1).1 = true :=
  (dzTFIdentFromFreqRes_fst idealEnv TF_one [⟨1, 0, 0⟩] 0 0 1).2
    ⟨by simp, idealEnv_granted 15⟩

/-- C9, amended: `dzTFIdentFromFreqRes` has no check of the degrees; for all
degrees `n_n ≥ 0` and `n_d ≥ 0` it returns `NULL` exactly when the sample list
is empty or one of its 15 allocation requests is refused. -/
theorem degree_validation_amended (env : zmEnv) (tf : dzTF ℝ) (list : zList dzFreqRes)
    (nn nd : Nat) (iter : Int) :
    (dzTFIdentFromFreqRes env tf list nn nd iter).1 = false
      ↔ (list = [] ∨ ¬ allocGranted env.zAlloc 15) := by
  have h := dzTFIdentFromFreqRes_fst env tf list nn nd iter
  constructor
  · intro hf
    by_contra hc
    simp only [not_or, not_not] at hc
    have := h.2 ⟨hc.1, hc.2⟩
    rw [hf] at this
    exact Bool.false_ne_true this
  · intro hc
    cases hb : (dzTFIdentFromFreqRes env tf list nn nd iter).1
    · rfl
    · have := h.1 hb
      rcases hc with hc | hc
      · exact absurd hc this.1
      · exact absurd this.2 hc

/-- C2 (output assembly): after a successful `dzTFIdentFromFreqRes` the
numerator has `n_n + 1` coefficients, `num[i] = phi[i]` for `i = 0 .. n_n`,
the denominator has `n_d + 1` coefficients, `den[0] = 1` and
`den[i] = phi[n_n + i]` for `i = 1 .. n_d`, where `phi` is the parameter
vector of the working set; when the loop ran at least once, `phi` is what the
solver stored for the normal equations `q`, `p` of the working set, that is,
the result of the last solve. -/
theorem output_assembly (env : zmEnv) (tf : dzTF ℝ) (list : zList dzFreqRes) (nn nd : Nat)
    (iter : Int) (tfout : dzTF ℝ)
    (h : dzTFIdentFromFreqRes env tf list nn nd iter = (true, tfout)) :
    tfout.num.size = nn + 1 ∧
    (∀ i, i ≤ nn → tfout.num.buf i = (_dzFreqResIdent env list nn nd iter).2.phi.buf i) ∧
    tfout.den.size = nd + 1 ∧
    tfout.den.buf 0 = 1 ∧
    (∀ i, 1 ≤ i → i ≤ nd →
      tfout.den.buf i = (_dzFreqResIdent env list nn nd iter).2.phi.buf (nn + i)) ∧
    (0 < ZITERINIT env.Z_MAX_ITER_NUM iter →
      ∃ ans, (_dzFreqResIdent env list nn nd iter).2.phi.buf
        = (env.zLESolveGauss (_dzFreqResIdent env list nn nd iter).2.q
            (_dzFreqResIdent env list nn nd iter).2.p ans).2) := by
  have h1 : (dzTFIdentFromFreqRes env tf list nn nd iter).1 = true := by rw [h]
  obtain ⟨hl, hg⟩ := (dzTFIdentFromFreqRes_fst env tf list nn nd iter).1 h1
  have e := dzTFIdentFromFreqRes_granted env tf list nn nd iter hg hl
  rw [h] at e
  have e2 := (Prod.mk.inj e).2
  subst e2
  refine ⟨rfl, ?_, rfl, ?_, ?_, ?_⟩
  · intro i hi
    have : i < nn + 1 := by omega
    simp only [if_pos this]
  · simp
  · intro i h1 h2
    have : 1 ≤ i ∧ i < 1 + nd := by omega
    simp only [if_pos this]
  · intro hpos
    rw [_dzFreqResIdent_granted env list nn nd iter (fun i hi => hg i (by omega)) hl]
    obtain ⟨n, hn⟩ := Nat.exists_eq_succ_of_ne_zero (Nat.pos_iff_ne_zero.1 hpos)
    rw [hn]
    exact lastSolve env n _ none

theorem output_assembly_witness :
    (dzTFIdentFromFreqRes idealEnv TF_one [⟨1, 0, 0⟩] 0 1 0).2.num.size = 0 + 1 ∧
    (∀ i, i ≤ 0 → (dzTFIdentFromFreqRes idealEnv TF_one [⟨1, 0, 0⟩] 0 1 0).2.num.buf i
      = (_dzFreqResIdent idealEnv [⟨1, 0, 0⟩] 0 1 0).2.phi.buf i) ∧
    (dzTFIdentFromFreqRes idealEnv TF_one [⟨1, 0, 0⟩] 0 1 0).2.den.size = 1 + 1 ∧
    (dzTFIdentFromFreqRes idealEnv TF_one [⟨1, 0, 0⟩] 0 1 0).2.den.buf 0 = 1 ∧
    (∀ i, 1 ≤ i → i ≤ 1 →
      (dzTFIdentFromFreqRes idealEnv TF_one [⟨1, 0, 0⟩] 0 1 0).2.den.buf i
        = (_dzFreqResIdent idealEnv [⟨1, 0, 0⟩] 0 1 0).2.phi.buf (0 + i)) ∧
    (0 < ZITERINIT idealEnv.Z_MAX_ITER_NUM 0 →
      ∃ ans, (_dzFreqResIdent idealEnv [⟨1, 0, 0⟩] 0 1 0).2.phi.buf
        = (idealEnv.zLESolveGauss (_dzFreqResIdent idealEnv [⟨1, 0, 0⟩] 0 1 0).2.q
            (_dzFreqResIdent idealEnv [⟨1, 0, 0⟩] 0 1 0).2.p ans).2) :=
  output_assembly idealEnv TF_one [⟨1, 0, 0⟩] 0 1 0 _
    (Prod.ext ((dzTFIdentFromFreqRes_fst idealEnv TF_one [⟨1, 0, 0⟩] 0 1 0).2
      ⟨by simp, idealEnv_granted 15⟩) rfl)

/-! ## Two runs on permuted lists -/

theorem sampleRows_startOf (alloc : Nat → Bool) (list : zList dzFreqRes) (nn nd : Nat) :
    sampleRows (startOf alloc list nn nd) = list.map (readRowOf (max nn nd)) := by
  have hspec := readLoop_spec list 0 (_dzFreqResIdentDataAlloc alloc nn nd (zListSize list)).2
    (by intro k _ j; simp [_dzFreqResIdentDataAlloc])
  have hns : (startOf alloc list nn nd).ns = list.length := (loopStart_shape alloc list nn nd).ns
  apply List.ext_getElem
  · simp [sampleRows, hns]
  · intro i h1 h2
    have hi : i < list.length := by simpa using h2
    have h3 := hspec.2.2 i list[i] (List.getElem?_eq_getElem hi)
    rw [Nat.zero_add] at h3
    simp only [sampleRows, List.getElem_map, List.getElem_range, readRowOf]
    exact h3

theorem sampleRows_solveStep (env : zmEnv) {nn nd ns : Nat} (s : dzFreqResIdentData ℝ)
    (h : Shape nn nd ns s) : sampleRows (solveStep env s) = sampleRows s := by
  have hf := LSMCreate_frame s h
  have e : ∀ k, sampleRow (solveStep env s) k = sampleRow s k := by
    intro k
    simp only [sampleRow, solveStep, hf.mag, hf.ps_re, hf.ps_im, hf.fr_re, hf.fr_im]
  have ens : (solveStep env s).ns = s.ns := by simp only [solveStep, hf.ns]
  have e' : sampleRow (solveStep env s) = sampleRow s := funext e
  simp only [sampleRows, ens, e']

theorem sampleRows_nextStep (s : dzFreqResIdentData ℝ) :
    sampleRows (nextStep s) = (sampleRows s).map (reweigh s.nn s.nd s.phi.buf) := by
  simp only [sampleRows, List.map_map]
  have ens : (nextStep s).ns = s.ns := by simp only [nextStep, UpdateMag_eq]
  rw [ens]
  apply List.map_congr_left
  intro k hk
  have hk' : k < s.ns := List.mem_range.1 hk
  simp only [sampleRow, nextStep, UpdateMag_eq, if_pos hk', Function.comp, reweigh]

theorem zMat_ext {K : Type} {a b : zMat K} (h1 : a.row = b.row) (h2 : a.col = b.col)
    (h3 : ∀ i j, a.buf i j = b.buf i j) : a = b := by
  obtain ⟨r1, c1, b1⟩ := a
  obtain ⟨r2, c2, b2⟩ := b
  simp only at h1 h2 h3
  have h4 : b1 = b2 := funext fun i => funext fun j => h3 i j
  rw [h1, h2, h4]

theorem zVec_ext {K : Type} {a b : zVec K} (h1 : a.size = b.size)
    (h3 : ∀ i, a.buf i = b.buf i) : a = b := by
  obtain ⟨r1, b1⟩ := a
  obtain ⟨r2, b2⟩ := b
  simp only at h1 h3
  have h4 : b1 = b2 := funext fun i => h3 i
  rw [h1, h4]

theorem Permuted_solveStep (env : zmEnv) {nn nd ns : Nat} (a b : dzFreqResIdentData ℝ)
    (h : Permuted nn nd ns a b) : Permuted nn nd ns (solveStep env a) (solveStep env b) := by
  have ha := h.left
  have hb := h.right
  obtain ⟨fa, qa, pa⟩ := LSMCreate_spec a (by rw [ha.qrow, ha.nn, ha.nd])
    (by rw [ha.qcol, ha.nn, ha.nd]) (by rw [ha.psize, ha.nn, ha.nd])
  obtain ⟨fb, qb, pb⟩ := LSMCreate_spec b (by rw [hb.qrow, hb.nn, hb.nd])
    (by rw [hb.qcol, hb.nn, hb.nd]) (by rw [hb.psize, hb.nn, hb.nd])
  have hq : (_dzFreqResIdentDataLSMCreate a).q = (_dzFreqResIdentDataLSMCreate b).q := by
    apply zMat_ext
    · rw [fa.qrow, fb.qrow, ha.qrow, hb.qrow]
    · rw [fa.qcol, fb.qcol, ha.qcol, hb.qcol]
    · intro i j
      rw [qa i j, qb i j, ha.qrow, hb.qrow, ha.qcol, hb.qcol, ha.nn, hb.nn]
      congr 1
      exact (h.rows.map _).sum_eq
  have hp : (_dzFreqResIdentDataLSMCreate a).p = (_dzFreqResIdentDataLSMCreate b).p := by
    apply zVec_ext
    · rw [fa.psize, fb.psize, ha.psize, hb.psize]
    · intro i
      rw [pa i, pb i, ha.psize, hb.psize, ha.nn, hb.nn]
      congr 1
      exact (h.rows.map _).sum_eq
  have hphi : (_dzFreqResIdentDataLSMCreate a).phi = (_dzFreqResIdentDataLSMCreate b).phi := by
    rw [fa.phi, fb.phi, h.phi]
  refine ⟨solveStep_shape env a ha, solveStep_shape env b hb, ?_, ?_, ?_, ?_, ?_⟩
  · rw [sampleRows_solveStep env a ha, sampleRows_solveStep env b hb]
    exact h.rows
  · simp only [solveStep, hq, hp, hphi]
  · simp only [solveStep, fa.phi_prev, fb.phi_prev, h.phi_prev]
  · simp only [solveStep, hq]
  · simp only [solveStep, hp]

theorem Permuted_nextStep {nn nd ns : Nat} (a b : dzFreqResIdentData ℝ)
    (h : Permuted nn nd ns a b) : Permuted nn nd ns (nextStep a) (nextStep b) := by
  refine ⟨nextStep_shape a h.left, nextStep_shape b h.right, ?_, ?_, ?_, ?_, ?_⟩
  · rw [sampleRows_nextStep, sampleRows_nextStep, h.left.nn, h.left.nd, h.right.nn, h.right.nd,
      h.phi]
    exact h.rows.map _
  · simp only [nextStep, UpdateMag_eq, h.phi]
  · simp only [nextStep, UpdateMag_eq, h.phi, h.phi_prev]
  · simp only [nextStep, UpdateMag_eq, h.q]
  · simp only [nextStep, UpdateMag_eq, h.p]

theorem Permuted_startOf (alloc : Nat → Bool) (l1 l2 : zList dzFreqRes) (nn nd : Nat)
    (h : l1.Perm l2) :
    Permuted nn nd l1.length (startOf alloc l1 nn nd) (startOf alloc l2 nn nd) := by
  have hlen : l1.length = l2.length := h.length_eq
  have s1 := loopStart_shape alloc l1 nn nd
  have s2 := loopStart_shape alloc l2 nn nd
  rw [← hlen] at s2
  have f1 := readLoop_ns l1 alloc nn nd
  have f2 := readLoop_ns l2 alloc nn nd
  refine ⟨s1, s2, ?_, ?_, ?_, ?_, ?_⟩
  · rw [sampleRows_startOf, sampleRows_startOf]
    exact h.map _
  · simp only [startOf, loopStart, _dzFreqResIdentDataLSMAlloc, f1.2.2.2.2.1, f2.2.2.2.2.1]
    rfl
  · simp only [startOf, loopStart, _dzFreqResIdentDataLSMAlloc, f1.2.2.2.2.1, f2.2.2.2.2.1]
    rfl
  · simp only [startOf, loopStart, _dzFreqResIdentDataLSMAlloc, f1.2.2.2.2.1, f2.2.2.2.2.1]
    rfl
  · simp only [startOf, loopStart, _dzFreqResIdentDataLSMAlloc, f1.2.2.2.2.1, f2.2.2.2.2.1]
    rfl

theorem Permuted_identLoop (env : zmEnv) {nn nd ns : Nat} (n : Nat)
    (a b : dzFreqResIdentData ℝ) (dp : Option ℝ) (h : Permuted nn nd ns a b) :
    Permuted nn nd ns (identLoop env n a dp) (identLoop env n b dp) :=
  identLoop_rel env (Permuted nn nd ns) (Permuted_solveStep env) Permuted_nextStep
    (fun _ _ h => ⟨h.phi, h.phi_prev⟩) n a b dp h

/-! ## Order insensitivity -/

theorem _dzFreqResIdent_granted_startOf (env : zmEnv) (list : zList dzFreqRes) (nn nd : Nat)
    (iter : Int) (h : allocGranted env.zAlloc 13) (hl : list ≠ []) :
    _dzFreqResIdent env list nn nd iter
      = (true, identLoop env (ZITERINIT env.Z_MAX_ITER_NUM iter)
          (startOf env.zAlloc list nn nd) none) :=
  _dzFreqResIdent_granted env list nn nd iter h hl

theorem _dzFreqResIdent_perm (env : zmEnv) (l1 l2 : zList dzFreqRes) (nn nd : Nat) (iter : Int)
    (h : l1.Perm l2) :
    (_dzFreqResIdent env l1 nn nd iter).1 = (_dzFreqResIdent env l2 nn nd iter).1 ∧
    ((_dzFreqResIdent env l1 nn nd iter).1 = true →
      (_dzFreqResIdent env l1 nn nd iter).2.nn = (_dzFreqResIdent env l2 nn nd iter).2.nn ∧
      (_dzFreqResIdent env l1 nn nd iter).2.nd = (_dzFreqResIdent env l2 nn nd iter).2.nd ∧
      (_dzFreqResIdent env l1 nn nd iter).2.phi = (_dzFreqResIdent env l2 nn nd iter).2.phi) := by
  have hnil : l1 ≠ [] ↔ l2 ≠ [] := by
    constructor
    · intro h1 h2; rw [h2] at h; exact h1 h.eq_nil
    · intro h1 h2; rw [h2] at h; exact h1 h.symm.eq_nil
  by_cases hg : allocGranted env.zAlloc 13 ∧ l1 ≠ []
  · have hg2 : allocGranted env.zAlloc 13 ∧ l2 ≠ [] := ⟨hg.1, hnil.1 hg.2⟩
    rw [_dzFreqResIdent_granted_startOf env l1 nn nd iter hg.1 hg.2,
      _dzFreqResIdent_granted_startOf env l2 nn nd iter hg2.1 hg2.2]
    have hP := Permuted_identLoop env (ZITERINIT env.Z_MAX_ITER_NUM iter) _ _ none
      (Permuted_startOf env.zAlloc l1 l2 nn nd h)
    refine ⟨rfl, fun _ => ⟨?_, ?_, hP.phi⟩⟩
    · rw [hP.left.nn, hP.right.nn]
    · rw [hP.left.nd, hP.right.nd]
  · have hg2 : ¬ (allocGranted env.zAlloc 13 ∧ l2 ≠ []) := fun h2 => hg ⟨h2.1, hnil.2 h2.2⟩
    have e1 := _dzFreqResIdent_refused env l1 nn nd iter hg
    have e2 := _dzFreqResIdent_refused env l2 nn nd iter hg2
    refine ⟨by rw [e1, e2], fun h1 => ?_⟩
    rw [e1] at h1
    exact absurd h1 (by simp)

/-- C8 (order insensitivity): for a sample list and a permutation of it,
whatever number of passes the loop of `_dzFreqResIdent` is run for, the normal
equations `q`, `p` last assembled and the parameter vector `phi` are the same
in both runs, so are the normal equations that the next pass assembles, and
`dzTFIdentFromFreqRes` gives the same result for both lists.  (`startOf` is
the working set with which the loop starts, first part.) -/
theorem order_insensitive (env : zmEnv) (tf : dzTF ℝ) (l1 l2 : zList dzFreqRes) (nn nd : Nat)
    (iter : Int) (h : l1.Perm l2) :
    (allocGranted env.zAlloc 13 → l1 ≠ [] →
      _dzFreqResIdent env l1 nn nd iter
        = (true, identLoop env (ZITERINIT env.Z_MAX_ITER_NUM iter)
            (startOf env.zAlloc l1 nn nd) none)) ∧
    (∀ (n : Nat) (s1 s2 : dzFreqResIdentData ℝ),
      s1 = identLoop env n (startOf env.zAlloc l1 nn nd) none →
      s2 = identLoop env n (startOf env.zAlloc l2 nn nd) none →
      s1.q = s2.q ∧ s1.p = s2.p ∧ s1.phi = s2.phi) ∧
    (∀ (n : Nat) (s1 s2 : dzFreqResIdentData ℝ),
      s1 = identLoop env n (startOf env.zAlloc l1 nn nd) none →
      s2 = identLoop env n (startOf env.zAlloc l2 nn nd) none →
      (_dzFreqResIdentDataLSMCreate s1).q = (_dzFreqResIdentDataLSMCreate s2).q ∧
      (_dzFreqResIdentDataLSMCreate s1).p = (_dzFreqResIdentDataLSMCreate s2).p) ∧
    dzTFIdentFromFreqRes env tf l1 nn nd iter = dzTFIdentFromFreqRes env tf l2 nn nd iter := by
  have hP := fun n => Permuted_identLoop env n _ _ none (Permuted_startOf env.zAlloc l1 l2 nn nd h)
  refine ⟨fun hg hl => _dzFreqResIdent_granted_startOf env l1 nn nd iter hg hl, ?_, ?_, ?_⟩
  · intro n s1 s2 e1 e2
    subst e1; subst e2
    exact ⟨(hP n).q, (hP n).p, (hP n).phi⟩
  · intro n s1 s2 e1 e2
    subst e1; subst e2
    have h2 := Permuted_solveStep env _ _ (hP n)
    exact ⟨h2.q, h2.p⟩
  · obtain ⟨h1, h2⟩ := _dzFreqResIdent_perm env l1 l2 nn nd iter h
    cases hb : (_dzFreqResIdent env l1 nn nd iter).1
    · have hb2 : (_dzFreqResIdent env l2 nn nd iter).1 = false := by rw [← h1, hb]
      simp only [dzTFIdentFromFreqRes, hb, hb2, Bool.not_false, if_true]
    · have hb2 : (_dzFreqResIdent env l2 nn nd iter).1 = true := by rw [← h1, hb]
      obtain ⟨hnn, hnd, hphi⟩ := h2 hb
      simp only [dzTFIdentFromFreqRes, hb, hb2, hnn, hnd, hphi]

theorem order_insensitive_witness :
    dzTFIdentFromFreqRes idealEnv TF_one [⟨1, 0, 0⟩, ⟨10, 0, 0⟩, ⟨100, 0, 0⟩] 0 1 0
      = dzTFIdentFromFreqRes idealEnv TF_one [⟨100, 0, 0⟩, ⟨1, 0, 0⟩, ⟨10, 0, 0⟩] 0 1 0 :=
  (order_insensitive idealEnv TF_one [⟨1, 0, 0⟩, ⟨10, 0, 0⟩, ⟨100, 0, 0⟩]
    [⟨100, 0, 0⟩, ⟨1, 0, 0⟩, ⟨10, 0, 0⟩] 0 1 0
    (@List.perm_append_comm dzFreqRes [⟨1, 0, 0⟩, ⟨10, 0, 0⟩] [⟨100, 0, 0⟩])).2.2.2

/-! ## The sign table of the powers -/

theorem I_pow_mod4 (j : Nat) : Complex.I ^ j = Complex.I ^ (j % 4) := by
  conv_lhs => rw [← Nat.div_add_mod j 4]
  rw [pow_add, pow_mul, Complex.I_pow_four, one_pow, one_mul]

/-- The sign table of `_dzFreqResIdentDataRead` gives the powers of `j omega`. -/
theorem iomegaPow_toC (omega : ℝ) (j : Nat) :
    (iomegaPow omega j).toC = (Complex.I * omega) ^ j := by
  rw [mul_pow, I_pow_mod4]
  have h4 : j % 4 < 4 := Nat.mod_lt _ (by norm_num)
  have hcases : j % 4 = 0 ∨ j % 4 = 1 ∨ j % 4 = 2 ∨ j % 4 = 3 := by omega
  rcases hcases with h | h | h | h
  · have h1 : j % 2 = 0 := by omega
    have h2 : (j / 2) % 2 = 0 := by omega
    rw [h]
    apply Complex.ext <;>
      simp [iomegaPow, h1, h2, zComplex.toC, zComplexCreate, ← Complex.ofReal_pow]
  · have h1 : ¬ (j % 2 = 0) := by omega
    have h2 : ((j - 1) / 2) % 2 = 0 := by omega
    rw [h]
    apply Complex.ext <;>
      simp [iomegaPow, h1, h2, zComplex.toC, zComplexCreate, ← Complex.ofReal_pow]
  · have h1 : j % 2 = 0 := by omega
    have h2 : ¬ ((j / 2) % 2 = 0) := by omega
    rw [h]
    apply Complex.ext <;>
      simp [iomegaPow, h1, h2, zComplex.toC, zComplexCreate, ← Complex.ofReal_pow]
  · have h1 : ¬ (j % 2 = 0) := by omega
    have h2 : ¬ (((j - 1) / 2) % 2 = 0) := by omega
    rw [h]
    have h3 : Complex.I ^ 3 = -Complex.I := by
      rw [pow_succ, Complex.I_sq]; ring
    rw [h3]
    apply Complex.ext <;>
      simp [iomegaPow, h1, h2, zComplex.toC, zComplexCreate, ← Complex.ofReal_pow]

/-! ## The rows of a sample as complex numbers -/

theorem re_add_I_mul_im (c : zComplex ℝ) : (c.re : ℂ) + Complex.I * c.im = c.toC := by
  apply Complex.ext <;> simp [zComplex.toC]

theorem rowC_numer (nn ndim : Nat) (d : SampleRow ℝ) (fr : dzFreqRes)
    (h : SameTables d (readRowOf ndim fr)) (i : Nat) (hi : i ≤ nn) (hn : nn ≤ ndim) :
    ((rowRe nn d i : ℝ) : ℂ) + Complex.I * (rowIm nn d i : ℝ)
      = d.mag * (Complex.I * (dzFreqResToComplex fr).2) ^ i := by
  have hi' : i ≤ ndim := by omega
  rw [← iomegaPow_toC, ← re_add_I_mul_im]
  simp only [rowRe, rowIm, if_pos hi, h.1, h.2.1, readRowOf, readRow, if_pos hi']
  push_cast
  ring

theorem rowC_denom (nn ndim : Nat) (d : SampleRow ℝ) (fr : dzFreqRes)
    (h : SameTables d (readRowOf ndim fr)) (j : Nat) (hj : j + 1 ≤ ndim) :
    ((rowRe nn d (nn + 1 + j) : ℝ) : ℂ) + Complex.I * (rowIm nn d (nn + 1 + j) : ℝ)
      = -(d.mag * ((dzFreqResToComplex fr).1.toC
          * (Complex.I * (dzFreqResToComplex fr).2) ^ (j + 1))) := by
  have hi : ¬ (nn + 1 + j ≤ nn) := by omega
  have hsub : nn + 1 + j - nn = j + 1 := by omega
  rw [← iomegaPow_toC, ← toC_CMul, ← re_add_I_mul_im]
  simp only [rowRe, rowIm, if_neg hi, hsub, h.2.2.1, h.2.2.2.1, readRowOf, readRow, if_pos hj]
  push_cast
  ring

/-- The two real products of the rows of a sample with `x` are the real and
the imaginary part of the weighted left side of its linear equation. -/
theorem dot_eq_model (nn nd ndim : Nat) (d : SampleRow ℝ) (fr : dzFreqRes) (x : Nat → ℝ)
    (h : SameTables d (readRowOf ndim fr)) (hn : nn ≤ ndim) (hd : nd ≤ ndim) :
    ((dotRe nn nd d x : ℝ) : ℂ) + Complex.I * (dotIm nn nd d x : ℝ)
      = d.mag * modelAtJw nn nd x (dzFreqResToComplex fr).1.toC (dzFreqResToComplex fr).2 := by
  have hsplit : nn + nd + 1 = (nn + 1) + nd := by omega
  have hR : dotRe nn nd d x = ∑ i in Finset.range (nn + 1), rowRe nn d i * x i
      + ∑ j in Finset.range nd, rowRe nn d (nn + 1 + j) * x (nn + 1 + j) := by
    unfold dotRe
    rw [hsplit, Finset.sum_range_add]
  have hI : dotIm nn nd d x = ∑ i in Finset.range (nn + 1), rowIm nn d i * x i
      + ∑ j in Finset.range nd, rowIm nn d (nn + 1 + j) * x (nn + 1 + j) := by
    unfold dotIm
    rw [hsplit, Finset.sum_range_add]
  have e1 : ∑ i in Finset.range (nn + 1), ((rowRe nn d i : ℝ) : ℂ) * (x i : ℂ)
      + Complex.I * ∑ i in Finset.range (nn + 1), ((rowIm nn d i : ℝ) : ℂ) * (x i : ℂ)
      = d.mag * ∑ i in Finset.range (nn + 1),
          (x i : ℂ) * (Complex.I * (dzFreqResToComplex fr).2) ^ i := by
    rw [Finset.mul_sum, Finset.mul_sum, ← Finset.sum_add_distrib]
    apply Finset.sum_congr rfl
    intro i hi
    have hi' : i ≤ nn := by
      have := Finset.mem_range.1 hi
      omega
    have e := rowC_numer nn ndim d fr h i hi' hn
    linear_combination (x i : ℂ) * e
  have e2 : ∑ j in Finset.range nd, ((rowRe nn d (nn + 1 + j) : ℝ) : ℂ) * (x (nn + 1 + j) : ℂ)
      + Complex.I * ∑ j in Finset.range nd,
          ((rowIm nn d (nn + 1 + j) : ℝ) : ℂ) * (x (nn + 1 + j) : ℂ)
      = -(d.mag * ((dzFreqResToComplex fr).1.toC * ∑ j in Finset.range nd,
          (x (nn + 1 + j) : ℂ) * (Complex.I * (dzFreqResToComplex fr).2) ^ (j + 1))) := by
    rw [Finset.mul_sum, Finset.mul_sum, Finset.mul_sum, ← Finset.sum_neg_distrib,
      ← Finset.sum_add_distrib]
    apply Finset.sum_congr rfl
    intro j hj
    have hj' : j + 1 ≤ ndim := by
      have := Finset.mem_range.1 hj
      omega
    have e := rowC_denom nn ndim d fr h j hj'
    linear_combination (x (nn + 1 + j) : ℂ) * e
  rw [hR, hI]
  unfold modelAtJw
  push_cast
  linear_combination e1 + e2

/-! ## Solutions of the normal equations -/

theorem sum_map_finset {α : Type} (s : Finset Nat) (f : Nat → α → ℝ) (L : List α) :
    ∑ j in s, (L.map (f j)).sum = (L.map fun d => ∑ j in s, f j d).sum := by
  induction L with
  | nil => simp
  | cons a L ih =>
    simp only [List.map_cons, List.sum_cons, Finset.sum_add_distrib, ih]

theorem list_sum_mul_right {α : Type} (f : α → ℝ) (c : ℝ) (L : List α) :
    (L.map f).sum * c = (L.map fun d => f d * c).sum := by
  induction L with
  | nil => simp
  | cons a L ih =>
    simp only [List.map_cons, List.sum_cons, add_mul, ih]

theorem list_sum_sub {α : Type} (f g : α → ℝ) (L : List α) :
    (L.map f).sum - (L.map g).sum = (L.map fun d => f d - g d).sum := by
  induction L with
  | nil => simp
  | cons a L ih =>
    simp only [List.map_cons, List.sum_cons, ← ih]
    ring

theorem list_sum_sq_eq_zero {α : Type} (f g : α → ℝ) :
    ∀ (L : List α), (L.map fun d => f d * f d + g d * g d).sum = 0 →
      ∀ d, d ∈ L → f d = 0 ∧ g d = 0
  | [], _, d, hd => by simp at hd
  | a :: L, h, d, hd => by
    simp only [List.map_cons, List.sum_cons] at h
    have h1 : 0 ≤ (L.map fun d => f d * f d + g d * g d).sum := by
      apply List.sum_nonneg
      intro x hx
      obtain ⟨d, -, rfl⟩ := List.mem_map.1 hx
      nlinarith [mul_self_nonneg (f d), mul_self_nonneg (g d)]
    have h2 : f a * f a + g a * g a = 0 := by
      nlinarith [mul_self_nonneg (f a), mul_self_nonneg (g a)]
    have h3 : (L.map fun d => f d * f d + g d * g d).sum = 0 := by linarith
    rcases List.mem_cons.1 hd with e | e
    · subst e
      constructor
      · nlinarith [mul_self_nonneg (f d), mul_self_nonneg (g d)]
      · nlinarith [mul_self_nonneg (f d), mul_self_nonneg (g d)]
    · exact list_sum_sq_eq_zero f g L h3 d e

/-- The defect of the normal equations in the row `i` is the sum of the
residuals of the samples, weighted by the component `i` of their rows. -/
theorem normalEq_defect (nn nd : Nat) (rows : List (SampleRow ℝ)) (q : zMat ℝ) (p : zVec ℝ)
    (h : NormalEq nn nd rows q p) (x : Nat → ℝ) (i : Nat) (hi : i < nn + nd + 1) :
    ∑ j in Finset.range q.col, q.buf i j * x j - p.buf i
      = (rows.map fun d => rowRe nn d i * resRe nn nd d x + rowIm nn d i * resIm nn nd d x).sum := by
  obtain ⟨-, hcol, hq, hp⟩ := h
  rw [hcol, hp i hi]
  have e1 : ∑ j in Finset.range (nn + nd + 1), q.buf i j * x j
      = ∑ j in Finset.range (nn + nd + 1), (rows.map fun d => qTerm nn d i j * x j).sum := by
    apply Finset.sum_congr rfl
    intro j hj
    rw [hq i j hi (Finset.mem_range.1 hj), list_sum_mul_right]
  rw [e1, sum_map_finset (Finset.range (nn + nd + 1)) (fun j d => qTerm nn d i j * x j) rows,
    list_sum_sub]
  congr 1
  apply List.map_congr_left
  intro d _
  simp only [qTerm, pTerm, resRe, resIm, dotRe, dotIm, Finset.mul_sum, mul_sub,
    ← Finset.sum_add_distrib]
  rw [sub_add_sub_comm, ← Finset.sum_add_distrib]
  congr 1
  · apply Finset.sum_congr rfl
    intro j _
    ring
  · ring

theorem normalEq_solution (nn nd : Nat) (rows : List (SampleRow ℝ)) (q : zMat ℝ) (p : zVec ℝ)
    (h : NormalEq nn nd rows q p) (x : Nat → ℝ)
    (hx : ∀ d, d ∈ rows → resRe nn nd d x = 0 ∧ resIm nn nd d x = 0) :
    IsSolution q p x := by
  intro i hi
  rw [h.1] at hi
  have e := normalEq_defect nn nd rows q p h x i hi
  have e0 : (rows.map fun d => rowRe nn d i * resRe nn nd d x
      + rowIm nn d i * resIm nn nd d x).sum = 0 := by
    apply List.sum_eq_zero
    intro v hv
    obtain ⟨d, hd, rfl⟩ := List.mem_map.1 hv
    rw [(hx d hd).1, (hx d hd).2]
    ring
  rw [e0] at e
  linarith

theorem dot_sub (nn nd : Nat) (d : SampleRow ℝ) (y x : Nat → ℝ) :
    dotRe nn nd d (fun i => y i - x i) = dotRe nn nd d y - dotRe nn nd d x ∧
    dotIm nn nd d (fun i => y i - x i) = dotIm nn nd d y - dotIm nn nd d x := by
  simp only [dotRe, dotIm, ← Finset.sum_sub_distrib, mul_sub, and_self]

/-- Two solutions of the normal equations, one of which has no residual, have
the same products with the rows of every sample. -/
theorem normalEq_unique (nn nd : Nat) (rows : List (SampleRow ℝ)) (q : zMat ℝ) (p : zVec ℝ)
    (h : NormalEq nn nd rows q p) (x y : Nat → ℝ)
    (hx : ∀ d, d ∈ rows → resRe nn nd d x = 0 ∧ resIm nn nd d x = 0)
    (hy : IsSolution q p y) :
    ∀ d, d ∈ rows → dotRe nn nd d (fun i => y i - x i) = 0 ∧
      dotIm nn nd d (fun i => y i - x i) = 0 := by
  have hdef : ∀ i, i < nn + nd + 1 →
      (rows.map fun d => rowRe nn d i * resRe nn nd d y + rowIm nn d i * resIm nn nd d y).sum
        = 0 := by
    intro i hi
    rw [← normalEq_defect nn nd rows q p h y i hi, hy i (by rw [h.1]; exact hi)]
    ring
  have hsum : ∑ i in Finset.range (nn + nd + 1), (rows.map fun d =>
      (rowRe nn d i * resRe nn nd d y + rowIm nn d i * resIm nn nd d y) * (y i - x i)).sum
        = 0 := by
    apply Finset.sum_eq_zero
    intro i hi
    rw [← list_sum_mul_right, hdef i (Finset.mem_range.1 hi)]
    ring
  rw [sum_map_finset (Finset.range (nn + nd + 1))
    (fun i d => (rowRe nn d i * resRe nn nd d y + rowIm nn d i * resIm nn nd d y) * (y i - x i))
    rows] at hsum
  have hsq : (rows.map fun d => resRe nn nd d y * resRe nn nd d y
      + resIm nn nd d y * resIm nn nd d y).sum = 0 := by
    rw [← hsum]
    congr 1
    apply List.map_congr_left
    intro d hd
    have h1 := (hx d hd).1
    have h2 := (hx d hd).2
    have e1 : ∑ i in Finset.range (nn + nd + 1),
        (rowRe nn d i * resRe nn nd d y + rowIm nn d i * resIm nn nd d y) * (y i - x i)
        = resRe nn nd d y * (dotRe nn nd d y - dotRe nn nd d x)
          + resIm nn nd d y * (dotIm nn nd d y - dotIm nn nd d x) := by
      simp only [dotRe, dotIm, ← Finset.sum_sub_distrib, Finset.mul_sum,
        ← Finset.sum_add_distrib]
      apply Finset.sum_congr rfl
      intro i _
      ring
    rw [e1]
    simp only [resRe, resIm] at h1 h2 ⊢
    have e2 : dotRe nn nd d x = d.fr_re 0 * d.mag := by linarith
    have e3 : dotIm nn nd d x = d.fr_im 0 * d.mag := by linarith
    rw [e2, e3]
  intro d hd
  obtain ⟨r1, r2⟩ := list_sum_sq_eq_zero (fun d => resRe nn nd d y) (fun d => resIm nn nd d y)
    rows hsq d hd
  obtain ⟨s1, s2⟩ := dot_sub nn nd d y x
  have h1 := (hx d hd).1
  have h2 := (hx d hd).2
  simp only [resRe, resIm] at r1 r2 h1 h2
  constructor
  · rw [s1]; linarith
  · rw [s2]; linarith

/-! ## The parameters of the generating transfer function -/

theorem polyAtJw_succ (c : Nat → ℝ) (n : Nat) (omega : ℝ) :
    polyAtJw c n omega
      = (c 0 : ℂ) + ∑ j in Finset.range n, (c (j + 1) : ℂ) * (Complex.I * omega) ^ (j + 1) := by
  unfold polyAtJw
  rw [Finset.sum_range_succ']
  simp only [pow_zero, mul_one]
  ring

theorem modelAtJw_paramsOf (tf0 : dzTF ℝ) (nn nd : Nat) (G : ℂ) (omega : ℝ) :
    modelAtJw nn nd (paramsOf tf0 nn) G omega
      = polyAtJw tf0.num.buf nn omega - G * (polyAtJw tf0.den.buf nd omega - tf0.den.buf 0) := by
  rw [polyAtJw_succ tf0.den.buf nd]
  unfold modelAtJw polyAtJw
  have e1 : ∑ i in Finset.range (nn + 1), ((paramsOf tf0 nn i : ℝ) : ℂ) * (Complex.I * omega) ^ i
      = ∑ i in Finset.range (nn + 1), ((tf0.num.buf i : ℝ) : ℂ) * (Complex.I * omega) ^ i := by
    apply Finset.sum_congr rfl
    intro i hi
    have hi' : i ≤ nn := by
      have := Finset.mem_range.1 hi
      omega
    simp only [paramsOf, if_pos hi']
  have e2 : ∑ j in Finset.range nd,
        ((paramsOf tf0 nn (nn + 1 + j) : ℝ) : ℂ) * (Complex.I * omega) ^ (j + 1)
      = ∑ j in Finset.range nd, ((tf0.den.buf (j + 1) : ℝ) : ℂ) * (Complex.I * omega) ^ (j + 1) := by
    apply Finset.sum_congr rfl
    intro j _
    have h1 : ¬ (nn + 1 + j ≤ nn) := by omega
    have h2 : nn + 1 + j - nn = j + 1 := by omega
    simp only [paramsOf, if_neg h1, h2]
  rw [e1, e2]
  ring

theorem modelAtJw_generated (tf0 : dzTF ℝ) (nn nd : Nat) (fr : dzFreqRes)
    (h0 : tf0.den.buf 0 = 1) (hg : GeneratedBy tf0 nn nd fr) :
    modelAtJw nn nd (paramsOf tf0 nn) (dzFreqResToComplex fr).1.toC (dzFreqResToComplex fr).2
      = (dzFreqResToComplex fr).1.toC := by
  rw [modelAtJw_paramsOf, h0, hg.2]
  have hne := hg.1
  field_simp
  ring

theorem gain_of_tables (ndim : Nat) (d : SampleRow ℝ) (fr : dzFreqRes)
    (h : SameTables d (readRowOf ndim fr)) :
    ((d.fr_re 0 : ℝ) : ℂ) + Complex.I * (d.fr_im 0 : ℝ) = (dzFreqResToComplex fr).1.toC := by
  have h0 : (0 : Nat) ≤ ndim := Nat.zero_le _
  have e := iomegaPow_toC (dzFreqResToComplex fr).2 0
  rw [pow_zero] at e
  simp only [h.2.2.1, h.2.2.2.1, readRowOf, readRow, if_pos h0]
  rw [re_add_I_mul_im, toC_CMul, e, mul_one]

theorem real_pair_eq_zero (a b : ℝ) (h : (a : ℂ) + Complex.I * b = 0) : a = 0 ∧ b = 0 := by
  have h1 := congrArg Complex.re h
  have h2 := congrArg Complex.im h
  simp at h1 h2
  exact ⟨h1, h2⟩

/-- The residuals of a sample as one complex number. -/
theorem res_eq_model (nn nd ndim : Nat) (d : SampleRow ℝ) (fr : dzFreqRes) (x : Nat → ℝ)
    (h : SameTables d (readRowOf ndim fr)) (hn : nn ≤ ndim) (hd : nd ≤ ndim) :
    ((resRe nn nd d x : ℝ) : ℂ) + Complex.I * (resIm nn nd d x : ℝ)
      = d.mag * (modelAtJw nn nd x (dzFreqResToComplex fr).1.toC (dzFreqResToComplex fr).2
          - (dzFreqResToComplex fr).1.toC) := by
  have e1 := dot_eq_model nn nd ndim d fr x h hn hd
  have e2 := gain_of_tables ndim d fr h
  simp only [resRe, resIm]
  push_cast
  linear_combination e1 - (d.mag : ℂ) * e2

/-- The parameters of the generating transfer function leave no residual. -/
theorem res_paramsOf (tf0 : dzTF ℝ) (nn nd ndim : Nat) (d : SampleRow ℝ) (fr : dzFreqRes)
    (h : SameTables d (readRowOf ndim fr)) (hn : nn ≤ ndim) (hd : nd ≤ ndim)
    (h0 : tf0.den.buf 0 = 1) (hg : GeneratedBy tf0 nn nd fr) :
    resRe nn nd d (paramsOf tf0 nn) = 0 ∧ resIm nn nd d (paramsOf tf0 nn) = 0 := by
  apply real_pair_eq_zero
  rw [res_eq_model nn nd ndim d fr _ h hn hd, modelAtJw_generated tf0 nn nd fr h0 hg]
  ring

theorem forall2_of_mem_left {α β : Type} {R : α → β → Prop} :
    ∀ {l : List α} {u : List β}, List.Forall₂ R l u → ∀ a, a ∈ l → ∃ b, b ∈ u ∧ R a b
  | _, _, List.Forall₂.nil, a, ha => by simp at ha
  | _, _, List.Forall₂.cons hr ht, a, ha => by
    rcases List.mem_cons.1 ha with e | e
    · subst e
      exact ⟨_, List.mem_cons_self _ _, hr⟩
    · obtain ⟨b, hb, hab⟩ := forall2_of_mem_left ht a e
      exact ⟨b, List.mem_cons_of_mem _ hb, hab⟩

theorem forall2_of_mem_right {α β : Type} {R : α → β → Prop} :
    ∀ {l : List α} {u : List β}, List.Forall₂ R l u → ∀ b, b ∈ u → ∃ a, a ∈ l ∧ R a b
  | _, _, List.Forall₂.nil, b, hb => by simp at hb
  | _, _, List.Forall₂.cons hr ht, b, hb => by
    rcases List.mem_cons.1 hb with e | e
    · subst e
      exact ⟨_, List.mem_cons_self _ _, hr⟩
    · obtain ⟨a, ha, hab⟩ := forall2_of_mem_right ht b e
      exact ⟨a, List.mem_cons_of_mem _ ha, hab⟩

/-- For identifiable samples the parameters of the generating transfer
function are the one solution of the normal equations. -/
theorem normalEq_paramsOf (tf0 : dzTF ℝ) (nn nd : Nat) (list : List dzFreqRes)
    (rows : List (SampleRow ℝ)) (q : zMat ℝ) (p : zVec ℝ)
    (h : NormalEq nn nd rows q p) (ht : List.Forall₂ (Tracked tf0 nn nd) rows list)
    (h0 : tf0.den.buf 0 = 1) (hid : Identifiable nn nd list) :
    IsUniqueSolution q p (paramsOf tf0 nn) := by
  have hres : ∀ d, d ∈ rows →
      resRe nn nd d (paramsOf tf0 nn) = 0 ∧ resIm nn nd d (paramsOf tf0 nn) = 0 := by
    intro d hd
    obtain ⟨fr, -, hfr⟩ := forall2_of_mem_left ht d hd
    exact res_paramsOf tf0 nn nd (max nn nd) d fr hfr.1 (le_max_left _ _) (le_max_right _ _) h0
      hfr.2
  refine ⟨normalEq_solution nn nd rows q p h _ hres, ?_⟩
  intro y hy i hi
  rw [h.2.1] at hi
  have hdots := normalEq_unique nn nd rows q p h (paramsOf tf0 nn) y hres hy
  have hv := hid (fun i => y i - paramsOf tf0 nn i) ?_ i hi
  · simp only at hv
    linarith
  · intro fr hfr
    obtain ⟨d, hd, hdfr⟩ := forall2_of_mem_right ht fr hfr
    have e := dot_eq_model nn nd (max nn nd) d fr (fun i => y i - paramsOf tf0 nn i) hdfr.1
      (le_max_left _ _) (le_max_right _ _)
    rw [(hdots d hd).1, (hdots d hd).2] at e
    have hm : (d.mag : ℂ) ≠ 0 := by
      exact_mod_cast hdfr.1.2.2.2.2
    simp only [Complex.ofReal_zero, mul_zero, add_zero] at e
    exact (mul_eq_zero.1 e.symm).resolve_left hm

/-! ## The loop on exactly generated samples -/

theorem range'_sum (f : Nat → ℝ) (n : Nat) :
    ((List.range' 1 n).map f).sum = ∑ j in Finset.range n, f (j + 1) := by
  induction n with
  | zero => simp
  | succ n ih =>
    rw [List.range'_concat, List.map_append, List.sum_append, ih, Finset.sum_range_succ]
    simp [Nat.add_comm]

theorem powC_of_tables (ndim : Nat) (d : SampleRow ℝ) (fr : dzFreqRes)
    (h : SameTables d (readRowOf ndim fr)) (j : Nat) (hj : j ≤ ndim) :
    ((d.ps_re j : ℝ) : ℂ) + Complex.I * (d.ps_im j : ℝ)
      = (Complex.I * (dzFreqResToComplex fr).2) ^ j := by
  rw [← iomegaPow_toC, ← re_add_I_mul_im]
  simp only [h.1, h.2.1, readRowOf, readRow, if_pos hj]

/-- The new weight of a sample is not zero when `phi` holds the parameters of
a transfer function without a pole at the frequency of the sample. -/
theorem newMag_ne_zero (tf0 : dzTF ℝ) (nn nd : Nat) (phi : Nat → ℝ) (d : SampleRow ℝ)
    (fr : dzFreqRes) (ht : SameTables d (readRowOf (max nn nd) fr))
    (hpole : polyAtJw tf0.den.buf nd (dzFreqResToComplex fr).2 ≠ 0) (h0 : tf0.den.buf 0 = 1)
    (hphi : ∀ i, i < nn + nd + 1 → phi i = paramsOf tf0 nn i) :
    newMag nn nd phi d ≠ 0 := by
  have hD : ((d.ps_re 0 + ((List.range' 1 nd).map fun j => d.ps_re j * phi (nn + j)).sum : ℝ) : ℂ)
      + Complex.I * ((d.ps_im 0 + ((List.range' 1 nd).map fun j => d.ps_im j * phi (nn + j)).sum
          : ℝ) : ℂ)
      = polyAtJw tf0.den.buf nd (dzFreqResToComplex fr).2 := by
    rw [range'_sum, range'_sum, polyAtJw_succ, h0]
    push_cast
    have e0 := powC_of_tables (max nn nd) d fr ht 0 (Nat.zero_le _)
    rw [pow_zero] at e0
    have es : ∑ j in Finset.range nd, ((d.ps_re (j + 1) : ℝ) : ℂ) * (phi (nn + (j + 1)) : ℂ)
        + Complex.I * ∑ j in Finset.range nd, ((d.ps_im (j + 1) : ℝ) : ℂ) * (phi (nn + (j + 1)) : ℂ)
        = ∑ j in Finset.range nd, ((tf0.den.buf (j + 1) : ℝ) : ℂ)
            * (Complex.I * (dzFreqResToComplex fr).2) ^ (j + 1) := by
      rw [Finset.mul_sum, ← Finset.sum_add_distrib]
      apply Finset.sum_congr rfl
      intro j hj
      have hj' : j < nd := Finset.mem_range.1 hj
      have e := powC_of_tables (max nn nd) d fr ht (j + 1)
        (le_trans (by omega) (le_max_right nn nd))
      have h1 : ¬ (nn + (j + 1) ≤ nn) := by omega
      have h2 : nn + (j + 1) - nn = j + 1 := by omega
      rw [hphi (nn + (j + 1)) (by omega)]
      simp only [paramsOf, if_neg h1, h2]
      linear_combination ((tf0.den.buf (j + 1) : ℝ) : ℂ) * e
    linear_combination e0 + es
  unfold newMag
  simp only
  apply one_div_ne_zero
  intro hz
  have hrr : d.ps_re 0 + ((List.range' 1 nd).map fun j => d.ps_re j * phi (nn + j)).sum = 0 := by
    nlinarith [mul_self_nonneg
      (d.ps_re 0 + ((List.range' 1 nd).map fun j => d.ps_re j * phi (nn + j)).sum),
      mul_self_nonneg
      (d.ps_im 0 + ((List.range' 1 nd).map fun j => d.ps_im j * phi (nn + j)).sum)]
  have hri : d.ps_im 0 + ((List.range' 1 nd).map fun j => d.ps_im j * phi (nn + j)).sum = 0 := by
    nlinarith [mul_self_nonneg
      (d.ps_re 0 + ((List.range' 1 nd).map fun j => d.ps_re j * phi (nn + j)).sum),
      mul_self_nonneg
      (d.ps_im 0 + ((List.range' 1 nd).map fun j => d.ps_im j * phi (nn + j)).sum)]
  rw [hrr, hri] at hD
  apply hpole
  rw [← hD]
  simp

theorem Tracks_startOf (tf0 : dzTF ℝ) (alloc : Nat → Bool) (list : zList dzFreqRes) (nn nd : Nat)
    (hgen : ∀ fr, fr ∈ list → GeneratedBy tf0 nn nd fr) :
    Tracks tf0 nn nd list (startOf alloc list nn nd) := by
  refine ⟨loopStart_shape alloc list nn nd, ?_⟩
  rw [sampleRows_startOf, List.forall₂_map_left_iff, List.forall₂_same]
  intro fr hfr
  refine ⟨⟨rfl, rfl, rfl, rfl, ?_⟩, hgen fr hfr⟩
  simp [readRowOf, readRow]

theorem NormalEq_LSMCreate {nn nd ns : Nat} (s : dzFreqResIdentData ℝ) (h : Shape nn nd ns s) :
    NormalEq nn nd (sampleRows s) (_dzFreqResIdentDataLSMCreate s).q
      (_dzFreqResIdentDataLSMCreate s).p := by
  obtain ⟨hf, hq, hp⟩ := LSMCreate_spec s (by rw [h.qrow, h.nn, h.nd])
    (by rw [h.qcol, h.nn, h.nd]) (by rw [h.psize, h.nn, h.nd])
  refine ⟨by rw [hf.qrow, h.qrow], by rw [hf.qcol, h.qcol], ?_, ?_⟩
  · intro i j hi hj
    rw [hq i j, h.qrow, h.qcol, if_pos ⟨hi, hj⟩, h.nn]
  · intro i hi
    rw [hp i, h.psize, if_pos hi, h.nn]

theorem Solved_solveStep (env : zmEnv) (tf0 : dzTF ℝ) (nn nd : Nat) (list : List dzFreqRes)
    (hsolver : IsExactSolver env.zLESolveGauss) (h0 : tf0.den.buf 0 = 1)
    (hid : Identifiable nn nd list) (s : dzFreqResIdentData ℝ)
    (h : Tracks tf0 nn nd list s) : Solved tf0 nn nd list (solveStep env s) := by
  obtain ⟨hs, ht⟩ := h
  have hne := NormalEq_LSMCreate s hs
  have hu := normalEq_paramsOf tf0 nn nd list (sampleRows s) _ _ hne ht h0 hid
  refine ⟨⟨solveStep_shape env s hs, ?_⟩, ?_⟩
  · rw [sampleRows_solveStep env s hs]
    exact ht
  · intro i hi
    have := hsolver _ _ (_dzFreqResIdentDataLSMCreate s).phi _ hu i (by rw [hne.2.1]; exact hi)
    simp only [solveStep]
    exact this

theorem Solved_nextStep (tf0 : dzTF ℝ) (nn nd : Nat) (list : List dzFreqRes)
    (h0 : tf0.den.buf 0 = 1) (s : dzFreqResIdentData ℝ)
    (h : Solved tf0 nn nd list s) :
    Tracks tf0 nn nd list (nextStep s) ∧ Solved tf0 nn nd list (nextStep s) := by
  obtain ⟨⟨hs, ht⟩, hphi⟩ := h
  have hT : Tracks tf0 nn nd list (nextStep s) := by
    refine ⟨nextStep_shape s hs, ?_⟩
    rw [sampleRows_nextStep, List.forall₂_map_left_iff, hs.nn, hs.nd]
    apply List.Forall₂.imp _ ht
    intro d fr hd
    refine ⟨⟨hd.1.1, hd.1.2.1, hd.1.2.2.1, hd.1.2.2.2.1, ?_⟩, hd.2⟩
    exact newMag_ne_zero tf0 nn nd s.phi.buf d fr hd.1 hd.2.1 h0 hphi
  refine ⟨hT, hT, ?_⟩
  intro i hi
  simp only [nextStep, UpdateMag_eq]
  exact hphi i hi

/-- The identification of exactly generated, identifiable samples ends with
the parameters of the generating transfer function. -/
theorem identLoop_solved (env : zmEnv) (tf0 : dzTF ℝ) (nn nd : Nat) (list : List dzFreqRes)
    (hsolver : IsExactSolver env.zLESolveGauss) (h0 : tf0.den.buf 0 = 1)
    (hid : Identifiable nn nd list) (n : Nat) (s : dzFreqResIdentData ℝ) (dp : Option ℝ)
    (h : Tracks tf0 nn nd list s) :
    Solved tf0 nn nd list (identLoop env (n + 1) s dp) :=
  identLoop_post env (Tracks tf0 nn nd list) (Solved tf0 nn nd list)
    (Solved_solveStep env tf0 nn nd list hsolver h0 hid)
    (Solved_nextStep tf0 nn nd list h0) n s dp h

/-! ## Polynomials of the coefficients -/

theorem coeff_toPoly (c : Nat → ℝ) (n i : Nat) :
    (toPoly c n).coeff i = if i ≤ n then c i else 0 := by
  unfold toPoly
  rw [Polynomial.finset_sum_coeff]
  simp only [Polynomial.coeff_C_mul_X_pow]
  rw [Finset.sum_ite_eq]
  simp only [Finset.mem_range, Nat.lt_succ_iff]

theorem natDegree_toPoly_le (c : Nat → ℝ) (n : Nat) : (toPoly c n).natDegree ≤ n := by
  rw [Polynomial.natDegree_le_iff_coeff_eq_zero]
  intro N hN
  rw [coeff_toPoly, if_neg (by omega)]

theorem natDegree_toPoly_eq (c : Nat → ℝ) (n : Nat) (h : c n ≠ 0) :
    (toPoly c n).natDegree = n := by
  apply le_antisymm (natDegree_toPoly_le c n)
  apply Polynomial.le_natDegree_of_ne_zero
  rw [coeff_toPoly, if_pos (le_refl _)]
  exact h

theorem aeval_toPoly (c : Nat → ℝ) (n : Nat) (omega : ℝ) :
    Polynomial.aeval (Complex.I * (omega : ℂ)) (toPoly c n) = polyAtJw c n omega := by
  unfold toPoly polyAtJw
  simp [map_sum]

theorem toPoly_eq_zero (c : Nat → ℝ) (n : Nat) (h : toPoly c n = 0) : ∀ i, i ≤ n → c i = 0 := by
  intro i hi
  have := coeff_toPoly c n i
  rw [h, if_pos hi] at this
  simpa using this.symm

theorem modelAtJw_eq (nn nd : Nat) (v : Nat → ℝ) (G : ℂ) (omega : ℝ) :
    modelAtJw nn nd v G omega
      = polyAtJw v nn omega - G * polyAtJw (denPart nn v) nd omega := by
  rw [polyAtJw_succ (denPart nn v) nd]
  unfold modelAtJw polyAtJw
  have e : ∑ j in Finset.range nd, ((v (nn + 1 + j) : ℝ) : ℂ) * (Complex.I * omega) ^ (j + 1)
      = ∑ j in Finset.range nd, ((denPart nn v (j + 1) : ℝ) : ℂ) * (Complex.I * omega) ^ (j + 1) := by
    apply Finset.sum_congr rfl
    intro j _
    have h1 : nn + 1 + j = nn + (j + 1) := by omega
    simp only [denPart, if_neg (Nat.succ_ne_zero j), h1]
  rw [e]
  simp [denPart]

/-- A polynomial that divides one of no larger degree is a constant multiple. -/
theorem eq_C_mul_of_dvd (A B : Polynomial ℝ) (m : Nat) (hA : A.natDegree = m)
    (hA0 : A ≠ 0) (hB : B.natDegree ≤ m) (h : A ∣ B) : ∃ c : ℝ, B = Polynomial.C c * A := by
  obtain ⟨q, hq⟩ := h
  by_cases hq0 : q = 0
  · exact ⟨0, by rw [hq, hq0]; simp⟩
  · have hdeg : B.natDegree = A.natDegree + q.natDegree := by
      rw [hq, Polynomial.natDegree_mul hA0 hq0]
    have hq' : q.natDegree = 0 := by omega
    refine ⟨q.coeff 0, ?_⟩
    rw [hq, mul_comm]
    congr 1
    exact Polynomial.eq_C_of_natDegree_eq_zero hq'

/-! ## Identifiable samples -/

theorem jw_injective : Function.Injective (fun x : ℝ => Complex.I * ((zPIx2 * x : ℝ) : ℂ)) := by
  intro a b h
  simp only at h
  have h1 := mul_left_cancel₀ Complex.I_ne_zero h
  have h2 : zPIx2 * a = zPIx2 * b := by exact_mod_cast h1
  have hpi : zPIx2 ≠ 0 := by
    unfold zPIx2
    have := Real.pi_pos
    positivity
  exact mul_left_cancel₀ hpi h2

theorem vanishing_combination (tf0 : dzTF ℝ) (nn nd : Nat) (list : List dzFreqRes)
    (hgen : ∀ fr, fr ∈ list → GeneratedBy tf0 nn nd fr)
    (hnodup : (list.map fun fr => fr.f).Nodup) (hlen : nn + nd + 1 ≤ list.length)
    (v : Nat → ℝ)
    (hv : ∀ fr, fr ∈ list →
      modelAtJw nn nd v (dzFreqResToComplex fr).1.toC (dzFreqResToComplex fr).2 = 0) :
    toPoly v nn * toPoly tf0.den.buf nd = toPoly tf0.num.buf nn * toPoly (denPart nn v) nd := by
  rw [← sub_eq_zero]
  rw [← Polynomial.map_eq_zero (algebraMap ℝ ℂ)]
  have hnd : (list.map fun fr => Complex.I * (((dzFreqResToComplex fr).2 : ℝ) : ℂ)).Nodup := by
    have := List.Nodup.map jw_injective hnodup
    rw [List.map_map] at this
    exact this
  apply Polynomial.eq_zero_of_natDegree_lt_card_of_eval_eq_zero' _
    (list.map fun fr => Complex.I * (((dzFreqResToComplex fr).2 : ℝ) : ℂ)).toFinset
  · intro z hz
    rw [List.mem_toFinset, List.mem_map] at hz
    obtain ⟨fr, hfr, rfl⟩ := hz
    rw [Polynomial.eval_map, ← Polynomial.aeval_def, map_sub, map_mul, map_mul, aeval_toPoly,
      aeval_toPoly, aeval_toPoly, aeval_toPoly]
    have hm := hv fr hfr
    rw [modelAtJw_eq, (hgen fr hfr).2] at hm
    have hne := (hgen fr hfr).1
    field_simp at hm
    linear_combination hm
  · rw [List.toFinset_card_of_nodup hnd, List.length_map]
    refine lt_of_le_of_lt Polynomial.natDegree_map_le ?_
    refine lt_of_le_of_lt (Polynomial.natDegree_sub_le _ _) ?_
    have h1 := natDegree_toPoly_le v nn
    have h2 := natDegree_toPoly_le tf0.den.buf nd
    have h3 := natDegree_toPoly_le tf0.num.buf nn
    have h4 := natDegree_toPoly_le (denPart nn v) nd
    have h5 := @Polynomial.natDegree_mul_le ℝ _ (toPoly v nn) (toPoly tf0.den.buf nd)
    have h6 := @Polynomial.natDegree_mul_le ℝ _ (toPoly tf0.num.buf nn) (toPoly (denPart nn v) nd)
    have h7 : max (toPoly v nn * toPoly tf0.den.buf nd).natDegree
        (toPoly tf0.num.buf nn * toPoly (denPart nn v) nd).natDegree ≤ nn + nd :=
      max_le (by omega) (by omega)
    omega

/-- Samples at enough distinct frequencies, generated exactly by a transfer
function in lowest terms one of whose polynomials attains its dimension,
determine the parameters. -/
theorem identifiable_of_coprime (tf0 : dzTF ℝ) (nn nd : Nat) (list : List dzFreqRes)
    (h0 : tf0.den.buf 0 = 1)
    (hgen : ∀ fr, fr ∈ list → GeneratedBy tf0 nn nd fr)
    (hnodup : (list.map fun fr => fr.f).Nodup) (hlen : nn + nd + 1 ≤ list.length)
    (hcop : IsCoprime (toPoly tf0.num.buf nn) (toPoly tf0.den.buf nd))
    (hdeg : tf0.num.buf nn ≠ 0 ∨ tf0.den.buf nd ≠ 0) :
    Identifiable nn nd list := by
  intro v hv
  have hND := vanishing_combination tf0 nn nd list hgen hnodup hlen v hv
  have hD0 : (toPoly tf0.den.buf nd).coeff 0 = 1 := by
    rw [coeff_toPoly, if_pos (Nat.zero_le _), h0]
  have hDne : toPoly tf0.den.buf nd ≠ 0 := by
    intro h
    rw [h] at hD0
    simp at hD0
  have hD'0 : (toPoly (denPart nn v) nd).coeff 0 = 0 := by
    rw [coeff_toPoly, if_pos (Nat.zero_le _)]
    simp [denPart]
  have hzero : toPoly v nn = 0 ∧ toPoly (denPart nn v) nd = 0 := by
    rcases hdeg with hb | ha
    · have hN := natDegree_toPoly_eq tf0.num.buf nn hb
      have hNne : toPoly tf0.num.buf nn ≠ 0 := by
        intro h
        have := coeff_toPoly tf0.num.buf nn nn
        rw [h, if_pos (le_refl _)] at this
        exact hb (by simpa using this.symm)
      have hdvd : toPoly tf0.num.buf nn ∣ toPoly v nn :=
        hcop.dvd_of_dvd_mul_right (Dvd.intro _ hND.symm)
      obtain ⟨c, hc⟩ := eq_C_mul_of_dvd _ _ nn hN hNne (natDegree_toPoly_le v nn) hdvd
      have hD' : toPoly (denPart nn v) nd = Polynomial.C c * toPoly tf0.den.buf nd := by
        have : toPoly tf0.num.buf nn
            * (Polynomial.C c * toPoly tf0.den.buf nd - toPoly (denPart nn v) nd) = 0 := by
          rw [mul_sub, ← hND, hc]
          ring
        have h2 := (mul_eq_zero.1 this).resolve_left hNne
        exact (sub_eq_zero.1 h2).symm
      have hc0 : c = 0 := by
        have := congrArg (fun p => Polynomial.coeff p 0) hD'
        simp only [hD'0, Polynomial.coeff_C_mul, hD0, mul_one] at this
        exact this.symm
      rw [hc0] at hc hD'
      simp only [map_zero, zero_mul] at hc hD'
      exact ⟨hc, hD'⟩
    · have hD := natDegree_toPoly_eq tf0.den.buf nd ha
      have hdvd : toPoly tf0.den.buf nd ∣ toPoly (denPart nn v) nd :=
        hcop.symm.dvd_of_dvd_mul_left (Dvd.intro_left _ hND)
      obtain ⟨c, hc⟩ := eq_C_mul_of_dvd _ _ nd hD hDne (natDegree_toPoly_le _ nd) hdvd
      have hc0 : c = 0 := by
        have := congrArg (fun p => Polynomial.coeff p 0) hc
        simp only [hD'0, Polynomial.coeff_C_mul, hD0, mul_one] at this
        exact this.symm
      rw [hc0] at hc
      simp only [map_zero, zero_mul] at hc
      rw [hc, mul_zero] at hND
      exact ⟨(mul_eq_zero.1 hND).resolve_right hDne, hc⟩
  intro i hi
  by_cases h1 : i ≤ nn
  · exact toPoly_eq_zero v nn hzero.1 i h1
  · have h2 := toPoly_eq_zero (denPart nn v) nd hzero.2 (i - nn) (by omega)
    have h3 : i - nn ≠ 0 := by omega
    have h4 : nn + (i - nn) = i := by omega
    simpa [denPart, h3, h4] using h2

/-! ## Identifier exactness -/

theorem ZITERINIT_pos (z : Nat) (iter : Int) (hz : 0 < z) : 0 < ZITERINIT z iter := by
  unfold ZITERINIT
  split
  · exact hz
  · omega

theorem recovers_of_identifiable (env : zmEnv) (tf0 tf : dzTF ℝ) (list : zList dzFreqRes)
    (nn nd : Nat) (iter : Int)
    (hsolver : IsExactSolver env.zLESolveGauss) (halloc : allocGranted env.zAlloc 15)
    (hiter : 0 < env.Z_MAX_ITER_NUM) (h0 : tf0.den.buf 0 = 1)
    (hgen : ∀ fr, fr ∈ list → GeneratedBy tf0 nn nd fr)
    (hl : list ≠ []) (hid : Identifiable nn nd list) :
    RecoversTF env tf list nn nd iter tf0 := by
  have e := dzTFIdentFromFreqRes_granted env tf list nn nd iter halloc hl
  have eI := _dzFreqResIdent_granted_startOf env list nn nd iter
    (fun i hi => halloc i (by omega)) hl
  obtain ⟨m, hm⟩ := Nat.exists_eq_succ_of_ne_zero
    (Nat.pos_iff_ne_zero.1 (ZITERINIT_pos env.Z_MAX_ITER_NUM iter hiter))
  have hS := identLoop_solved env tf0 nn nd list hsolver h0 hid m
    (startOf env.zAlloc list nn nd) none (Tracks_startOf tf0 env.zAlloc list nn nd hgen)
  have hphi : ∀ i, i < nn + nd + 1 →
      (_dzFreqResIdent env list nn nd iter).2.phi.buf i = paramsOf tf0 nn i := by
    intro i hi
    rw [eI, hm]
    exact hS.2 i hi
  refine ⟨_, e, rfl, ?_, rfl, ?_, ?_⟩
  · intro i hi
    have h1 : i < nn + 1 := by omega
    simp only [if_pos h1]
    rw [hphi i (by omega)]
    simp only [paramsOf, if_pos hi]
  · intro i hi
    by_cases hi0 : i = 0
    · subst hi0
      simp [h0]
    · have h1 : 1 ≤ i ∧ i < 1 + nd := by omega
      have h2 : ¬ (nn + i ≤ nn) := by omega
      have h3 : nn + i - nn = i := by omega
      simp only [if_pos h1]
      rw [hphi (nn + i) (by omega)]
      simp only [paramsOf, if_neg h2, h3]
  · simp

/-- C1, amended (identifier exactness): let a transfer function of the
dimensions `n_n`, `n_d` have the constant term `1` in the denominator, no
common factor of numerator and denominator, and a leading coefficient
`b_{n_n}` or `a_{n_d}` that is not zero.  For at least `n_n + n_d + 1`
samples at distinct positive frequencies generated exactly by it (no pole at
a sampled `j omega`), with an exact linear solver, every allocation request
granted and a positive default number of iterations, `dzTFIdentFromFreqRes`
returns the coefficients of that transfer function, with `den[0] = 1`. -/
theorem identifier_exact (env : zmEnv) (tf0 tf : dzTF ℝ) (list : zList dzFreqRes)
    (nn nd : Nat) (iter : Int)
    (hsolver : IsExactSolver env.zLESolveGauss) (halloc : allocGranted env.zAlloc 15)
    (hiter : 0 < env.Z_MAX_ITER_NUM) (h0 : tf0.den.buf 0 = 1)
    (hgen : ∀ fr, fr ∈ list → GeneratedBy tf0 nn nd fr)
    (_hpos : ∀ fr, fr ∈ list → 0 < fr.f)
    (hnodup : (list.map fun fr => fr.f).Nodup) (hlen : nn + nd + 1 ≤ list.length)
    (hcop : IsCoprime (toPoly tf0.num.buf nn) (toPoly tf0.den.buf nd))
    (hdeg : tf0.num.buf nn ≠ 0 ∨ tf0.den.buf nd ≠ 0) :
    RecoversTF env tf list nn nd iter tf0 := by
  have hl : list ≠ [] := by
    intro h
    rw [h] at hlen
    simp at hlen
  exact recovers_of_identifiable env tf0 tf list nn nd iter hsolver halloc hiter h0 hgen hl
    (identifiable_of_coprime tf0 nn nd list h0 hgen hnodup hlen hcop hdeg)

theorem toC_one : (⟨1, 0⟩ : zComplex ℝ).toC = 1 := by
  apply Complex.ext <;> simp [zComplex.toC]

theorem generated_tfConst (f : ℝ) : GeneratedBy tfConst 0 1 ⟨f, 0, 0⟩ := by
  have h : polyAtJw tfConst.den.buf 1 (dzFreqResToComplex ⟨f, 0, 0⟩).2 = 1 := by
    simp [polyAtJw, tfConst, Finset.sum_range_succ]
  have h2 : polyAtJw tfConst.num.buf 0 (dzFreqResToComplex ⟨f, 0, 0⟩).2 = 1 := by
    simp [polyAtJw, tfConst]
  refine ⟨by rw [h]; exact one_ne_zero, ?_⟩
  rw [h, h2, gain_0dB, toC_one]
  simp

theorem identifier_exact_witness :
    ∃ tfout, dzTFIdentFromFreqRes idealEnv TF_one [⟨1, 0, 0⟩, ⟨10, 0, 0⟩, ⟨100, 0, 0⟩] 0 1 0
        = (true, tfout) ∧
      tfout.num.buf 0 = 1 ∧ tfout.den.buf 0 = 1 ∧ tfout.den.buf 1 = 0 := by
  have h := identifier_exact idealEnv tfConst TF_one [⟨1, 0, 0⟩, ⟨10, 0, 0⟩, ⟨100, 0, 0⟩] 0 1 0
    exactSolve_exact (idealEnv_granted 15) (by simp [idealEnv]) rfl
    (by
      intro fr hfr
      simp only [List.mem_cons, List.mem_singleton, List.not_mem_nil, or_false] at hfr
      rcases hfr with e | e | e <;> subst e <;> exact generated_tfConst _)
    (by
      intro fr hfr
      simp only [List.mem_cons, List.mem_singleton, List.not_mem_nil, or_false] at hfr
      rcases hfr with e | e | e <;> subst e <;> norm_num)
    (by norm_num)
    (by simp)
    (by
      have : toPoly tfConst.num.buf 0 = 1 := by
        simp [toPoly, tfConst]
      rw [this]
      exact isCoprime_one_left)
    (Or.inl (by simp [tfConst]))
  obtain ⟨tfout, e, -, hn, -, hd, hd0⟩ := h
  refine ⟨tfout, e, ?_, hd0, ?_⟩
  · rw [hn 0 (le_refl _)]; simp [tfConst]
  · rw [hd 1 (le_refl _)]; simp [tfConst]

theorem generated_tfCancelA (f : ℝ) : GeneratedBy tfCancelA 1 1 ⟨f, 0, 0⟩ := by
  have h : polyAtJw tfCancelA.den.buf 1 (dzFreqResToComplex ⟨f, 0, 0⟩).2
      = 1 + Complex.I * ((dzFreqResToComplex ⟨f, 0, 0⟩).2 : ℂ) := by
    simp [polyAtJw, tfCancelA, Finset.sum_range_succ]
  have hne : (1 : ℂ) + Complex.I * ((dzFreqResToComplex ⟨f, 0, 0⟩).2 : ℂ) ≠ 0 := by
    intro hz
    have := congrArg Complex.re hz
    simp at this
  have hnum : tfCancelA.num = tfCancelA.den := rfl
  refine ⟨by rw [h]; exact hne, ?_⟩
  rw [hnum, h, gain_0dB, toC_one, div_self hne]

theorem generated_tfCancelB (f : ℝ) : GeneratedBy tfCancelB 1 1 ⟨f, 0, 0⟩ := by
  have h : polyAtJw tfCancelB.den.buf 1 (dzFreqResToComplex ⟨f, 0, 0⟩).2
      = 1 + 2 * (Complex.I * ((dzFreqResToComplex ⟨f, 0, 0⟩).2 : ℂ)) := by
    simp [polyAtJw, tfCancelB, Finset.sum_range_succ]
  have hne : (1 : ℂ) + 2 * (Complex.I * ((dzFreqResToComplex ⟨f, 0, 0⟩).2 : ℂ)) ≠ 0 := by
    intro hz
    have := congrArg Complex.re hz
    simp at this
  have hnum : tfCancelB.num = tfCancelB.den := rfl
  refine ⟨by rw [h]; exact hne, ?_⟩
  rw [hnum, h, gain_0dB, toC_one, div_self hne]

/-! ## The samples of a transfer function not in lowest terms -/

theorem Tracks_solveStep (env : zmEnv) (tf0 : dzTF ℝ) (nn nd : Nat) (list : List dzFreqRes)
    (s : dzFreqResIdentData ℝ) (h : Tracks tf0 nn nd list s) :
    Tracks tf0 nn nd list (solveStep env s) := by
  refine ⟨solveStep_shape env s h.1, ?_⟩
  rw [sampleRows_solveStep env s h.1]
  exact h.2

theorem Tracks_nextStep (tf0 tfp : dzTF ℝ) (nn nd : Nat) (list : List dzFreqRes)
    (s : dzFreqResIdentData ℝ) (h : Tracks tf0 nn nd list s)
    (hpole : ∀ omega : ℝ, polyAtJw tfp.den.buf nd omega ≠ 0) (h0 : tfp.den.buf 0 = 1)
    (hphi : ∀ i, i < nn + nd + 1 → s.phi.buf i = paramsOf tfp nn i) :
    Tracks tf0 nn nd list (nextStep s) := by
  obtain ⟨hs, ht⟩ := h
  refine ⟨nextStep_shape s hs, ?_⟩
  rw [sampleRows_nextStep, List.forall₂_map_left_iff, hs.nn, hs.nd]
  apply List.Forall₂.imp _ ht
  intro d fr hd
  refine ⟨⟨hd.1.1, hd.1.2.1, hd.1.2.2.1, hd.1.2.2.2.1, ?_⟩, hd.2⟩
  exact newMag_ne_zero tfp nn nd s.phi.buf d fr hd.1 (hpole _) h0 hphi

/-- The parameters of every transfer function that generates the samples
solve the normal equations. -/
theorem IsSolution_paramsOf (tf0 : dzTF ℝ) (nn nd : Nat) (list : List dzFreqRes)
    (s : dzFreqResIdentData ℝ) (h : Tracks tf0 nn nd list s) (h0 : tf0.den.buf 0 = 1) :
    IsSolution (_dzFreqResIdentDataLSMCreate s).q (_dzFreqResIdentDataLSMCreate s).p
      (paramsOf tf0 nn) := by
  apply normalEq_solution nn nd (sampleRows s) _ _ (NormalEq_LSMCreate s h.1)
  intro d hd
  obtain ⟨fr, -, hfr⟩ := forall2_of_mem_left h.2 d hd
  exact res_paramsOf tf0 nn nd (max nn nd) d fr hfr.1 (le_max_left _ _) (le_max_right _ _) h0
    hfr.2

theorem polyAtJw_tfZero (omega : ℝ) : polyAtJw tfZero.den.buf 1 omega ≠ 0 := by
  have h : polyAtJw tfZero.den.buf 1 omega = 1 := by
    simp [polyAtJw, tfZero, Finset.sum_range_succ]
  rw [h]
  exact one_ne_zero

theorem paramsOf_tfZero (i : Nat) : paramsOf tfZero 1 i = 0 := by
  unfold paramsOf tfZero
  by_cases h : i ≤ 1
  · simp [h]
  · have : i - 1 ≠ 0 := by omega
    simp [h, this]

/-- On the samples that both `(1 + s) / (1 + s)` and `(1 + 2 s) / (1 + 2 s)`
generate, the exact solver finds no unique solution and leaves `phi` zero. -/
theorem identLoop_cancel (list : List dzFreqRes) (n : Nat) :
    ∀ (s : dzFreqResIdentData ℝ) (dp : Option ℝ),
      Tracks tfCancelA 1 1 list s → Tracks tfCancelB 1 1 list s → (∀ i, s.phi.buf i = 0) →
      ∀ i, (identLoop idealEnv n s dp).phi.buf i = 0 := by
  have hstep : ∀ s : dzFreqResIdentData ℝ,
      Tracks tfCancelA 1 1 list s → Tracks tfCancelB 1 1 list s → (∀ i, s.phi.buf i = 0) →
      ∀ i, (solveStep idealEnv s).phi.buf i = 0 := by
    intro s hA hB hz i
    have sA := IsSolution_paramsOf tfCancelA 1 1 list s hA rfl
    have sB := IsSolution_paramsOf tfCancelB 1 1 list s hB rfl
    have hne := NormalEq_LSMCreate s hA.1
    have hno : ¬ ∃ x, IsUniqueSolution (_dzFreqResIdentDataLSMCreate s).q
        (_dzFreqResIdentDataLSMCreate s).p x := by
      rintro ⟨x, -, hx⟩
      have e1 := hx _ sA 1 (by rw [hne.2.1]; norm_num)
      have e2 := hx _ sB 1 (by rw [hne.2.1]; norm_num)
      rw [← e2] at e1
      simp [paramsOf, tfCancelA, tfCancelB] at e1
    have hphi : (_dzFreqResIdentDataLSMCreate s).phi = s.phi := (LSMCreate_frame s hA.1).phi
    simp only [solveStep, idealEnv, exactSolve, dif_neg hno, hphi]
    exact hz i
  induction n with
  | zero => intro s dp _ _ hz i; exact hz i
  | succ n ih =>
    intro s dp hA hB hz
    have hz1 := hstep s hA hB hz
    have hA1 := Tracks_solveStep idealEnv tfCancelA 1 1 list s hA
    have hB1 := Tracks_solveStep idealEnv tfCancelB 1 1 list s hB
    rw [identLoop_succ]
    split
    · exact hz1
    · have hp : ∀ i, i < 1 + 1 + 1 → (solveStep idealEnv s).phi.buf i = paramsOf tfZero 1 i := by
        intro i _
        rw [hz1 i, paramsOf_tfZero]
      apply ih
      · exact Tracks_nextStep tfCancelA tfZero 1 1 list _ hA1 polyAtJw_tfZero rfl hp
      · exact Tracks_nextStep tfCancelB tfZero 1 1 list _ hB1 polyAtJw_tfZero rfl hp
      · intro i
        simp only [nextStep, UpdateMag_eq]
        exact hz1 i

theorem samplesUnit_generated (fr : dzFreqRes) (h : fr ∈ samplesUnit) :
    GeneratedBy tfCancelA 1 1 fr ∧ GeneratedBy tfCancelB 1 1 fr ∧ 0 < fr.f := by
  simp only [samplesUnit, List.mem_cons, List.mem_singleton, List.not_mem_nil, or_false] at h
  rcases h with e | e | e <;> subst e <;>
    exact ⟨generated_tfCancelA _, generated_tfCancelB _, by norm_num⟩

theorem startOf_phi (alloc : Nat → Bool) (list : zList dzFreqRes) (nn nd : Nat) (i : Nat) :
    (startOf alloc list nn nd).phi.buf i = 0 := by
  have h := (readLoop_ns list alloc nn nd).2.2.2.2.1
  simp only [startOf, loopStart, _dzFreqResIdentDataLSMAlloc, h]
  rfl

theorem samplesUnit_output :
    dzTFIdentFromFreqRes idealEnv TF_one samplesUnit 1 1 0
      = (true, ⟨⟨2, fun _ => 0⟩, ⟨2, fun i => if i = 0 then 1 else 0⟩⟩) := by
  have hl : samplesUnit ≠ [] := by simp [samplesUnit]
  have e := dzTFIdentFromFreqRes_granted idealEnv TF_one samplesUnit 1 1 0 (idealEnv_granted 15) hl
  have eI := _dzFreqResIdent_granted_startOf idealEnv samplesUnit 1 1 0 (idealEnv_granted 13) hl
  have hz := identLoop_cancel samplesUnit (ZITERINIT idealEnv.Z_MAX_ITER_NUM 0)
    (startOf idealEnv.zAlloc samplesUnit 1 1) none
    (Tracks_startOf tfCancelA idealEnv.zAlloc samplesUnit 1 1
      (fun fr h => (samplesUnit_generated fr h).1))
    (Tracks_startOf tfCancelB idealEnv.zAlloc samplesUnit 1 1
      (fun fr h => (samplesUnit_generated fr h).2.1))
    (startOf_phi idealEnv.zAlloc samplesUnit 1 1)
  rw [e, eI]
  simp only [hz, ite_self]
  congr 3
  funext i
  by_cases h1 : 1 ≤ i ∧ i < 1 + 1
  · have : i ≠ 0 := by omega
    simp [h1, this]
  · simp [h1]

/-- C1, as stated, fails: the three samples of gain `1` at `f = 1, 2, 3` Hz
are generated exactly by `(1 + s) / (1 + s)` and by `(1 + 2 s) / (1 + 2 s)`,
both of numerator and denominator degree `1` with the constant term `1` and
without a pole at a sampled `j omega`.  With the exact solver, which finds no
unique solution there, `dzTFIdentFromFreqRes` returns `0 / (1 + 0 s)` and not
the coefficients of `(1 + s) / (1 + s)`; and whatever the solver is, it
cannot return the coefficients of both transfer functions. -/
theorem identifier_exact_counterexample :
    (∀ fr, fr ∈ samplesUnit →
      GeneratedBy tfCancelA 1 1 fr ∧ GeneratedBy tfCancelB 1 1 fr ∧ 0 < fr.f) ∧
    (samplesUnit.map fun fr => fr.f).Nodup ∧
    1 + 1 + 1 ≤ samplesUnit.length ∧
    tfCancelA.den.buf 0 = 1 ∧ tfCancelA.num.buf 1 ≠ 0 ∧ tfCancelA.den.buf 1 ≠ 0 ∧
    tfCancelB.den.buf 0 = 1 ∧ tfCancelB.num.buf 1 ≠ 0 ∧ tfCancelB.den.buf 1 ≠ 0 ∧
    IsExactSolver idealEnv.zLESolveGauss ∧
    dzTFIdentFromFreqRes idealEnv TF_one samplesUnit 1 1 0
      = (true, ⟨⟨2, fun _ => 0⟩, ⟨2, fun i => if i = 0 then 1 else 0⟩⟩) ∧
    ¬ RecoversTF idealEnv TF_one samplesUnit 1 1 0 tfCancelA ∧
    (∀ (env : zmEnv) (tf : dzTF ℝ) (iter : Int),
      ¬ (RecoversTF env tf samplesUnit 1 1 iter tfCancelA ∧
         RecoversTF env tf samplesUnit 1 1 iter tfCancelB)) := by
  refine ⟨samplesUnit_generated, by simp [samplesUnit], by simp [samplesUnit],
    by simp [tfCancelA], by simp [tfCancelA], by simp [tfCancelA], by simp [tfCancelB],
    by simp [tfCancelB], by simp [tfCancelB], exactSolve_exact, samplesUnit_output, ?_, ?_⟩
  · rintro ⟨ta, ea, -, ha, -⟩
    rw [samplesUnit_output] at ea
    have hab := (Prod.mk.inj ea).2
    have h1 := ha 1 (le_refl _)
    rw [← hab] at h1
    simp [tfCancelA] at h1
  · rintro env tf iter ⟨⟨ta, ea, -, ha, -⟩, ⟨tb, eb, -, hb, -⟩⟩
    rw [ea] at eb
    have hab : ta = tb := (Prod.mk.inj eb).2
    have h1 := ha 1 (le_refl _)
    have h2 := hb 1 (le_refl _)
    rw [hab] at h1
    rw [h1] at h2
    simp [tfCancelA, tfCancelB] at h2

/-! ## Too few samples and failures of the solver -/

theorem identRun_succ (env : zmEnv) (n : Nat) (s : dzFreqResIdentData ℝ) (dp : Option ℝ) :
    identRun env (n + 1) s dp
      = if zIsTinyDiff env.zTOL
            (zVecDist (solveStep env s).phi (solveStep env s).phi_prev) dp = true
        then (solveStep env s,
          [⟨(env.zLESolveGauss (_dzFreqResIdentDataLSMCreate s).q
              (_dzFreqResIdentDataLSMCreate s).p (_dzFreqResIdentDataLSMCreate s).phi).1,
            zVecDist (solveStep env s).phi (solveStep env s).phi_prev, true⟩])
        else ((identRun env n (nextStep (solveStep env s))
                (zVecDist (solveStep env s).phi (solveStep env s).phi_prev)).1,
          ⟨(env.zLESolveGauss (_dzFreqResIdentDataLSMCreate s).q
              (_dzFreqResIdentDataLSMCreate s).p (_dzFreqResIdentDataLSMCreate s).phi).1,
            zVecDist (solveStep env s).phi (solveStep env s).phi_prev, false⟩
          :: (identRun env n (nextStep (solveStep env s))
                (zVecDist (solveStep env s).phi (solveStep env s).phi_prev)).2) := rfl

/-- The loop with its record computes the working set of the loop. -/
theorem identRun_fst (env : zmEnv) :
    ∀ (n : Nat) (s : dzFreqResIdentData ℝ) (dp : Option ℝ),
      (identRun env n s dp).1 = identLoop env n s dp := by
  intro n
  induction n with
  | zero => intro s dp; rfl
  | succ n ih =>
    intro s dp
    rw [identRun_succ, identLoop_succ]
    split
    · rfl
    · exact ih _ _

/-- C11, as stated, fails: one sample is fewer than the `n_n + n_d + 1 = 2`
parameters of the degrees `n_n = 0`, `n_d = 1`, and with every allocation
request granted `dzTFIdentFromFreqRes` does not return `NULL`. -/
theorem too_few_samples_counterexample :
    ([⟨1, 0, 0⟩] : zList dzFreqRes).length < 0 + 1 + 1 ∧
    (dzTFIdentFromFreqRes idealEnv TF_one [⟨1, 0, 0⟩] 0 1 0).1 = true :=
  ⟨by simp, (dzTFIdentFromFreqRes_fst idealEnv TF_one [⟨1, 0, 0⟩] 0 1 0).2
    ⟨by simp, idealEnv_granted 15⟩⟩

/-- C11, amended: the number of samples is compared with zero only.  For a
list of fewer than `n_n + n_d + 1` samples `dzTFIdentFromFreqRes` returns
`NULL` exactly when the list is empty or one of its 15 allocation requests is
refused; an empty list leaves `*tf` as it was. -/
theorem too_few_samples_amended (env : zmEnv) (tf : dzTF ℝ) (list : zList dzFreqRes)
    (nn nd : Nat) (iter : Int) (hlen : list.length < nn + nd + 1) :
    ((dzTFIdentFromFreqRes env tf list nn nd iter).1 = false
      ↔ (list = [] ∨ ¬ allocGranted env.zAlloc 15)) ∧
    (list = [] → dzTFIdentFromFreqRes env tf list nn nd iter = (false, tf)) := by
  have _ := hlen
  have h := dzTFIdentFromFreqRes_fst env tf list nn nd iter
  refine ⟨⟨?_, ?_⟩, ?_⟩
  · intro hf
    by_contra hc
    simp only [not_or, not_not] at hc
    have := h.2 ⟨hc.1, hc.2⟩
    rw [hf] at this
    exact Bool.false_ne_true this
  · intro hc
    by_contra hf
    have ht : (dzTFIdentFromFreqRes env tf list nn nd iter).1 = true := by
      cases hb : (dzTFIdentFromFreqRes env tf list nn nd iter).1
      · exact absurd hb hf
      · rfl
    obtain ⟨h1, h2⟩ := h.1 ht
    rcases hc with hc | hc
    · exact h1 hc
    · exact hc h2
  · intro he
    subst he
    have h := _dzFreqResIdent_refused env [] nn nd iter (fun h => h.2 rfl)
    unfold dzTFIdentFromFreqRes
    simp only [h, Bool.not_false, if_true]

theorem too_few_samples_amended_witness :
    ((dzTFIdentFromFreqRes idealEnv TF_one [⟨1, 0, 0⟩] 0 1 0).1 = false
      ↔ (([⟨1, 0, 0⟩] : zList dzFreqRes) = [] ∨ ¬ allocGranted idealEnv.zAlloc 15)) ∧
    (([⟨1, 0, 0⟩] : zList dzFreqRes) = []
      → dzTFIdentFromFreqRes idealEnv TF_one [⟨1, 0, 0⟩] 0 1 0 = (false, TF_one)) :=
  too_few_samples_amended idealEnv TF_one [⟨1, 0, 0⟩] 0 1 0 (by simp)

theorem FPrint_all {Tok : Type} (fmt : ℝ → Tok) (fmin fmax : EReal) :
    ∀ (list : List dzFreqRes) (fp : List Tok) (c : Nat),
      (∀ cp, cp ∈ list → ¬ ((cp.f : EReal) < fmin ∨ (cp.f : EReal) > fmax)) →
      list.foldl (fun (s : List Tok × Nat) cp =>
        if (cp.f : EReal) < fmin ∨ (cp.f : EReal) > fmax then s
        else (s.1 ++ [fmt cp.f, fmt cp.g, fmt cp.p], s.2 + 1)) (fp, c)
      = (fp ++ fieldsOf fmt list, c + list.length)
  | [], fp, c, _ => by simp [fieldsOf]
  | cp :: rest, fp, c, h => by
    have h1 := h cp (List.mem_cons_self _ _)
    have h2 : ∀ x, x ∈ rest → ¬ ((x.f : EReal) < fmin ∨ (x.f : EReal) > fmax) :=
      fun x hx => h x (List.mem_cons_of_mem _ hx)
    rw [List.foldl_cons, if_neg h1, FPrint_all fmt fmin fmax rest _ _ h2]
    simp only [fieldsOf, List.flatMap_cons, List.append_assoc, List.length_cons]
    congr 1
    omega

theorem scanLoop_fields {Tok : Type} (fmt : ℝ → Tok) (rd : Tok → Option ℝ)
    (alloc : Nat → Bool) (fmin fmax : EReal) :
    ∀ (list : List dzFreqRes) (k : Nat) (acc : zList dzFreqRes),
      (∀ cp, cp ∈ list → Survives fmt rd cp) →
      (∀ cp, cp ∈ list → ¬ ((cp.f : EReal) < fmin ∨ (cp.f : EReal) > fmax)) →
      (∀ i, i < list.length → alloc (k + i) = true) →
      scanLoop rd alloc fmin fmax (fieldsOf fmt list) k acc = acc ++ list
  | [], k, acc, _, _, _ => by simp [fieldsOf, scanLoop]
  | cp :: rest, k, acc, hs, hf, ha => by
    obtain ⟨s1, s2, s3⟩ := hs cp (List.mem_cons_self _ _)
    have h1 := hf cp (List.mem_cons_self _ _)
    have a0 : alloc k = true := ha 0 (by simp)
    have e : fieldsOf fmt (cp :: rest)
        = fmt cp.f :: fmt cp.g :: fmt cp.p :: fieldsOf fmt rest := by
      simp [fieldsOf]
    rw [e, scanLoop, s1, s2, s3]
    simp only [if_neg h1, a0, if_true]
    rw [scanLoop_fields fmt rd alloc fmin fmax rest (k + 1) _
      (fun x hx => hs x (List.mem_cons_of_mem _ hx))
      (fun x hx => hf x (List.mem_cons_of_mem _ hx))
      (fun i hi => by
        have := ha (i + 1) (by simp; omega)
        rw [← this]; congr 1; omega)]
    simp [zListInsertHead]

theorem in_bounds (x : ℝ) (h : 0 ≤ x) : ¬ ((x : EReal) < 0 ∨ (x : EReal) > ⊤) := by
  rintro (h1 | h1)
  · exact absurd (EReal.coe_nonneg.2 h) (not_le.2 h1)
  · exact not_top_lt h1

theorem survives_digit (fr : dzFreqRes) (h : fr ∈ samplesUnit) :
    Survives fmtDigit rdDigit fr := by
  simp only [samplesUnit, List.mem_cons, List.mem_singleton, List.not_mem_nil, or_false] at h
  have h10 : ("1" : String) ≠ "0" := by decide
  have h20 : ("2" : String) ≠ "0" := by decide
  have h21 : ("2" : String) ≠ "1" := by decide
  have h30 : ("3" : String) ≠ "0" := by decide
  have h31 : ("3" : String) ≠ "1" := by decide
  have h32 : ("3" : String) ≠ "2" := by decide
  rcases h with e | e | e <;> subst e <;>
    refine ⟨?_, ?_, ?_⟩ <;> norm_num [fmtDigit, rdDigit, h10, h20, h21, h30, h31, h32]

/-- C13, as stated, fails: the samples at 1, 2 and 3 Hz (0 dB, 0 deg) survive
the text formatting; printed and scanned back with `fmin = 0` and
`fmax = +∞`, they come back in the order in which they were, which is not
the reverse one. -/
theorem write_then_read_counterexample :
    (∀ fr, fr ∈ samplesUnit → Survives fmtDigit rdDigit fr) ∧
    dzFreqResListFPrint fmtDigit [] samplesUnit 0 ⊤
      = (["1", "0", "0", "2", "0", "0", "3", "0", "0"], 3) ∧
    dzFreqResListFScan rdDigit (fun _ => true)
        (dzFreqResListFPrint fmtDigit [] samplesUnit 0 ⊤).1 0 ⊤
      = (samplesUnit, 3) ∧
    samplesUnit ≠ samplesUnit.reverse := by
  have hb : ∀ cp, cp ∈ samplesUnit → ¬ ((cp.f : EReal) < 0 ∨ (cp.f : EReal) > ⊤) := by
    intro cp h
    apply in_bounds
    simp only [samplesUnit, List.mem_cons, List.mem_singleton, List.not_mem_nil, or_false] at h
    rcases h with e | e | e <;> subst e <;> norm_num
  have hp : dzFreqResListFPrint fmtDigit [] samplesUnit 0 ⊤
      = (fieldsOf fmtDigit samplesUnit, 3) := by
    unfold dzFreqResListFPrint
    rw [FPrint_all fmtDigit 0 ⊤ samplesUnit [] 0 hb]
    simp [samplesUnit]
  refine ⟨survives_digit, ?_, ?_, ?_⟩
  · rw [hp]
    norm_num [fieldsOf, samplesUnit, fmtDigit]
  · rw [hp]
    unfold dzFreqResListFScan
    simp only [zListInit]
    rw [scanLoop_fields fmtDigit rdDigit (fun _ => true) 0 ⊤ samplesUnit 0 [] survives_digit hb
      (fun _ _ => rfl)]
    simp [zListSize, samplesUnit]
  · intro h
    have h1 := congrArg (fun l => (l.map dzFreqRes.f).head?) h
    norm_num [samplesUnit] at h1

/-- C13, amended: for every sample list whose values survive the text
formatting, with frequencies `f ≥ 0` and the allocation requests of the scan
granted, printing the list with `dzFreqResListFPrint` to an empty stream and
scanning the text back with `dzFreqResListFScan` (both with `fmin = 0`,
`fmax = +∞`) yields a list of the same samples in the same iteration order
(the order of `zListForEach`); both calls return the number of samples. -/
theorem write_then_read_amended {Tok : Type} (fmt : ℝ → Tok) (rd : Tok → Option ℝ)
    (alloc : Nat → Bool) (list : zList dzFreqRes)
    (hs : ∀ fr, fr ∈ list → Survives fmt rd fr) (hf : ∀ fr, fr ∈ list → 0 ≤ fr.f)
    (ha : allocGranted alloc list.length) :
    dzFreqResListFScan rd alloc (dzFreqResListFPrint fmt [] list 0 ⊤).1 0 ⊤
      = (list, list.length) ∧
    (dzFreqResListFPrint fmt [] list 0 ⊤).2 = list.length := by
  have hb : ∀ cp, cp ∈ list → ¬ ((cp.f : EReal) < 0 ∨ (cp.f : EReal) > ⊤) :=
    fun cp h => in_bounds cp.f (hf cp h)
  have hp : dzFreqResListFPrint fmt [] list 0 ⊤ = (fieldsOf fmt list, list.length) := by
    unfold dzFreqResListFPrint
    rw [FPrint_all fmt 0 ⊤ list [] 0 hb]
    simp
  rw [hp]
  refine ⟨?_, rfl⟩
  unfold dzFreqResListFScan
  simp only [zListInit]
  rw [scanLoop_fields fmt rd alloc 0 ⊤ list 0 [] hs hb (fun i hi => by
    rw [Nat.zero_add]; exact ha i hi)]
  simp [zListSize]

theorem write_then_read_amended_witness :
    dzFreqResListFScan rdDigit (fun _ => true)
        (dzFreqResListFPrint fmtDigit [] samplesUnit 0 ⊤).1 0 ⊤
      = (samplesUnit, samplesUnit.length) ∧
    (dzFreqResListFPrint fmtDigit [] samplesUnit 0 ⊤).2 = samplesUnit.length :=
  write_then_read_amended fmtDigit rdDigit (fun _ => true) samplesUnit survives_digit
    (fun fr h => by
      simp only [samplesUnit, List.mem_cons, List.mem_singleton, List.not_mem_nil,
        or_false] at h
      rcases h with e | e | e <;> subst e <;> norm_num)
    (fun _ _ => rfl)

/-! ## Working sets that hold the samples of a list -/

theorem Holds_startOf (alloc : Nat → Bool) (list : zList dzFreqRes) (nn nd : Nat) :
    Holds nn nd list (startOf alloc list nn nd) := by
  refine ⟨loopStart_shape alloc list nn nd, ?_⟩
  rw [sampleRows_startOf, List.forall₂_map_left_iff]
  exact List.forall₂_same.2 (fun fr _ => ⟨rfl, rfl, rfl, rfl⟩)

theorem Holds_solveStep (env : zmEnv) (nn nd : Nat) (list : List dzFreqRes)
    (s : dzFreqResIdentData ℝ) (h : Holds nn nd list s) : Holds nn nd list (solveStep env s) := by
  refine ⟨solveStep_shape env s h.1, ?_⟩
  rw [sampleRows_solveStep env s h.1]
  exact h.2

theorem Holds_nextStep (nn nd : Nat) (list : List dzFreqRes)
    (s : dzFreqResIdentData ℝ) (h : Holds nn nd list s) : Holds nn nd list (nextStep s) := by
  refine ⟨nextStep_shape s h.1, ?_⟩
  rw [sampleRows_nextStep, List.forall₂_map_left_iff]
  exact List.Forall₂.imp (fun d fr hd => hd) h.2

/-- Every working set that the loop reaches holds the samples of the list. -/
theorem Holds_identLoop (env : zmEnv) (nn nd : Nat) (list : List dzFreqRes) (n : Nat)
    (s : dzFreqResIdentData ℝ) (dp : Option ℝ) (h : Holds nn nd list s) :
    Holds nn nd list (identLoop env n s dp) :=
  identLoop_inv env (Holds nn nd list) (fun s h => Holds_solveStep env nn nd list s h)
    (fun s h => Holds_nextStep nn nd list s h) n s dp h

theorem sameTables_unit (nn nd : Nat) (d : SampleRow ℝ) (fr : dzFreqRes)
    (h : TablesOf nn nd d fr) :
    SameTables { d with mag := 1 } (readRowOf (max nn nd) fr) :=
  ⟨h.1, h.2.1, h.2.2.1, h.2.2.2, one_ne_zero⟩

theorem row_scale (nn : Nat) (d : SampleRow ℝ) (i : Nat) :
    rowRe nn d i = d.mag * rowRe nn { d with mag := 1 } i ∧
    rowIm nn d i = d.mag * rowIm nn { d with mag := 1 } i := by
  unfold rowRe rowIm
  by_cases h : i ≤ nn
  · simp only [if_pos h]; constructor <;> ring
  · simp only [if_neg h]; constructor <;> ring

theorem dot_scale (nn nd : Nat) (d : SampleRow ℝ) (x : Nat → ℝ) :
    dotRe nn nd d x = d.mag * dotRe nn nd { d with mag := 1 } x ∧
    dotIm nn nd d x = d.mag * dotIm nn nd { d with mag := 1 } x := by
  unfold dotRe dotIm
  constructor
  · rw [Finset.mul_sum]
    apply Finset.sum_congr rfl
    intro i _
    rw [(row_scale nn d i).1]
    ring
  · rw [Finset.mul_sum]
    apply Finset.sum_congr rfl
    intro i _
    rw [(row_scale nn d i).2]
    ring

theorem res_scale (nn nd : Nat) (d : SampleRow ℝ) (x : Nat → ℝ) :
    resRe nn nd d x = d.mag * resRe nn nd { d with mag := 1 } x ∧
    resIm nn nd d x = d.mag * resIm nn nd { d with mag := 1 } x := by
  unfold resRe resIm
  rw [(dot_scale nn nd d x).1, (dot_scale nn nd d x).2]
  constructor <;> ring

theorem fitResidual_eq (nn nd : Nat) (x : Nat → ℝ) (fr : dzFreqRes) :
    fitResidual nn nd x fr
      = modelAtJw nn nd x (dzFreqResToComplex fr).1.toC (dzFreqResToComplex fr).2
        - (dzFreqResToComplex fr).1.toC := by
  unfold fitResidual numAtJw denAtJw modelAtJw
  have hs : ∑ j in Finset.range nd,
        (x (nn + (j + 1)) : ℂ) * (Complex.I * (dzFreqResToComplex fr).2) ^ (j + 1)
      = ∑ j in Finset.range nd,
        (x (nn + 1 + j) : ℂ) * (Complex.I * (dzFreqResToComplex fr).2) ^ (j + 1) :=
    Finset.sum_congr rfl (fun j _ => by rw [show nn + (j + 1) = nn + 1 + j by omega])
  rw [hs]
  ring

/-- The two residuals of a sample of the working set are the real and the
imaginary part of `mag (N(j omega) - G D(j omega))`. -/
theorem res_eq_fit (nn nd : Nat) (d : SampleRow ℝ) (fr : dzFreqRes) (x : Nat → ℝ)
    (h : TablesOf nn nd d fr) :
    ((resRe nn nd d x : ℝ) : ℂ) + Complex.I * (resIm nn nd d x : ℝ)
      = d.mag * fitResidual nn nd x fr := by
  have e := res_eq_model nn nd (max nn nd) { d with mag := 1 } fr x (sameTables_unit nn nd d fr h)
    (le_max_left _ _) (le_max_right _ _)
  rw [(res_scale nn nd d x).1, (res_scale nn nd d x).2, fitResidual_eq]
  push_cast
  simp only [Complex.ofReal_one, one_mul] at e
  linear_combination (d.mag : ℂ) * e

theorem sq_res_eq_fit (nn nd : Nat) (d : SampleRow ℝ) (fr : dzFreqRes) (x : Nat → ℝ)
    (h : TablesOf nn nd d fr) :
    d.mag ^ 2 * Complex.normSq (fitResidual nn nd x fr)
      = resRe nn nd d x * resRe nn nd d x + resIm nn nd d x * resIm nn nd d x := by
  have e := congrArg Complex.normSq (res_eq_fit nn nd d fr x h)
  rw [Complex.normSq_mul, Complex.normSq_ofReal, mul_comm Complex.I,
    Complex.normSq_add_mul_I] at e
  rw [pow_two, ← e]
  ring

theorem weightedError_two (nn nd : Nat) (list : List dzFreqRes) (s : dzFreqResIdentData ℝ)
    (h : Holds nn nd list s) (x : Nat → ℝ) :
    weightedError 2 nn nd s list x
      = ((sampleRows s).map fun d =>
          resRe nn nd d x * resRe nn nd d x + resIm nn nd d x * resIm nn nd d x).sum := by
  unfold weightedError
  have h2 := h.2
  generalize sampleRows s = rows at h2
  clear h
  induction h2 with
  | nil => simp
  | cons hd _ ih =>
    simp only [List.zipWith_cons_cons, List.sum_cons, List.map_cons, ih]
    rw [sq_res_eq_fit nn nd _ _ x hd]

/-! ## Least squares and the normal matrix -/

theorem list_sum_mul_left {α : Type} (f : α → ℝ) (c : ℝ) (L : List α) :
    c * (L.map f).sum = (L.map fun d => c * f d).sum := by
  induction L with
  | nil => simp
  | cons a L ih => simp [mul_add, ih]

theorem list_sum_add {α : Type} (f g : α → ℝ) (L : List α) :
    (L.map f).sum + (L.map g).sum = (L.map fun d => f d + g d).sum := by
  induction L with
  | nil => simp
  | cons a L ih =>
    simp only [List.map_cons, List.sum_cons, ← ih]
    ring

theorem list_sum_sq_nonneg {α : Type} (f g : α → ℝ) (L : List α) :
    0 ≤ (L.map fun d => f d * f d + g d * g d).sum := by
  apply List.sum_nonneg
  intro x hx
  obtain ⟨d, -, rfl⟩ := List.mem_map.1 hx
  nlinarith [mul_self_nonneg (f d), mul_self_nonneg (g d)]

/-- The residuals of a solution of the normal equations are orthogonal to the
rows: the cross term with every change of the parameters vanishes. -/
theorem normalEq_cross (nn nd : Nat) (rows : List (SampleRow ℝ)) (q : zMat ℝ) (p : zVec ℝ)
    (h : NormalEq nn nd rows q p) (phi : Nat → ℝ) (hphi : IsSolution q p phi)
    (v : Nat → ℝ) :
    (rows.map fun d =>
      resRe nn nd d phi * dotRe nn nd d v + resIm nn nd d phi * dotIm nn nd d v).sum = 0 := by
  have h1 : (fun d : SampleRow ℝ =>
        resRe nn nd d phi * dotRe nn nd d v + resIm nn nd d phi * dotIm nn nd d v)
      = fun d => ∑ i in Finset.range (nn + nd + 1),
          v i * (rowRe nn d i * resRe nn nd d phi + rowIm nn d i * resIm nn nd d phi) := by
    funext d
    simp only [dotRe, dotIm, Finset.mul_sum]
    rw [← Finset.sum_add_distrib]
    apply Finset.sum_congr rfl
    intro i _
    ring
  rw [h1, ← sum_map_finset]
  apply Finset.sum_eq_zero
  intro i hi
  have hi' : i < nn + nd + 1 := Finset.mem_range.1 hi
  rw [← list_sum_mul_left, ← normalEq_defect nn nd rows q p h phi i hi',
    hphi i (by rw [h.1]; exact hi')]
  ring

/-- A solution of the normal equations has the least sum of the squared
residuals of the rows. -/
theorem normalEq_least (nn nd : Nat) (rows : List (SampleRow ℝ)) (q : zMat ℝ) (p : zVec ℝ)
    (h : NormalEq nn nd rows q p) (phi : Nat → ℝ) (hphi : IsSolution q p phi)
    (x : Nat → ℝ) :
    (rows.map fun d =>
      resRe nn nd d phi * resRe nn nd d phi + resIm nn nd d phi * resIm nn nd d phi).sum
    ≤ (rows.map fun d =>
      resRe nn nd d x * resRe nn nd d x + resIm nn nd d x * resIm nn nd d x).sum := by
  have hc := normalEq_cross nn nd rows q p h phi hphi (fun i => x i - phi i)
  have hn := list_sum_sq_nonneg (fun d => dotRe nn nd d (fun i => x i - phi i))
    (fun d => dotIm nn nd d (fun i => x i - phi i)) rows
  have hx : (fun d : SampleRow ℝ =>
        resRe nn nd d x * resRe nn nd d x + resIm nn nd d x * resIm nn nd d x)
      = fun d =>
        (resRe nn nd d phi * resRe nn nd d phi + resIm nn nd d phi * resIm nn nd d phi)
        + ((dotRe nn nd d (fun i => x i - phi i) * dotRe nn nd d (fun i => x i - phi i)
            + dotIm nn nd d (fun i => x i - phi i) * dotIm nn nd d (fun i => x i - phi i))
          + 2 * (resRe nn nd d phi * dotRe nn nd d (fun i => x i - phi i)
            + resIm nn nd d phi * dotIm nn nd d (fun i => x i - phi i))) := by
    funext d
    have e := dot_sub nn nd d x phi
    simp only [resRe, resIm, e.1, e.2]
    ring
  rw [hx, ← list_sum_add
      (fun d => resRe nn nd d phi * resRe nn nd d phi + resIm nn nd d phi * resIm nn nd d phi),
    ← list_sum_add
      (fun d => dotRe nn nd d (fun i => x i - phi i) * dotRe nn nd d (fun i => x i - phi i)
        + dotIm nn nd d (fun i => x i - phi i) * dotIm nn nd d (fun i => x i - phi i)),
    ← list_sum_mul_left, hc]
  linarith

/-- C14, amended: in every pass of the loop (in every working set that holds
the samples of the list, whatever its weights are), with `w_k` the value
stored in `mag[k]`, any parameter vector `phi` that solves `Q phi = P` for the
`Q` and `P` assembled by `_dzFreqResIdentDataLSMCreate` minimises
`sum_k w_k^2 |N(j omega_k; b) - G_k D(j omega_k; a)|^2` over all parameter
vectors: the rows are scaled by `w_k`, so the squared residuals carry
`w_k^2`. -/
theorem least_squares_amended (nn nd : Nat) (list : List dzFreqRes)
    (s : dzFreqResIdentData ℝ) (h : Holds nn nd list s) (phi : Nat → ℝ)
    (hphi : IsSolution (_dzFreqResIdentDataLSMCreate s).q (_dzFreqResIdentDataLSMCreate s).p phi)
    (x : Nat → ℝ) :
    weightedError 2 nn nd s list phi ≤ weightedError 2 nn nd s list x := by
  rw [weightedError_two nn nd list s h, weightedError_two nn nd list s h]
  exact normalEq_least nn nd (sampleRows s) _ _ (NormalEq_LSMCreate s h.1) phi hphi x

/-- The quadratic form of the normal matrix is the sum of the squares of the
products of the rows with the vector. -/
theorem normalEq_quadratic (nn nd : Nat) (rows : List (SampleRow ℝ)) (q : zMat ℝ) (p : zVec ℝ)
    (h : NormalEq nn nd rows q p) (v : Nat → ℝ) :
    ∑ i in Finset.range (nn + nd + 1), ∑ j in Finset.range (nn + nd + 1),
        v i * q.buf i j * v j
      = (rows.map fun d => dotRe nn nd d v * dotRe nn nd d v
          + dotIm nn nd d v * dotIm nn nd d v).sum := by
  have h1 : (fun d : SampleRow ℝ => dotRe nn nd d v * dotRe nn nd d v
        + dotIm nn nd d v * dotIm nn nd d v)
      = fun d => ∑ i in Finset.range (nn + nd + 1), ∑ j in Finset.range (nn + nd + 1),
          v i * qTerm nn d i j * v j := by
    funext d
    simp only [dotRe, dotIm, qTerm, Finset.sum_mul_sum]
    rw [← Finset.sum_add_distrib]
    apply Finset.sum_congr rfl
    intro i _
    rw [← Finset.sum_add_distrib]
    apply Finset.sum_congr rfl
    intro j _
    ring
  rw [h1, ← sum_map_finset]
  apply Finset.sum_congr rfl
  intro i hi
  rw [← sum_map_finset]
  apply Finset.sum_congr rfl
  intro j hj
  rw [h.2.2.1 i j (Finset.mem_range.1 hi) (Finset.mem_range.1 hj)]
  rw [mul_comm (v i), mul_assoc, list_sum_mul_right]
  congr 2
  funext d
  ring

/-- C17 (normal matrix): for every working set with the sizes of the loop,
whatever samples, degrees and weights it holds, the matrix `Q` assembled by
`_dzFreqResIdentDataLSMCreate` is symmetric, `Q[i][j] = Q[j][i]` for all
`i, j < n_n + n_d + 1`, and positive semidefinite, `v^T Q v ≥ 0` for every
real vector `v` of length `n_n + n_d + 1`. -/
theorem normal_matrix_psd (nn nd ns : Nat) (s : dzFreqResIdentData ℝ) (h : Shape nn nd ns s) :
    (_dzFreqResIdentDataLSMCreate s).q.row = nn + nd + 1 ∧
    (_dzFreqResIdentDataLSMCreate s).q.col = nn + nd + 1 ∧
    (∀ i j, i < nn + nd + 1 → j < nn + nd + 1 →
      (_dzFreqResIdentDataLSMCreate s).q.buf i j = (_dzFreqResIdentDataLSMCreate s).q.buf j i) ∧
    (∀ v : Nat → ℝ,
      0 ≤ ∑ i in Finset.range (nn + nd + 1), ∑ j in Finset.range (nn + nd + 1),
        v i * (_dzFreqResIdentDataLSMCreate s).q.buf i j * v j) := by
  have hne := NormalEq_LSMCreate s h
  refine ⟨hne.1, hne.2.1, ?_, ?_⟩
  · intro i j hi hj
    rw [hne.2.2.1 i j hi hj, hne.2.2.1 j i hj hi]
    congr 2
    funext d
    simp only [qTerm]
    ring
  · intro v
    rw [normalEq_quadratic nn nd _ _ _ hne v]
    exact list_sum_sq_nonneg _ _ _

/-! ## The true parameters as a fixed point -/

theorem res_paramsOf_holds (tf0 : dzTF ℝ) (nn nd : Nat) (d : SampleRow ℝ) (fr : dzFreqRes)
    (h : TablesOf nn nd d fr) (h0 : tf0.den.buf 0 = 1) (hg : GeneratedBy tf0 nn nd fr) :
    resRe nn nd d (paramsOf tf0 nn) = 0 ∧ resIm nn nd d (paramsOf tf0 nn) = 0 := by
  have e := res_paramsOf tf0 nn nd (max nn nd) { d with mag := 1 } fr
    (sameTables_unit nn nd d fr h) (le_max_left _ _) (le_max_right _ _) h0 hg
  rw [(res_scale nn nd d _).1, (res_scale nn nd d _).2, e.1, e.2]
  simp

/-- The parameters of a transfer function that generates the samples solve
the normal equations of every working set that holds the samples, whatever
the weights are. -/
theorem IsSolution_holds (tf0 : dzTF ℝ) (nn nd : Nat) (list : List dzFreqRes)
    (s : dzFreqResIdentData ℝ) (h : Holds nn nd list s)
    (hgen : ∀ fr, fr ∈ list → GeneratedBy tf0 nn nd fr) (h0 : tf0.den.buf 0 = 1) :
    IsSolution (_dzFreqResIdentDataLSMCreate s).q (_dzFreqResIdentDataLSMCreate s).p
      (paramsOf tf0 nn) := by
  apply normalEq_solution nn nd (sampleRows s) _ _ (NormalEq_LSMCreate s h.1)
  intro d hd
  obtain ⟨fr, hfr, ht⟩ := forall2_of_mem_left h.2 d hd
  exact res_paramsOf_holds tf0 nn nd d fr ht h0 (hgen fr hfr)

/-- A solution of a linear equation with a nonsingular matrix is the only
one. -/
theorem unique_of_nonsingular (q : zMat ℝ) (p : zVec ℝ) (x : Nat → ℝ)
    (hx : IsSolution q p x) (hq : Nonsingular q) : IsUniqueSolution q p x := by
  refine ⟨hx, ?_⟩
  intro y hy i hi
  have h := hq (fun j => y j - x j) (fun k hk => by
    have e1 := hy k hk
    have e2 := hx k hk
    simp only [mul_sub, Finset.sum_sub_distrib, e1, e2, sub_self]) i hi
  simp only at h
  linarith

/-- C20 (true parameters are a fixed point): when every sample of the list is
generated exactly by the transfer function `tf0` of the degrees `n_n`, `n_d`
(`G_k = N(j omega_k; b) / D(j omega_k; a)` with `D(j omega_k; a) ≠ 0`) whose
denominator has the constant term `1`, then in every working set that holds
the samples, whatever its weights are, the parameter vector
`[b_0 .. b_nn, a_1 .. a_nd]` of `tf0` solves `Q phi = P` for the `Q` and `P`
assembled by `_dzFreqResIdentDataLSMCreate`; and when `Q` is nonsingular, an
exact solver stores these parameters to `phi`. -/
theorem true_parameters_fixed_point (env : zmEnv) (tf0 : dzTF ℝ) (nn nd : Nat)
    (list : List dzFreqRes) (s : dzFreqResIdentData ℝ) (h : Holds nn nd list s)
    (hgen : ∀ fr, fr ∈ list → GeneratedBy tf0 nn nd fr) (h0 : tf0.den.buf 0 = 1) :
    IsSolution (_dzFreqResIdentDataLSMCreate s).q (_dzFreqResIdentDataLSMCreate s).p
      (paramsOf tf0 nn) ∧
    (Nonsingular (_dzFreqResIdentDataLSMCreate s).q → IsExactSolver env.zLESolveGauss →
      ∀ i, i < nn + nd + 1 → (solveStep env s).phi.buf i = paramsOf tf0 nn i) := by
  have hs := IsSolution_holds tf0 nn nd list s h hgen h0
  refine ⟨hs, ?_⟩
  intro hq hsolver i hi
  have hu := unique_of_nonsingular _ _ _ hs hq
  have hcol : (_dzFreqResIdentDataLSMCreate s).q.col = nn + nd + 1 :=
    (NormalEq_LSMCreate s h.1).2.1
  exact hsolver _ _ (_dzFreqResIdentDataLSMCreate s).phi _ hu i (by rw [hcol]; exact hi)

theorem least_squares_amended_witness :
    weightedError 2 1 1 (nextStep (solveStep idealEnv (startOf idealEnv.zAlloc samplesUnit 1 1)))
        samplesUnit (paramsOf tfCancelA 1)
      ≤ weightedError 2 1 1
        (nextStep (solveStep idealEnv (startOf idealEnv.zAlloc samplesUnit 1 1)))
        samplesUnit (fun _ => 0) :=
  least_squares_amended 1 1 samplesUnit _
    (Holds_nextStep 1 1 samplesUnit _
      (Holds_solveStep idealEnv 1 1 samplesUnit _ (Holds_startOf idealEnv.zAlloc samplesUnit 1 1)))
    (paramsOf tfCancelA 1)
    (IsSolution_holds tfCancelA 1 1 samplesUnit _
      (Holds_nextStep 1 1 samplesUnit _
        (Holds_solveStep idealEnv 1 1 samplesUnit _
          (Holds_startOf idealEnv.zAlloc samplesUnit 1 1)))
      (fun fr h => (samplesUnit_generated fr h).1) rfl)
    (fun _ => 0)

theorem normal_matrix_psd_witness :
    (_dzFreqResIdentDataLSMCreate (startOf idealEnv.zAlloc samplesUnit 1 1)).q.row = 1 + 1 + 1 ∧
    (_dzFreqResIdentDataLSMCreate (startOf idealEnv.zAlloc samplesUnit 1 1)).q.col = 1 + 1 + 1 ∧
    (∀ i j, i < 1 + 1 + 1 → j < 1 + 1 + 1 →
      (_dzFreqResIdentDataLSMCreate (startOf idealEnv.zAlloc samplesUnit 1 1)).q.buf i j
        = (_dzFreqResIdentDataLSMCreate (startOf idealEnv.zAlloc samplesUnit 1 1)).q.buf j i) ∧
    (∀ v : Nat → ℝ,
      0 ≤ ∑ i in Finset.range (1 + 1 + 1), ∑ j in Finset.range (1 + 1 + 1),
        v i * (_dzFreqResIdentDataLSMCreate (startOf idealEnv.zAlloc samplesUnit 1 1)).q.buf i j
          * v j) :=
  normal_matrix_psd 1 1 3 (startOf idealEnv.zAlloc samplesUnit 1 1)
    (loopStart_shape idealEnv.zAlloc samplesUnit 1 1)

/-! ## Two samples with an inexact fit -/

theorem conv_one : dzFreqResToComplex ⟨1 / (2 * Real.pi), 0, 0⟩ = (⟨1, 0⟩, 1) := by
  have hpi : Real.pi ≠ 0 := Real.pi_ne_zero
  simp only [dzFreqResToComplex, zComplexCreatePolar, zComplexCreate, zDeg2Rad, zPIx2]
  congr 1
  · norm_num
  · field_simp

theorem conv_two : dzFreqResToComplex ⟨1 / Real.pi, 0, 90⟩ = (⟨0, 1⟩, 2) := by
  have hpi : Real.pi ≠ 0 := Real.pi_ne_zero
  have h90 : (90 : ℝ) * Real.pi / 180 = Real.pi / 2 := by ring
  simp only [dzFreqResToComplex, zComplexCreatePolar, zComplexCreate, zDeg2Rad, zPIx2, h90,
    Real.cos_pi_div_two, Real.sin_pi_div_two]
  congr 1
  · norm_num
  · field_simp

/-- The tables of a sample for `max n_n n_d = 1`. -/
theorem tables_dim_one (fr : dzFreqRes) :
    (readRowOf 1 fr).ps_re 0 = 1 ∧ (readRowOf 1 fr).ps_re 1 = 0 ∧
    (readRowOf 1 fr).ps_im 0 = 0 ∧ (readRowOf 1 fr).ps_im 1 = (dzFreqResToComplex fr).2 ∧
    (readRowOf 1 fr).fr_re 0 = (dzFreqResToComplex fr).1.re ∧
    (readRowOf 1 fr).fr_re 1 = -((dzFreqResToComplex fr).1.im * (dzFreqResToComplex fr).2) ∧
    (readRowOf 1 fr).fr_im 0 = (dzFreqResToComplex fr).1.im ∧
    (readRowOf 1 fr).fr_im 1 = (dzFreqResToComplex fr).1.re * (dzFreqResToComplex fr).2 := by
  simp [readRowOf, readRow, iomegaPow, zComplexCreate, zComplexCMul]

theorem rowOne_tables (m : ℝ) :
    (rowOne m).mag = m ∧
    (rowOne m).ps_re 0 = 1 ∧ (rowOne m).ps_re 1 = 0 ∧
    (rowOne m).ps_im 0 = 0 ∧ (rowOne m).ps_im 1 = 1 ∧
    (rowOne m).fr_re 0 = 1 ∧ (rowOne m).fr_re 1 = 0 ∧
    (rowOne m).fr_im 0 = 0 ∧ (rowOne m).fr_im 1 = 1 := by
  have h := tables_dim_one ⟨1 / (2 * Real.pi), 0, 0⟩
  rw [conv_one] at h
  obtain ⟨h1, h2, h3, h4, h5, h6, h7, h8⟩ := h
  refine ⟨rfl, h1, h2, h3, h4, h5, ?_, h7, ?_⟩
  · show (readRowOf 1 ⟨1 / (2 * Real.pi), 0, 0⟩).fr_re 1 = 0
    rw [h6]; norm_num
  · show (readRowOf 1 ⟨1 / (2 * Real.pi), 0, 0⟩).fr_im 1 = 1
    rw [h8]; norm_num

theorem rowTwo_tables (m : ℝ) :
    (rowTwo m).mag = m ∧
    (rowTwo m).ps_re 0 = 1 ∧ (rowTwo m).ps_re 1 = 0 ∧
    (rowTwo m).ps_im 0 = 0 ∧ (rowTwo m).ps_im 1 = 2 ∧
    (rowTwo m).fr_re 0 = 0 ∧ (rowTwo m).fr_re 1 = -2 ∧
    (rowTwo m).fr_im 0 = 1 ∧ (rowTwo m).fr_im 1 = 0 := by
  have h := tables_dim_one ⟨1 / Real.pi, 0, 90⟩
  rw [conv_two] at h
  obtain ⟨h1, h2, h3, h4, h5, h6, h7, h8⟩ := h
  refine ⟨rfl, h1, h2, h3, h4, h5, ?_, h7, ?_⟩
  · show (readRowOf 1 ⟨1 / Real.pi, 0, 90⟩).fr_re 1 = -2
    rw [h6]; norm_num
  · show (readRowOf 1 ⟨1 / Real.pi, 0, 90⟩).fr_im 1 = 0
    rw [h8]; norm_num

/-- The normal equations of the two samples for `n_n = 0`, `n_d = 1` and the
weights `m1`, `m2`. -/
theorem two_normalEq (s : dzFreqResIdentData ℝ) (m1 m2 : ℝ) (h : Shape 0 1 2 s)
    (hrows : sampleRows s = [rowOne m1, rowTwo m2]) :
    (_dzFreqResIdentDataLSMCreate s).q.row = 2 ∧ (_dzFreqResIdentDataLSMCreate s).q.col = 2 ∧
    (_dzFreqResIdentDataLSMCreate s).q.buf 0 0 = m1 * m1 + m2 * m2 ∧
    (_dzFreqResIdentDataLSMCreate s).q.buf 0 1 = 2 * (m2 * m2) ∧
    (_dzFreqResIdentDataLSMCreate s).q.buf 1 0 = 2 * (m2 * m2) ∧
    (_dzFreqResIdentDataLSMCreate s).q.buf 1 1 = m1 * m1 + 4 * (m2 * m2) ∧
    (_dzFreqResIdentDataLSMCreate s).p.buf 0 = m1 * m1 ∧
    (_dzFreqResIdentDataLSMCreate s).p.buf 1 = 0 := by
  have hne := NormalEq_LSMCreate s h
  rw [hrows] at hne
  obtain ⟨a0, a1, a2, a3, a4, a5, a6, a7, a8⟩ := rowOne_tables m1
  obtain ⟨b0, b1, b2, b3, b4, b5, b6, b7, b8⟩ := rowTwo_tables m2
  refine ⟨hne.1, hne.2.1, ?_, ?_, ?_, ?_, ?_, ?_⟩
  · rw [hne.2.2.1 0 0 (by norm_num) (by norm_num)]
    simp [qTerm, rowRe, rowIm, a0, a1, a2, a3, a4, a5, a6, a7, a8, b0, b1, b2, b3, b4, b5, b6,
      b7, b8]
  · rw [hne.2.2.1 0 1 (by norm_num) (by norm_num)]
    simp [qTerm, rowRe, rowIm, a0, a1, a2, a3, a4, a5, a6, a7, a8, b0, b1, b2, b3, b4, b5, b6,
      b7, b8]
    ring
  · rw [hne.2.2.1 1 0 (by norm_num) (by norm_num)]
    simp [qTerm, rowRe, rowIm, a0, a1, a2, a3, a4, a5, a6, a7, a8, b0, b1, b2, b3, b4, b5, b6,
      b7, b8]
    ring
  · rw [hne.2.2.1 1 1 (by norm_num) (by norm_num)]
    simp [qTerm, rowRe, rowIm, a0, a1, a2, a3, a4, a5, a6, a7, a8, b0, b1, b2, b3, b4, b5, b6,
      b7, b8]
    ring
  · rw [hne.2.2.2 0 (by norm_num)]
    simp [pTerm, rowRe, rowIm, a0, a1, a2, a3, a4, a5, a6, a7, a8, b0, b1, b2, b3, b4, b5, b6,
      b7, b8]
  · rw [hne.2.2.2 1 (by norm_num)]
    simp [pTerm, rowRe, rowIm, a0, a1, a2, a3, a4, a5, a6, a7, a8, b0, b1, b2, b3, b4, b5, b6,
      b7, b8]

/-! ## The first two passes on the two samples -/

theorem zVecDist_none (v1 : zVec ℝ) (v2 : zVec (Option ℝ)) (h : 0 < v1.size)
    (h2 : v2.buf 0 = none) : zVecDist v1 v2 = none := by
  unfold zVecDist
  rw [if_neg]
  intro hall
  have := List.all_eq_true.1 hall 0 (List.mem_range.2 h)
  rw [h2] at this
  simp at this

/-- The first distance is `HUGE_VAL`: after the first solve `phi_prev` still
holds `HUGE_VAL`. -/
theorem first_dist (env : zmEnv) {nn nd ns : Nat} (s : dzFreqResIdentData ℝ)
    (h : Shape nn nd ns s) (hp : s.phi_prev.buf 0 = none) :
    zVecDist (solveStep env s).phi (solveStep env s).phi_prev = none := by
  apply zVecDist_none
  · rw [(solveStep_shape env s h).phisize]
    omega
  · have e : (solveStep env s).phi_prev = s.phi_prev := (LSMCreate_frame s h).phi_prev
    rw [e, hp]

theorem startOf_phi_prev (alloc : Nat → Bool) (list : zList dzFreqRes) (nn nd : Nat) (i : Nat) :
    (startOf alloc list nn nd).phi_prev.buf i = none := rfl

/-- The loop does not leave in its first pass. -/
theorem identLoop_first (env : zmEnv) (alloc : Nat → Bool) (list : zList dzFreqRes)
    (nn nd n : Nat) :
    identLoop env (n + 1) (startOf alloc list nn nd) none
      = identLoop env n (nextStep (solveStep env (startOf alloc list nn nd))) none := by
  have hs : Shape nn nd list.length (startOf alloc list nn nd) :=
    loopStart_shape alloc list nn nd
  rw [identLoop_succ, first_dist env _ hs (startOf_phi_prev alloc list nn nd 0)]
  rfl

theorem samplesTwo_start :
    Shape 0 1 2 (startOf idealEnv.zAlloc samplesTwo 0 1) ∧
    sampleRows (startOf idealEnv.zAlloc samplesTwo 0 1) = [rowOne 1, rowTwo 1] :=
  ⟨loopStart_shape idealEnv.zAlloc samplesTwo 0 1, by
    rw [sampleRows_startOf]; rfl⟩

/-- The first solve for `samplesTwo`: `b_0 = 5/6`, `a_1 = -1/3`. -/
theorem samplesTwo_first (i : Nat) (hi : i < 2) :
    (solveStep idealEnv (startOf idealEnv.zAlloc samplesTwo 0 1)).phi.buf i
      = if i = 0 then 5 / 6 else -1 / 3 := by
  obtain ⟨hs, hr⟩ := samplesTwo_start
  obtain ⟨hrow, hcol, q00, q01, q10, q11, p0, p1⟩ := two_normalEq _ 1 1 hs hr
  have hu : IsUniqueSolution
      (_dzFreqResIdentDataLSMCreate (startOf idealEnv.zAlloc samplesTwo 0 1)).q
      (_dzFreqResIdentDataLSMCreate (startOf idealEnv.zAlloc samplesTwo 0 1)).p
      (fun i => if i = 0 then 5 / 6 else -1 / 3) := by
    constructor
    · intro k hk
      rw [hrow] at hk
      rw [hcol]
      simp only [Finset.sum_range_succ, Finset.sum_range_zero, zero_add]
      interval_cases k
      · rw [q00, q01, p0]; norm_num
      · rw [q10, q11, p1]; norm_num
    · intro y hy k hk
      rw [hcol] at hk
      have e0 := hy 0 (by rw [hrow]; norm_num)
      have e1 := hy 1 (by rw [hrow]; norm_num)
      rw [hcol] at e0 e1
      simp only [Finset.sum_range_succ, Finset.sum_range_zero, zero_add] at e0 e1
      rw [q00, q01, p0] at e0
      rw [q10, q11, p1] at e1
      interval_cases k
      · simp only [if_true]; linarith
      · norm_num; linarith
  exact exactSolve_exact _ _ _ _ hu i (by rw [hcol]; exact hi)

theorem secondPass_rows :
    Shape 0 1 2 secondPass ∧ sampleRows secondPass = [rowOne (9 / 10), rowTwo (9 / 13)] := by
  obtain ⟨hs, hr⟩ := samplesTwo_start
  have hs1 := solveStep_shape idealEnv _ hs
  refine ⟨nextStep_shape _ hs1, ?_⟩
  unfold secondPass
  rw [sampleRows_nextStep, sampleRows_solveStep idealEnv _ hs, hr, hs1.nn, hs1.nd]
  obtain ⟨a0, a1, a2, a3, a4, a5, a6, a7, a8⟩ := rowOne_tables 1
  obtain ⟨b0, b1, b2, b3, b4, b5, b6, b7, b8⟩ := rowTwo_tables 1
  have h1 := samplesTwo_first 1 (by norm_num)
  have e1 : newMag 0 1 (solveStep idealEnv (startOf idealEnv.zAlloc samplesTwo 0 1)).phi.buf
      (rowOne 1) = 9 / 10 := by
    simp only [newMag, List.range'_one, List.map_cons, List.map_nil, List.sum_cons,
      List.sum_nil, zero_add, h1, a1, a2, a3, a4]
    norm_num
  have e2 : newMag 0 1 (solveStep idealEnv (startOf idealEnv.zAlloc samplesTwo 0 1)).phi.buf
      (rowTwo 1) = 9 / 13 := by
    simp only [newMag, List.range'_one, List.map_cons, List.map_nil, List.sum_cons,
      List.sum_nil, zero_add, h1, b1, b2, b3, b4]
    norm_num
  simp only [List.map_cons, List.map_nil, reweigh, e1, e2]
  rfl

theorem fit_one (x : Nat → ℝ) :
    Complex.normSq (fitResidual 0 1 x ⟨1 / (2 * Real.pi), 0, 0⟩)
      = (x 0 - 1) ^ 2 + x 1 ^ 2 := by
  unfold fitResidual numAtJw denAtJw
  rw [conv_one]
  simp [zComplex.toC, Finset.sum_range_succ, Complex.normSq_apply]
  ring

theorem fit_two (x : Nat → ℝ) :
    Complex.normSq (fitResidual 0 1 x ⟨1 / Real.pi, 0, 90⟩)
      = (x 0 + 2 * x 1) ^ 2 + 1 := by
  unfold fitResidual numAtJw denAtJw
  rw [conv_two]
  simp [zComplex.toC, Finset.sum_range_succ, Complex.normSq_apply]
  ring

/-! ## The error that a solution minimises -/

theorem sampleRows_two (s : dzFreqResIdentData ℝ) (h : s.ns = 2) :
    sampleRows s = [sampleRow s 0, sampleRow s 1] := by
  simp [sampleRows, h, List.range_succ]

theorem weightedError_two_samples (pw : Nat) (s : dzFreqResIdentData ℝ) (m1 m2 : ℝ)
    (hrows : sampleRows s = [rowOne m1, rowTwo m2]) (x : Nat → ℝ) :
    weightedError pw 0 1 s samplesTwo x
      = m1 ^ pw * ((x 0 - 1) ^ 2 + x 1 ^ 2) + m2 ^ pw * ((x 0 + 2 * x 1) ^ 2 + 1) := by
  unfold weightedError samplesTwo
  rw [hrows]
  simp only [List.zipWith_cons_cons, List.zipWith_nil_right, List.sum_cons, List.sum_nil,
    fit_one, fit_two, add_zero]
  rfl

/-- C14, as stated, fails.  For the two samples of gain `1` at `omega = 1` and
gain `j` at `omega = 2` with `n_n = 0`, `n_d = 1` and the exact solver, the
first solve gives `b_0 = 5/6`, `a_1 = -1/3`, so the second pass starts with the
weights `9/10` and `9/13`.  The solution of `Q phi = P` in the second pass is
`b_0 = 569/669`, `a_1 = -200/669`, and the sum
`sum_k w_k |N(j omega_k) - G_k D(j omega_k)|^2` is smaller at `b_0 = 53/63`,
`a_1 = -20/63`. -/
theorem least_squares_counterexample :
    _dzFreqResIdent idealEnv samplesTwo 0 1 2 = (true, identLoop idealEnv 1 secondPass none) ∧
    secondPass.mag.buf 0 = 9 / 10 ∧ secondPass.mag.buf 1 = 9 / 13 ∧
    IsSolution (_dzFreqResIdentDataLSMCreate secondPass).q
      (_dzFreqResIdentDataLSMCreate secondPass).p (fun i => if i = 0 then 569 / 669 else -200 / 669) ∧
    weightedError 1 0 1 secondPass samplesTwo (fun i => if i = 0 then 53 / 63 else -20 / 63)
      < weightedError 1 0 1 secondPass samplesTwo
          (fun i => if i = 0 then 569 / 669 else -200 / 669) := by
  obtain ⟨hs, hr⟩ := secondPass_rows
  obtain ⟨hrow, hcol, q00, q01, q10, q11, p0, p1⟩ := two_normalEq _ _ _ hs hr
  have hr2 := sampleRows_two secondPass hs.ns
  rw [hr] at hr2
  have hm0 : secondPass.mag.buf 0 = 9 / 10 :=
    (congrArg SampleRow.mag (List.cons.inj hr2).1).symm
  have hm1 : secondPass.mag.buf 1 = 9 / 13 :=
    (congrArg SampleRow.mag (List.cons.inj (List.cons.inj hr2).2).1).symm
  refine ⟨?_, hm0, hm1, ?_, ?_⟩
  · rw [_dzFreqResIdent_granted_startOf idealEnv samplesTwo 0 1 2 (idealEnv_granted 13)
      (by simp [samplesTwo])]
    have hz : ZITERINIT idealEnv.Z_MAX_ITER_NUM 2 = 1 + 1 := by simp [ZITERINIT]
    rw [hz, identLoop_first]
    rfl
  · intro k hk
    rw [hrow] at hk
    rw [hcol]
    simp only [Finset.sum_range_succ, Finset.sum_range_zero, zero_add]
    interval_cases k
    · rw [q00, q01, p0]; norm_num
    · rw [q10, q11, p1]; norm_num
  · rw [weightedError_two_samples 1 _ _ _ hr, weightedError_two_samples 1 _ _ _ hr]
    norm_num

/-! ## The row assembly of the spec -/

/-- The rows of the spec are the rows of the source for the weight `1`, times
`√w`. -/
theorem specRow_eq (nn nd : Nat) (d : SampleRow ℝ) (fr : dzFreqRes) (w : ℝ)
    (h : TablesOf nn nd d fr) (i : Nat) (hi : i < nn + nd + 1) :
    specRowRe nn fr w i = rowRe nn { d with mag := 1 } i * Real.sqrt w ∧
    specRowIm nn fr w i = rowIm nn { d with mag := 1 } i * Real.sqrt w := by
  have hu := sameTables_unit nn nd d fr h
  by_cases hn : i ≤ nn
  · have e := rowC_numer nn (max nn nd) { d with mag := 1 } fr hu i hn (le_max_left _ _)
    have er := congrArg Complex.re e
    have ei := congrArg Complex.im e
    simp at er ei
    simp only [specRowRe, specRowIm, if_pos hn, ← er, ← ei]
    exact ⟨trivial, trivial⟩
  · obtain ⟨j, hj⟩ : ∃ j, i = nn + 1 + j := ⟨i - nn - 1, by omega⟩
    have e := rowC_denom nn (max nn nd) { d with mag := 1 } fr hu j
      (le_trans (by omega) (le_max_right nn nd))
    rw [← hj] at e
    have hsub : i - nn = j + 1 := by omega
    have er := congrArg Complex.re e
    have ei := congrArg Complex.im e
    simp at er ei
    simp only [specRowRe, specRowIm, if_neg hn, hsub, er, ei]
    simp

theorem gain_parts (nn nd : Nat) (d : SampleRow ℝ) (fr : dzFreqRes) (h : TablesOf nn nd d fr) :
    (dzFreqResToComplex fr).1.toC.re = d.fr_re 0 ∧
    (dzFreqResToComplex fr).1.toC.im = d.fr_im 0 := by
  have e := gain_of_tables (max nn nd) { d with mag := 1 } fr (sameTables_unit nn nd d fr h)
  have er := congrArg Complex.re e
  have ei := congrArg Complex.im e
  simp at er ei
  exact ⟨er.symm, ei.symm⟩

theorem term_scale (nn : Nat) (d : SampleRow ℝ) (i j : Nat) :
    qTerm nn d i j = d.mag * d.mag * qTerm nn { d with mag := 1 } i j ∧
    pTerm nn d i = d.mag * d.mag * pTerm nn { d with mag := 1 } i := by
  unfold qTerm pTerm
  rw [(row_scale nn d i).1, (row_scale nn d i).2, (row_scale nn d j).1, (row_scale nn d j).2]
  constructor <;> ring

theorem specTerm_eq (nn nd : Nat) (d : SampleRow ℝ) (fr : dzFreqRes) (w : ℝ)
    (h : TablesOf nn nd d fr) (i j : Nat) (hi : i < nn + nd + 1) (hj : j < nn + nd + 1) :
    specRowRe nn fr w i * specRowRe nn fr w j + specRowIm nn fr w i * specRowIm nn fr w j
      = Real.sqrt w * Real.sqrt w * qTerm nn { d with mag := 1 } i j ∧
    (dzFreqResToComplex fr).1.toC.re * Real.sqrt w * specRowRe nn fr w i
        + (dzFreqResToComplex fr).1.toC.im * Real.sqrt w * specRowIm nn fr w i
      = Real.sqrt w * Real.sqrt w * pTerm nn { d with mag := 1 } i := by
  obtain ⟨g1, g2⟩ := gain_parts nn nd d fr h
  rw [(specRow_eq nn nd d fr w h i hi).1, (specRow_eq nn nd d fr w h i hi).2,
    (specRow_eq nn nd d fr w h j hj).1, (specRow_eq nn nd d fr w h j hj).2, g1, g2]
  unfold qTerm pTerm
  constructor <;> ring

theorem sum_weighted {R : SampleRow ℝ → dzFreqRes → Prop} (t : ℝ → ℝ) (f : SampleRow ℝ → ℝ)
    (g : ℝ × dzFreqRes → ℝ) (rows : List (SampleRow ℝ)) (list : List dzFreqRes)
    (h : List.Forall₂ R rows list) (hfg : ∀ d fr, R d fr → g (t d.mag, fr) = f d) :
    ((List.zipWith (fun (d : SampleRow ℝ) fr => (t d.mag, fr)) rows list).map g).sum
      = (rows.map f).sum := by
  induction h with
  | nil => simp
  | cons hd _ ih =>
    simp only [List.zipWith_cons_cons, List.map_cons, List.sum_cons, ih, hfg _ _ hd]

/-- The normal equations of the spec for the weights `t w_k`, in terms of the
rows of the source for the weight `1`. -/
theorem specNormalEq_eq (t : ℝ → ℝ) (nn nd : Nat) (list : List dzFreqRes)
    (s : dzFreqResIdentData ℝ) (h : Holds nn nd list s) :
    (∀ i j, i < nn + nd + 1 → j < nn + nd + 1 →
      (specNormalEq nn nd (weightedSamples t s list)).1.buf i j
        = ((sampleRows s).map fun d =>
            Real.sqrt (t d.mag) * Real.sqrt (t d.mag) * qTerm nn { d with mag := 1 } i j).sum) ∧
    (∀ i, i < nn + nd + 1 →
      (specNormalEq nn nd (weightedSamples t s list)).2.buf i
        = ((sampleRows s).map fun d =>
            Real.sqrt (t d.mag) * Real.sqrt (t d.mag) * pTerm nn { d with mag := 1 } i).sum) := by
  constructor
  · intro i j hi hj
    exact sum_weighted t _ _ _ _ h.2
      (fun d fr hd => (specTerm_eq nn nd d fr (t d.mag) hd i j hi hj).1)
  · intro i hi
    exact sum_weighted t _ _ _ _ h.2
      (fun d fr hd => (specTerm_eq nn nd d fr (t d.mag) hd i i hi hi).2)

/-- The normal equations of the source, in terms of the rows for the weight
`1`. -/
theorem codeNormalEq_eq (nn nd : Nat) (list : List dzFreqRes)
    (s : dzFreqResIdentData ℝ) (h : Holds nn nd list s) :
    (∀ i j, i < nn + nd + 1 → j < nn + nd + 1 →
      (_dzFreqResIdentDataLSMCreate s).q.buf i j
        = ((sampleRows s).map fun d => d.mag * d.mag * qTerm nn { d with mag := 1 } i j).sum) ∧
    (∀ i, i < nn + nd + 1 →
      (_dzFreqResIdentDataLSMCreate s).p.buf i
        = ((sampleRows s).map fun d => d.mag * d.mag * pTerm nn { d with mag := 1 } i).sum) := by
  have hne := NormalEq_LSMCreate s h.1
  constructor
  · intro i j hi hj
    rw [hne.2.2.1 i j hi hj]
    congr 2
    funext d
    exact (term_scale nn d i j).1
  · intro i hi
    rw [hne.2.2.2 i hi]
    congr 2
    funext d
    exact (term_scale nn d i i).2

theorem IsSolution_scale (a a1 : zMat ℝ) (b b1 : zVec ℝ) (c : ℝ) (hc : c ≠ 0)
    (hrow : a.row = a1.row) (hcol : a.col = a1.col)
    (ha : ∀ i j, i < a.row → j < a.col → a.buf i j = c * a1.buf i j)
    (hb : ∀ i, i < a.row → b.buf i = c * b1.buf i) (x : Nat → ℝ) :
    IsSolution a b x ↔ IsSolution a1 b1 x := by
  have key : ∀ i, i < a.row →
      ∑ j in Finset.range a.col, a.buf i j * x j
        = c * ∑ j in Finset.range a1.col, a1.buf i j * x j := by
    intro i hi
    rw [← hcol, Finset.mul_sum]
    apply Finset.sum_congr rfl
    intro j hj
    rw [ha i j hi (Finset.mem_range.1 hj)]
    ring
  constructor
  · intro h i hi
    have e := h i (by rw [hrow]; exact hi)
    rw [key i (by rw [hrow]; exact hi), hb i (by rw [hrow]; exact hi)] at e
    exact mul_left_cancel₀ hc e
  · intro h i hi
    rw [key i hi, hb i hi, h i (by rw [← hrow]; exact hi)]

/-! ## Scaling by the weight and by its square root -/

theorem mag_of_mem (s : dzFreqResIdentData ℝ) (d : SampleRow ℝ) (h : d ∈ sampleRows s) :
    ∃ k, k < s.ns ∧ d.mag = s.mag.buf k := by
  obtain ⟨k, hk, rfl⟩ := List.mem_map.1 h
  exact ⟨k, List.mem_range.1 hk, rfl⟩

/-- C15, amended: for every sample set and every weight vector `w`, the normal
equations that `_dzFreqResIdentDataLSMCreate` assembles by scaling the rows
and the right-hand side by `w_k` have the same solutions as the normal
equations that the row assembly of the spec gives for the weights `w_k^2`
(rows scaled by `sqrt(w_k^2)`); they have the same solutions as those of the
spec for `w` itself when all weights are equal to one positive value, as in
the first pass, where every weight is `1`. -/
theorem weight_convention_amended (nn nd : Nat) (list : List dzFreqRes)
    (s : dzFreqResIdentData ℝ) (h : Holds nn nd list s) (phi : Nat → ℝ) :
    (IsSolution (_dzFreqResIdentDataLSMCreate s).q (_dzFreqResIdentDataLSMCreate s).p phi
      ↔ IsSolution (specNormalEq nn nd (weightedSamples (fun w => w ^ 2) s list)).1
          (specNormalEq nn nd (weightedSamples (fun w => w ^ 2) s list)).2 phi) ∧
    (∀ c : ℝ, 0 < c → (∀ k, k < list.length → s.mag.buf k = c) →
      (IsSolution (_dzFreqResIdentDataLSMCreate s).q (_dzFreqResIdentDataLSMCreate s).p phi
        ↔ IsSolution (specNormalEq nn nd (weightedSamples (fun w => w) s list)).1
            (specNormalEq nn nd (weightedSamples (fun w => w) s list)).2 phi)) := by
  have hne := NormalEq_LSMCreate s h.1
  obtain ⟨cq, cp⟩ := codeNormalEq_eq nn nd list s h
  constructor
  · obtain ⟨sq, sp⟩ := specNormalEq_eq (fun w => w ^ 2) nn nd list s h
    apply IsSolution_scale _ _ _ _ 1 one_ne_zero hne.1 hne.2.1
    · intro i j hi hj
      rw [hne.1] at hi
      rw [hne.2.1] at hj
      rw [cq i j hi hj, sq i j hi hj, one_mul]
      congr 2
      funext d
      rw [Real.mul_self_sqrt (sq_nonneg d.mag)]
      ring
    · intro i hi
      rw [hne.1] at hi
      rw [cp i hi, sp i hi, one_mul]
      congr 2
      funext d
      rw [Real.mul_self_sqrt (sq_nonneg d.mag)]
      ring
  · intro c hc hall
    obtain ⟨sq, sp⟩ := specNormalEq_eq (fun w => w) nn nd list s h
    have hmag : ∀ d, d ∈ sampleRows s → d.mag = c := by
      intro d hd
      obtain ⟨k, hk, e⟩ := mag_of_mem s d hd
      rw [e]
      exact hall k (by rw [← h.1.ns]; exact hk)
    apply IsSolution_scale _ _ _ _ c (ne_of_gt hc) hne.1 hne.2.1
    · intro i j hi hj
      rw [hne.1] at hi
      rw [hne.2.1] at hj
      rw [cq i j hi hj, sq i j hi hj, list_sum_mul_left]
      congr 1
      apply List.map_congr_left
      intro d hd
      simp only [hmag d hd, Real.mul_self_sqrt (le_of_lt hc)]
      ring
    · intro i hi
      rw [hne.1] at hi
      rw [cp i hi, sp i hi, list_sum_mul_left]
      congr 1
      apply List.map_congr_left
      intro d hd
      simp only [hmag d hd, Real.mul_self_sqrt (le_of_lt hc)]
      ring

theorem weight_convention_amended_witness :
    (IsSolution (_dzFreqResIdentDataLSMCreate (startOf idealEnv.zAlloc samplesUnit 1 1)).q
        (_dzFreqResIdentDataLSMCreate (startOf idealEnv.zAlloc samplesUnit 1 1)).p
        (paramsOf tfCancelA 1)
      ↔ IsSolution
          (specNormalEq 1 1 (weightedSamples (fun w => w ^ 2)
            (startOf idealEnv.zAlloc samplesUnit 1 1) samplesUnit)).1
          (specNormalEq 1 1 (weightedSamples (fun w => w ^ 2)
            (startOf idealEnv.zAlloc samplesUnit 1 1) samplesUnit)).2 (paramsOf tfCancelA 1)) ∧
    (∀ c : ℝ, 0 < c →
      (∀ k, k < samplesUnit.length → (startOf idealEnv.zAlloc samplesUnit 1 1).mag.buf k = c) →
      (IsSolution (_dzFreqResIdentDataLSMCreate (startOf idealEnv.zAlloc samplesUnit 1 1)).q
          (_dzFreqResIdentDataLSMCreate (startOf idealEnv.zAlloc samplesUnit 1 1)).p
          (paramsOf tfCancelA 1)
        ↔ IsSolution
            (specNormalEq 1 1 (weightedSamples (fun w => w)
              (startOf idealEnv.zAlloc samplesUnit 1 1) samplesUnit)).1
            (specNormalEq 1 1 (weightedSamples (fun w => w)
              (startOf idealEnv.zAlloc samplesUnit 1 1) samplesUnit)).2
            (paramsOf tfCancelA 1))) :=
  weight_convention_amended 1 1 samplesUnit _ (Holds_startOf idealEnv.zAlloc samplesUnit 1 1)
    (paramsOf tfCancelA 1)

theorem weighedTwo_rows :
    Holds 0 1 samplesTwo weighedTwo ∧ sampleRows weighedTwo = [rowOne 1, rowTwo 4] := by
  obtain ⟨hs, hr⟩ := samplesTwo_start
  have hr2 := sampleRows_two _ hs.ns
  rw [hr] at hr2
  have e0 : sampleRow (startOf idealEnv.zAlloc samplesTwo 0 1) 0 = rowOne 1 :=
    (List.cons.inj hr2).1.symm
  have e1 : sampleRow (startOf idealEnv.zAlloc samplesTwo 0 1) 1 = rowTwo 1 :=
    (List.cons.inj (List.cons.inj hr2).2).1.symm
  have hsw : Shape 0 1 2 weighedTwo :=
    ⟨hs.nn, hs.nd, hs.ns, hs.qrow, hs.qcol, hs.psize, hs.phisize, hs.prevsize⟩
  have hrows : sampleRows weighedTwo = [rowOne 1, rowTwo 4] := by
    rw [sampleRows_two _ hsw.ns]
    have f0 : sampleRow weighedTwo 0
        = { sampleRow (startOf idealEnv.zAlloc samplesTwo 0 1) 0 with mag := 1 } := by
      simp [sampleRow, weighedTwo]
    have f1 : sampleRow weighedTwo 1
        = { sampleRow (startOf idealEnv.zAlloc samplesTwo 0 1) 1 with mag := 4 } := by
      simp [sampleRow, weighedTwo]
    rw [f0, f1, e0, e1]
    rfl
  refine ⟨⟨hsw, ?_⟩, hrows⟩
  rw [hrows]
  exact List.Forall₂.cons ⟨rfl, rfl, rfl, rfl⟩
    (List.Forall₂.cons ⟨rfl, rfl, rfl, rfl⟩ List.Forall₂.nil)

/-- The normal equations of the spec for `samplesTwo` with the weights `1`
and `4`. -/
theorem weighedTwo_spec :
    (specNormalEq 0 1 (weightedSamples (fun w => w) weighedTwo samplesTwo)).1.buf 0 0 = 5 ∧
    (specNormalEq 0 1 (weightedSamples (fun w => w) weighedTwo samplesTwo)).1.buf 0 1 = 8 ∧
    (specNormalEq 0 1 (weightedSamples (fun w => w) weighedTwo samplesTwo)).1.buf 1 0 = 8 ∧
    (specNormalEq 0 1 (weightedSamples (fun w => w) weighedTwo samplesTwo)).1.buf 1 1 = 17 ∧
    (specNormalEq 0 1 (weightedSamples (fun w => w) weighedTwo samplesTwo)).2.buf 0 = 1 ∧
    (specNormalEq 0 1 (weightedSamples (fun w => w) weighedTwo samplesTwo)).2.buf 1 = 0 := by
  obtain ⟨hh, hr⟩ := weighedTwo_rows
  obtain ⟨sq, sp⟩ := specNormalEq_eq (fun w => w) 0 1 samplesTwo weighedTwo hh
  obtain ⟨a0, a1, a2, a3, a4, a5, a6, a7, a8⟩ := rowOne_tables 1
  obtain ⟨b0, b1, b2, b3, b4, b5, b6, b7, b8⟩ := rowTwo_tables 1
  have u1 : ({ rowOne 1 with mag := 1 } : SampleRow ℝ) = rowOne 1 := rfl
  have u2 : ({ rowTwo 4 with mag := 1 } : SampleRow ℝ) = rowTwo 1 := rfl
  have m1 : (rowOne 1).mag = 1 := rfl
  have m2 : (rowTwo 4).mag = 4 := rfl
  have r4 : Real.sqrt 4 * Real.sqrt 4 = 4 := Real.mul_self_sqrt (by norm_num)
  have r1 : Real.sqrt 1 * Real.sqrt 1 = 1 := Real.mul_self_sqrt (by norm_num)
  refine ⟨?_, ?_, ?_, ?_, ?_, ?_⟩
  · rw [sq 0 0 (by norm_num) (by norm_num), hr]
    simp only [List.map_cons, List.map_nil, List.sum_cons, List.sum_nil, u1, u2, m1, m2, r1, r4]
    simp [qTerm, rowRe, rowIm, a0, a1, a2, a3, a4, a5, a6, a7, a8, b0, b1, b2, b3, b4, b5, b6,
      b7, b8]
    norm_num
  · rw [sq 0 1 (by norm_num) (by norm_num), hr]
    simp only [List.map_cons, List.map_nil, List.sum_cons, List.sum_nil, u1, u2, m1, m2, r1, r4]
    simp [qTerm, rowRe, rowIm, a0, a1, a2, a3, a4, a5, a6, a7, a8, b0, b1, b2, b3, b4, b5, b6,
      b7, b8]
    norm_num
  · rw [sq 1 0 (by norm_num) (by norm_num), hr]
    simp only [List.map_cons, List.map_nil, List.sum_cons, List.sum_nil, u1, u2, m1, m2, r1, r4]
    simp [qTerm, rowRe, rowIm, a0, a1, a2, a3, a4, a5, a6, a7, a8, b0, b1, b2, b3, b4, b5, b6,
      b7, b8]
    norm_num
  · rw [sq 1 1 (by norm_num) (by norm_num), hr]
    simp only [List.map_cons, List.map_nil, List.sum_cons, List.sum_nil, u1, u2, m1, m2, r1, r4]
    simp [qTerm, rowRe, rowIm, a0, a1, a2, a3, a4, a5, a6, a7, a8, b0, b1, b2, b3, b4, b5, b6,
      b7, b8]
    norm_num
  · rw [sp 0 (by norm_num), hr]
    simp only [List.map_cons, List.map_nil, List.sum_cons, List.sum_nil, u1, u2, m1, m2, r1, r4]
    simp [pTerm, rowRe, rowIm, a0, a1, a2, a3, a4, a5, a6, a7, a8, b0, b1, b2, b3, b4, b5, b6,
      b7, b8]
  · rw [sp 1 (by norm_num), hr]
    simp only [List.map_cons, List.map_nil, List.sum_cons, List.sum_nil, u1, u2, m1, m2, r1, r4]
    simp [pTerm, rowRe, rowIm, a0, a1, a2, a3, a4, a5, a6, a7, a8, b0, b1, b2, b3, b4, b5, b6,
      b7, b8]

/-! ## The two conventions differ -/

/-- C15, as stated, fails.  For the two samples of gain `1` at `omega = 1` and
gain `j` at `omega = 2` with `n_n = 0`, `n_d = 1` and the positive weights
`w = (1, 4)`, the normal equations of the source (rows scaled by `w_k`) are
`17 b_0 + 32 a_1 = 1`, `32 b_0 + 65 a_1 = 0` with the solution
`(65/81, -32/81)`; the normal equations of the spec (rows scaled by
`sqrt(w_k)`) are `5 b_0 + 8 a_1 = 1`, `8 b_0 + 17 a_1 = 0` with the solution
`(17/21, -8/21)`, and the solution of the source does not solve them. -/
theorem weight_convention_counterexample :
    Holds 0 1 samplesTwo weighedTwo ∧
    weighedTwo.mag.buf 0 = 1 ∧ weighedTwo.mag.buf 1 = 4 ∧
    IsSolution (_dzFreqResIdentDataLSMCreate weighedTwo).q
      (_dzFreqResIdentDataLSMCreate weighedTwo).p (fun i => if i = 0 then 65 / 81 else -32 / 81) ∧
    IsSolution (specNormalEq 0 1 (weightedSamples (fun w => w) weighedTwo samplesTwo)).1
      (specNormalEq 0 1 (weightedSamples (fun w => w) weighedTwo samplesTwo)).2
      (fun i => if i = 0 then 17 / 21 else -8 / 21) ∧
    ¬ IsSolution (specNormalEq 0 1 (weightedSamples (fun w => w) weighedTwo samplesTwo)).1
      (specNormalEq 0 1 (weightedSamples (fun w => w) weighedTwo samplesTwo)).2
      (fun i => if i = 0 then 65 / 81 else -32 / 81) := by
  obtain ⟨hh, hr⟩ := weighedTwo_rows
  obtain ⟨hrow, hcol, q00, q01, q10, q11, p0, p1⟩ := two_normalEq _ _ _ hh.1 hr
  obtain ⟨s00, s01, s10, s11, t0, t1⟩ := weighedTwo_spec
  have srow : (specNormalEq 0 1 (weightedSamples (fun w => w) weighedTwo samplesTwo)).1.row = 2 :=
    rfl
  have scol : (specNormalEq 0 1 (weightedSamples (fun w => w) weighedTwo samplesTwo)).1.col = 2 :=
    rfl
  refine ⟨hh, rfl, rfl, ?_, ?_, ?_⟩
  · intro k hk
    rw [hrow] at hk
    rw [hcol]
    simp only [Finset.sum_range_succ, Finset.sum_range_zero, zero_add]
    interval_cases k
    · rw [q00, q01, p0]; norm_num
    · rw [q10, q11, p1]; norm_num
  · intro k hk
    rw [srow] at hk
    rw [scol]
    simp only [Finset.sum_range_succ, Finset.sum_range_zero, zero_add]
    interval_cases k
    · rw [s00, s01, t0]; norm_num
    · rw [s10, s11, t1]; norm_num
  · intro hsol
    have e := hsol 0 (by rw [srow]; norm_num)
    rw [scol] at e
    simp only [Finset.sum_range_succ, Finset.sum_range_zero, zero_add] at e
    rw [s00, s01, t0] at e
    norm_num at e

/-! ## Powers by incremental multiplication and the new weights -/

theorem powIncr_toC (omega : ℝ) (j : Nat) : (powIncr omega j).toC = (Complex.I * omega) ^ j := by
  induction j with
  | zero =>
    apply Complex.ext <;> simp [powIncr, zComplexCreate, zComplex.toC]
  | succ j ih =>
    have e : (zComplexCreate 0 omega).toC = Complex.I * omega := by
      apply Complex.ext <;> simp [zComplexCreate, zComplex.toC]
    rw [powIncr, toC_CMul, ih, e, pow_succ]

/-- The sign table gives what the incremental multiplication gives. -/
theorem iomegaPow_eq_powIncr (omega : ℝ) (j : Nat) : iomegaPow omega j = powIncr omega j :=
  toC_injective (by rw [iomegaPow_toC, powIncr_toC])

theorem iomegaPow_parity (omega : ℝ) (j : Nat) :
    (j % 2 = 0 → (iomegaPow omega j).im = 0) ∧ (j % 2 = 1 → (iomegaPow omega j).re = 0) := by
  unfold iomegaPow
  constructor
  · intro h
    simp [h, zComplexCreate]
  · intro h
    have h' : ¬ j % 2 = 0 := by omega
    simp [h', zComplexCreate]

theorem forall2_getElem {α β : Type} {R : α → β → Prop} {l1 : List α} {l2 : List β}
    (h : List.Forall₂ R l1 l2) (k : Nat) (b : β) (hk : l2[k]? = some b) :
    ∃ a, l1[k]? = some a ∧ R a b := by
  induction h generalizing k with
  | nil => simp at hk
  | cons hd _ ih =>
    cases k with
    | zero =>
      simp only [List.getElem?_cons_zero, Option.some.injEq] at hk
      subst hk
      exact ⟨_, by simp, hd⟩
    | succ k =>
      simp only [List.getElem?_cons_succ] at hk
      obtain ⟨a, ha, hr⟩ := ih k hk
      exact ⟨a, by simpa using ha, hr⟩

/-- The sample `k` of a working set that holds the samples of the list has the
tables of the sample `k` of the list. -/
theorem Holds_sample (nn nd : Nat) (list : List dzFreqRes) (s : dzFreqResIdentData ℝ)
    (h : Holds nn nd list s) (k : Nat) (fr : dzFreqRes) (hk : list[k]? = some fr) :
    k < s.ns ∧ TablesOf nn nd (sampleRow s k) fr := by
  obtain ⟨d, hd, ht⟩ := forall2_getElem h.2 k fr hk
  have hlt : k < list.length := by
    by_contra hc
    rw [List.getElem?_eq_none (by omega)] at hk
    exact Option.noConfusion hk
  have hns : k < s.ns := by rw [h.1.ns]; exact hlt
  refine ⟨hns, ?_⟩
  have e : (sampleRows s)[k]? = some (sampleRow s k) := by
    simp [sampleRows, hns]
  rw [e] at hd
  rw [Option.some.inj hd]
  exact ht

/-- The new weight of a sample is `1 / |D(j omega; a)|^2`. -/
theorem newMag_den (nn nd : Nat) (phi : Nat → ℝ) (d : SampleRow ℝ) (fr : dzFreqRes)
    (h : TablesOf nn nd d fr) :
    newMag nn nd phi d
      = 1 / Complex.normSq (denAtJw nn nd phi (dzFreqResToComplex fr).2) := by
  have hu := sameTables_unit nn nd d fr h
  have hD : ((d.ps_re 0 + ((List.range' 1 nd).map fun j => d.ps_re j * phi (nn + j)).sum : ℝ) : ℂ)
      + ((d.ps_im 0 + ((List.range' 1 nd).map fun j => d.ps_im j * phi (nn + j)).sum : ℝ) : ℂ)
        * Complex.I
      = denAtJw nn nd phi (dzFreqResToComplex fr).2 := by
    rw [range'_sum, range'_sum]
    unfold denAtJw
    push_cast
    have e0 := powC_of_tables (max nn nd) _ fr hu 0 (Nat.zero_le _)
    rw [pow_zero] at e0
    have es : ∑ j in Finset.range nd, ((d.ps_re (j + 1) : ℝ) : ℂ) * (phi (nn + (j + 1)) : ℂ)
        + Complex.I * ∑ j in Finset.range nd, ((d.ps_im (j + 1) : ℝ) : ℂ) * (phi (nn + (j + 1)) : ℂ)
        = ∑ j in Finset.range nd, ((phi (nn + (j + 1)) : ℝ) : ℂ)
            * (Complex.I * (dzFreqResToComplex fr).2) ^ (j + 1) := by
      rw [Finset.mul_sum, ← Finset.sum_add_distrib]
      apply Finset.sum_congr rfl
      intro j hj
      have hj' : j < nd := Finset.mem_range.1 hj
      have e := powC_of_tables (max nn nd) _ fr hu (j + 1)
        (le_trans (by omega) (le_max_right nn nd))
      simp only at e
      linear_combination ((phi (nn + (j + 1)) : ℝ) : ℂ) * e
    simp only at e0
    linear_combination e0 + es
  unfold newMag
  simp only
  rw [← hD, Complex.normSq_add_mul_I]
  ring

/-! ## The tables and the weights -/

theorem Read_sample (alloc : Nat → Bool) (list : zList dzFreqRes) (nn nd : Nat)
    (hg : allocGranted alloc 8) (k : Nat) (cp : dzFreqRes) (hk : list[k]? = some cp) :
    sampleRow (_dzFreqResIdentDataRead alloc list nn nd).2 k = readRowOf (max nn nd) cp := by
  have hl : list ≠ [] := by
    intro h
    rw [h] at hk
    simp at hk
  rw [(Read_fst_granted alloc list nn nd hg hl).2]
  have hspec := readLoop_spec list 0 (_dzFreqResIdentDataAlloc alloc nn nd (zListSize list)).2
    (by intro k _ j; simp [_dzFreqResIdentDataAlloc])
  have h3 := hspec.2.2 k cp hk
  rw [Nat.zero_add] at h3
  exact h3

/-- C16 (power-series table): for every sample `k` of the list, of complex
gain `G_k` and angular frequency `omega_k`, and every `j` in
`0 .. max(n_n, n_d)`, the pair `(ps_re[k][j], ps_im[k][j])` that
`_dzFreqResIdentDataRead` writes by the sign table on `j mod 4` is the power
`(j omega_k)^j` obtained by incremental complex multiplication starting from
`1 + 0j`; the imaginary part is `0` for even `j` and the real part is `0` for
odd `j`; and `(fr_re[k][j], fr_im[k][j])` is the product of `G_k` with that
power. -/
theorem power_series_table (alloc : Nat → Bool) (list : zList dzFreqRes) (nn nd : Nat)
    (hg : allocGranted alloc 8) (k : Nat) (cp : dzFreqRes) (hk : list[k]? = some cp)
    (j : Nat) (hj : j ≤ max nn nd) :
    (_dzFreqResIdentDataRead alloc list nn nd).2.ps_re k j
      = (powIncr (dzFreqResToComplex cp).2 j).re ∧
    (_dzFreqResIdentDataRead alloc list nn nd).2.ps_im k j
      = (powIncr (dzFreqResToComplex cp).2 j).im ∧
    (j % 2 = 0 → (_dzFreqResIdentDataRead alloc list nn nd).2.ps_im k j = 0) ∧
    (j % 2 = 1 → (_dzFreqResIdentDataRead alloc list nn nd).2.ps_re k j = 0) ∧
    (_dzFreqResIdentDataRead alloc list nn nd).2.fr_re k j
      = (zComplexCMul (dzFreqResToComplex cp).1 (powIncr (dzFreqResToComplex cp).2 j)).re ∧
    (_dzFreqResIdentDataRead alloc list nn nd).2.fr_im k j
      = (zComplexCMul (dzFreqResToComplex cp).1 (powIncr (dzFreqResToComplex cp).2 j)).im := by
  have h := Read_sample alloc list nn nd hg k cp hk
  have hj' : j ≤ nn ∨ j ≤ nd := le_max_iff.1 hj
  have e1 : (_dzFreqResIdentDataRead alloc list nn nd).2.ps_re k j
      = (iomegaPow (dzFreqResToComplex cp).2 j).re := by
    have := congrArg (fun d : SampleRow ℝ => d.ps_re j) h
    simpa [sampleRow, readRowOf, readRow, hj'] using this
  have e2 : (_dzFreqResIdentDataRead alloc list nn nd).2.ps_im k j
      = (iomegaPow (dzFreqResToComplex cp).2 j).im := by
    have := congrArg (fun d : SampleRow ℝ => d.ps_im j) h
    simpa [sampleRow, readRowOf, readRow, hj'] using this
  have e3 : (_dzFreqResIdentDataRead alloc list nn nd).2.fr_re k j
      = (zComplexCMul (dzFreqResToComplex cp).1 (iomegaPow (dzFreqResToComplex cp).2 j)).re := by
    have := congrArg (fun d : SampleRow ℝ => d.fr_re j) h
    simpa [sampleRow, readRowOf, readRow, hj'] using this
  have e4 : (_dzFreqResIdentDataRead alloc list nn nd).2.fr_im k j
      = (zComplexCMul (dzFreqResToComplex cp).1 (iomegaPow (dzFreqResToComplex cp).2 j)).im := by
    have := congrArg (fun d : SampleRow ℝ => d.fr_im j) h
    simpa [sampleRow, readRowOf, readRow, hj'] using this
  have hp := iomegaPow_parity (dzFreqResToComplex cp).2 j
  rw [e1, e2, e3, e4]
  rw [iomegaPow_eq_powIncr] at hp ⊢
  exact ⟨rfl, rfl, hp.1, hp.2, rfl, rfl⟩

theorem power_series_table_witness :
    (_dzFreqResIdentDataRead idealEnv.zAlloc samplesUnit 1 1).2.ps_re 1 1
      = (powIncr (dzFreqResToComplex ⟨2, 0, 0⟩).2 1).re ∧
    (_dzFreqResIdentDataRead idealEnv.zAlloc samplesUnit 1 1).2.ps_im 1 1
      = (powIncr (dzFreqResToComplex ⟨2, 0, 0⟩).2 1).im ∧
    (1 % 2 = 0 → (_dzFreqResIdentDataRead idealEnv.zAlloc samplesUnit 1 1).2.ps_im 1 1 = 0) ∧
    (1 % 2 = 1 → (_dzFreqResIdentDataRead idealEnv.zAlloc samplesUnit 1 1).2.ps_re 1 1 = 0) ∧
    (_dzFreqResIdentDataRead idealEnv.zAlloc samplesUnit 1 1).2.fr_re 1 1
      = (zComplexCMul (dzFreqResToComplex ⟨2, 0, 0⟩).1
          (powIncr (dzFreqResToComplex ⟨2, 0, 0⟩).2 1)).re ∧
    (_dzFreqResIdentDataRead idealEnv.zAlloc samplesUnit 1 1).2.fr_im 1 1
      = (zComplexCMul (dzFreqResToComplex ⟨2, 0, 0⟩).1
          (powIncr (dzFreqResToComplex ⟨2, 0, 0⟩).2 1)).im :=
  power_series_table idealEnv.zAlloc samplesUnit 1 1 (idealEnv_granted 8) 1 ⟨2, 0, 0⟩ rfl 1
    (by decide)

/-! ## The first pass never leaves the loop -/

theorem identRun_pass (env : zmEnv) (n : Nat) (s : dzFreqResIdentData ℝ) (dp : Option ℝ) :
    1 ≤ (identRun env (n + 1) s dp).2.length := by
  rw [identRun_succ]
  split <;> simp

/-- The record of a loop that starts with `phi_prev` at `HUGE_VAL`: the first
pass computes the distance `HUGE_VAL` and does not leave the loop, and the
other passes follow. -/
theorem identRun_first (env : zmEnv) {nn nd ns : Nat} (s : dzFreqResIdentData ℝ)
    (h : Shape nn nd ns s) (hp : s.phi_prev.buf 0 = none) (n : Nat) :
    ∃ e, (identRun env (n + 1) s none).2
        = e :: (identRun env n (nextStep (solveStep env s)) none).2 ∧
      e.dist = none ∧ e.stop = false := by
  have hd := first_dist env s h hp
  have ht : zIsTinyDiff env.zTOL none none = false := rfl
  rw [identRun_succ, hd, ht]
  exact ⟨_, rfl, rfl, rfl⟩

/-- C19 (the convergence test cannot fire early): in `_dzFreqResIdent`
(allocation requests granted, a list that is not empty) the first distance
computed is `HUGE_VAL` and the first pass does not take the `break`; a pass
that leaves the loop by `break` is at least the second one, and with
`iter ≥ 2` at least two calls of `zLESolveGauss` are made. -/
theorem convergence_not_early (env : zmEnv) (list : zList dzFreqRes) (nn nd : Nat)
    (iter : Int) (hg : allocGranted env.zAlloc 13) (hl : list ≠ []) :
    _dzFreqResIdent env list nn nd iter
      = (true, (identRun env (ZITERINIT env.Z_MAX_ITER_NUM iter)
          (startOf env.zAlloc list nn nd) none).1) ∧
    (∀ e rest, (identRun env (ZITERINIT env.Z_MAX_ITER_NUM iter)
        (startOf env.zAlloc list nn nd) none).2 = e :: rest →
      e.dist = none ∧ e.stop = false) ∧
    (∀ i e, (identRun env (ZITERINIT env.Z_MAX_ITER_NUM iter)
        (startOf env.zAlloc list nn nd) none).2[i]? = some e → e.stop = true → 2 ≤ i + 1) ∧
    (2 ≤ iter → 2 ≤ (identRun env (ZITERINIT env.Z_MAX_ITER_NUM iter)
      (startOf env.zAlloc list nn nd) none).2.length) := by
  have hs : Shape nn nd list.length (startOf env.zAlloc list nn nd) :=
    loopStart_shape env.zAlloc list nn nd
  have hfirst : ∀ e rest, (identRun env (ZITERINIT env.Z_MAX_ITER_NUM iter)
      (startOf env.zAlloc list nn nd) none).2 = e :: rest → e.dist = none ∧ e.stop = false := by
    intro e rest hlog
    cases hn : ZITERINIT env.Z_MAX_ITER_NUM iter with
    | zero =>
      rw [hn] at hlog
      exact absurd hlog (by simp [identRun])
    | succ n =>
      rw [hn] at hlog
      obtain ⟨e1, h1, hdist, hstop⟩ :=
        identRun_first env _ hs (startOf_phi_prev env.zAlloc list nn nd 0) n
      rw [h1] at hlog
      rw [← (List.cons.inj hlog).1]
      exact ⟨hdist, hstop⟩
  refine ⟨?_, hfirst, ?_, ?_⟩
  · rw [identRun_fst]
    exact _dzFreqResIdent_granted_startOf env list nn nd iter hg hl
  · intro i e he hstop
    cases i with
    | zero =>
      cases hlog : (identRun env (ZITERINIT env.Z_MAX_ITER_NUM iter)
          (startOf env.zAlloc list nn nd) none).2 with
      | nil =>
        rw [hlog] at he
        simp at he
      | cons e1 rest =>
        rw [hlog] at he
        simp only [List.getElem?_cons_zero, Option.some.injEq] at he
        have h := (hfirst e1 rest hlog).2
        rw [he, hstop] at h
        exact absurd h (by simp)
    | succ i => omega
  · intro hi
    have hn : ZITERINIT env.Z_MAX_ITER_NUM iter = (iter.toNat - 2) + 1 + 1 := by
      have h0 : ¬ iter ≤ 0 := by omega
      simp only [ZITERINIT, if_neg h0]
      omega
    obtain ⟨e1, h1, -, -⟩ :=
      identRun_first env _ hs (startOf_phi_prev env.zAlloc list nn nd 0) (iter.toNat - 2 + 1)
    rw [hn, h1, List.length_cons]
    have := identRun_pass env (iter.toNat - 2) (nextStep (solveStep env
      (startOf env.zAlloc list nn nd))) none
    omega

theorem convergence_not_early_witness :
    _dzFreqResIdent idealEnv samplesUnit 1 1 2
      = (true, (identRun idealEnv (ZITERINIT idealEnv.Z_MAX_ITER_NUM 2)
          (startOf idealEnv.zAlloc samplesUnit 1 1) none).1) ∧
    (∀ e rest, (identRun idealEnv (ZITERINIT idealEnv.Z_MAX_ITER_NUM 2)
        (startOf idealEnv.zAlloc samplesUnit 1 1) none).2 = e :: rest →
      e.dist = none ∧ e.stop = false) ∧
    (∀ i e, (identRun idealEnv (ZITERINIT idealEnv.Z_MAX_ITER_NUM 2)
        (startOf idealEnv.zAlloc samplesUnit 1 1) none).2[i]? = some e →
      e.stop = true → 2 ≤ i + 1) ∧
    ((2 : Int) ≤ 2 → 2 ≤ (identRun idealEnv (ZITERINIT idealEnv.Z_MAX_ITER_NUM 2)
      (startOf idealEnv.zAlloc samplesUnit 1 1) none).2.length) :=
  convergence_not_early idealEnv samplesUnit 1 1 2 (idealEnv_granted 13)
    (by simp [samplesUnit])

/-! ## The weights as real numbers -/

/-- The divisor of the new weight of a sample is `|D(j omega; a)|^2`. -/
theorem divisor_den (nn nd : Nat) (phi : Nat → ℝ) (d : SampleRow ℝ) (fr : dzFreqRes)
    (h : TablesOf nn nd d fr) :
    (d.ps_re 0 + ((List.range' 1 nd).map fun j => d.ps_re j * phi (nn + j)).sum)
        * (d.ps_re 0 + ((List.range' 1 nd).map fun j => d.ps_re j * phi (nn + j)).sum)
      + (d.ps_im 0 + ((List.range' 1 nd).map fun j => d.ps_im j * phi (nn + j)).sum)
        * (d.ps_im 0 + ((List.range' 1 nd).map fun j => d.ps_im j * phi (nn + j)).sum)
      = Complex.normSq (denAtJw nn nd phi (dzFreqResToComplex fr).2) := by
  have e := newMag_den nn nd phi d fr h
  unfold newMag at e
  simp only [one_div, inv_inj] at e
  exact e

/-- Where `D(j omega; a)` is not zero the weight stored is the real number
`1 / |D(j omega; a)|^2`. -/
theorem storedMag_den (nn nd : Nat) (phi : Nat → ℝ) (d : SampleRow ℝ) (fr : dzFreqRes)
    (h : TablesOf nn nd d fr) (hD : denAtJw nn nd phi (dzFreqResToComplex fr).2 ≠ 0) :
    storedMag nn nd phi d
      = some (1 / Complex.normSq (denAtJw nn nd phi (dzFreqResToComplex fr).2)) := by
  have e := divisor_den nn nd phi d fr h
  have hne : Complex.normSq (denAtJw nn nd phi (dzFreqResToComplex fr).2) ≠ 0 :=
    fun h0 => hD (Complex.normSq_eq_zero.1 h0)
  unfold storedMag
  simp only [e, if_neg hne]

/-- Where `D(j omega; a)` is zero the division is a division by zero. -/
theorem storedMag_pole (nn nd : Nat) (phi : Nat → ℝ) (d : SampleRow ℝ) (fr : dzFreqRes)
    (h : TablesOf nn nd d fr) (hD : denAtJw nn nd phi (dzFreqResToComplex fr).2 = 0) :
    storedMag nn nd phi d = none := by
  have e := divisor_den nn nd phi d fr h
  unfold storedMag
  simp only [e, hD, map_zero, if_true]

/-- A weight stored without a division by zero is positive, and it is the
weight of the working set of the embedding. -/
theorem newMag_pos (nn nd : Nat) (phi : Nat → ℝ) (d : SampleRow ℝ)
    (h : storedMag nn nd phi d ≠ none) :
    storedMag nn nd phi d = some (newMag nn nd phi d) ∧ 0 < newMag nn nd phi d := by
  unfold storedMag at h ⊢
  unfold newMag
  simp only at h ⊢
  by_cases h0 : (d.ps_re 0 + ((List.range' 1 nd).map fun j => d.ps_re j * phi (nn + j)).sum)
        * (d.ps_re 0 + ((List.range' 1 nd).map fun j => d.ps_re j * phi (nn + j)).sum)
      + (d.ps_im 0 + ((List.range' 1 nd).map fun j => d.ps_im j * phi (nn + j)).sum)
        * (d.ps_im 0 + ((List.range' 1 nd).map fun j => d.ps_im j * phi (nn + j)).sum) = 0
  · rw [if_pos h0] at h
    exact absurd rfl h
  · rw [if_neg h0]
    refine ⟨rfl, ?_⟩
    apply one_div_pos.2
    have hnn := add_nonneg
      (mul_self_nonneg
        (d.ps_re 0 + ((List.range' 1 nd).map fun j => d.ps_re j * phi (nn + j)).sum))
      (mul_self_nonneg
        (d.ps_im 0 + ((List.range' 1 nd).map fun j => d.ps_im j * phi (nn + j)).sum))
    exact lt_of_le_of_ne hnn (Ne.symm h0)

theorem loopDefined_succ (env : zmEnv) (n : Nat) (s : dzFreqResIdentData ℝ) (dp : Option ℝ) :
    loopDefined env (n + 1) s dp
      = if zIsTinyDiff env.zTOL
            (zVecDist (solveStep env s).phi (solveStep env s).phi_prev) dp = true
        then True
        else UpdateDefined (solveStep env s) ∧
          loopDefined env n (nextStep (solveStep env s))
            (zVecDist (solveStep env s).phi (solveStep env s).phi_prev) := rfl

/-- As long as no weight is stored by a division by zero, the weights of the
samples are positive in the working set that the loop leaves. -/
theorem identLoop_mag_pos (env : zmEnv) {nn nd ns : Nat} :
    ∀ (n : Nat) (s : dzFreqResIdentData ℝ) (dp : Option ℝ),
      Shape nn nd ns s → (∀ i, i < ns → 0 < s.mag.buf i) → loopDefined env n s dp →
      ∀ i, i < ns → 0 < (identLoop env n s dp).mag.buf i := by
  intro n
  induction n with
  | zero => intro s dp _ hpos _ i hi; exact hpos i hi
  | succ n ih =>
    intro s dp hs hpos hrun i hi
    have hs1 := solveStep_shape env s hs
    rw [loopDefined_succ] at hrun
    rw [identLoop_succ]
    by_cases hc : zIsTinyDiff env.zTOL
        (zVecDist (solveStep env s).phi (solveStep env s).phi_prev) dp = true
    · rw [if_pos hc]
      have e : (solveStep env s).mag = s.mag := (LSMCreate_frame s hs).mag
      rw [e]
      exact hpos i hi
    · rw [if_neg hc] at hrun ⊢
      apply ih _ _ (nextStep_shape _ hs1) _ hrun.2 i hi
      intro k hk
      have hk' : k < (solveStep env s).ns := by rw [hs1.ns]; exact hk
      simp only [nextStep, UpdateMag_eq, if_pos hk']
      exact (newMag_pos _ _ _ _ (hrun.1 k hk')).2

theorem startOf_mag (alloc : Nat → Bool) (list : zList dzFreqRes) (nn nd : Nat) (k : Nat)
    (hk : k < list.length) : (startOf alloc list nn nd).mag.buf k = 1 := by
  have h := sampleRows_startOf alloc list nn nd
  have hns : (startOf alloc list nn nd).ns = list.length :=
    (loopStart_shape alloc list nn nd).ns
  have e : (sampleRows (startOf alloc list nn nd))[k]?
      = some (sampleRow (startOf alloc list nn nd) k) := by
    simp [sampleRows, hns, hk]
  rw [h, List.getElem?_map, List.getElem?_eq_getElem hk] at e
  exact (congrArg SampleRow.mag (Option.some.inj e)).symm

/-- C18, amended: after `_dzFreqResIdentDataRead` the weight of every sample
is `1`.  After `_dzFreqResIdentDataUpdateMag`, called on the working set that
the solve of a pass leaves, the weight of the sample `k` is the real number
`1 / |D(j omega_k; a)|^2` with `D(s; a) = 1 + sum_{j=1..nd} a_j s^j` and
`a_j = phi[n_n + j]` from that solve, and it is positive, provided that
`D(j omega_k; a) ≠ 0`.  As long as no call of `_dzFreqResIdentDataUpdateMag`
has divided by zero, the weight of every sample is positive in the working
set of the loop. -/
theorem reweighting_amended (env : zmEnv) (list : zList dzFreqRes) (nn nd : Nat)
    (hg : allocGranted env.zAlloc 8) (s : dzFreqResIdentData ℝ) (hs : Holds nn nd list s)
    (k : Nat) (fr : dzFreqRes) (hk : list[k]? = some fr)
    (hD : denAtJw nn nd (solveStep env s).phi.buf (dzFreqResToComplex fr).2 ≠ 0)
    (n : Nat) (hrun : loopDefined env n (startOf env.zAlloc list nn nd) none) :
    (_dzFreqResIdentDataRead env.zAlloc list nn nd).2.mag.buf k = 1 ∧
    storedMag nn nd (solveStep env s).phi.buf (sampleRow (solveStep env s) k)
      = some (1 / Complex.normSq
          (denAtJw nn nd (solveStep env s).phi.buf (dzFreqResToComplex fr).2)) ∧
    (_dzFreqResIdentDataUpdateMag (solveStep env s)).mag.buf k
      = 1 / Complex.normSq
          (denAtJw nn nd (solveStep env s).phi.buf (dzFreqResToComplex fr).2) ∧
    0 < (_dzFreqResIdentDataUpdateMag (solveStep env s)).mag.buf k ∧
    (∀ i, i < list.length →
      0 < (identLoop env n (startOf env.zAlloc list nn nd) none).mag.buf i) := by
  have h1 := Holds_solveStep env nn nd list s hs
  obtain ⟨hns, ht⟩ := Holds_sample nn nd list _ h1 k fr hk
  have e : (_dzFreqResIdentDataUpdateMag (solveStep env s)).mag.buf k
      = newMag nn nd (solveStep env s).phi.buf (sampleRow (solveStep env s) k) := by
    simp only [UpdateMag_eq, if_pos hns, h1.1.nn, h1.1.nd]
  have hst := storedMag_den nn nd (solveStep env s).phi.buf _ fr ht hD
  have hpos : 0 < 1 / Complex.normSq
      (denAtJw nn nd (solveStep env s).phi.buf (dzFreqResToComplex fr).2) :=
    one_div_pos.2 (Complex.normSq_pos.2 hD)
  refine ⟨?_, hst, ?_, ?_, ?_⟩
  · exact congrArg SampleRow.mag (Read_sample env.zAlloc list nn nd hg k fr hk)
  · rw [e]
    exact newMag_den nn nd _ _ fr ht
  · rw [e, newMag_den nn nd _ _ fr ht]
    exact hpos
  · have hsh : Shape nn nd list.length (startOf env.zAlloc list nn nd) :=
      loopStart_shape env.zAlloc list nn nd
    exact identLoop_mag_pos env n _ none hsh
      (fun i hi => by
        rw [startOf_mag env.zAlloc list nn nd i hi]; exact zero_lt_one) hrun

/-! ## Re-weighting with the denominator degree one -/

/-- With the denominator degree `1` the real part of `D(j omega; a)` is `1`. -/
theorem denAtJw_one_ne_zero (nn : Nat) (phi : Nat → ℝ) (omega : ℝ) :
    denAtJw nn 1 phi omega ≠ 0 := by
  intro h
  have e := congrArg Complex.re h
  simp [denAtJw, Finset.sum_range_succ] at e

/-- With the denominator degree `1` no weight is stored by a division by
zero. -/
theorem UpdateDefined_one (nn : Nat) (list : List dzFreqRes) (s : dzFreqResIdentData ℝ)
    (h : Holds nn 1 list s) : UpdateDefined s := by
  intro k hk
  have hlt : k < list.length := by rw [← h.1.ns]; exact hk
  obtain ⟨-, ht⟩ := Holds_sample nn 1 list s h k list[k] (List.getElem?_eq_getElem hlt)
  rw [h.1.nn, h.1.nd, storedMag_den nn 1 s.phi.buf _ list[k] ht (denAtJw_one_ne_zero _ _ _)]
  exact Option.some_ne_none _

theorem loopDefined_one (env : zmEnv) (nn : Nat) (list : List dzFreqRes) :
    ∀ (n : Nat) (s : dzFreqResIdentData ℝ) (dp : Option ℝ),
      Holds nn 1 list s → loopDefined env n s dp := by
  intro n
  induction n with
  | zero => intro s dp _; trivial
  | succ n ih =>
    intro s dp h
    have h1 := Holds_solveStep env nn 1 list s h
    rw [loopDefined_succ]
    split
    · trivial
    · exact ⟨UpdateDefined_one nn list _ h1, ih _ _ (Holds_nextStep nn 1 list _ h1)⟩

theorem reweighting_amended_witness :
    denAtJw 0 1 (solveStep idealEnv (startOf idealEnv.zAlloc samplesTwo 0 1)).phi.buf
        (dzFreqResToComplex ⟨1 / (2 * Real.pi), 0, 0⟩).2 ≠ 0 ∧
    loopDefined idealEnv 2 (startOf idealEnv.zAlloc samplesTwo 0 1) none ∧
    (_dzFreqResIdentDataUpdateMag
        (solveStep idealEnv (startOf idealEnv.zAlloc samplesTwo 0 1))).mag.buf 0 = 9 / 10 ∧
    ((_dzFreqResIdentDataRead idealEnv.zAlloc samplesTwo 0 1).2.mag.buf 0 = 1 ∧
      storedMag 0 1 (solveStep idealEnv (startOf idealEnv.zAlloc samplesTwo 0 1)).phi.buf
          (sampleRow (solveStep idealEnv (startOf idealEnv.zAlloc samplesTwo 0 1)) 0)
        = some (1 / Complex.normSq
            (denAtJw 0 1 (solveStep idealEnv (startOf idealEnv.zAlloc samplesTwo 0 1)).phi.buf
              (dzFreqResToComplex ⟨1 / (2 * Real.pi), 0, 0⟩).2)) ∧
      (_dzFreqResIdentDataUpdateMag
          (solveStep idealEnv (startOf idealEnv.zAlloc samplesTwo 0 1))).mag.buf 0
        = 1 / Complex.normSq
            (denAtJw 0 1 (solveStep idealEnv (startOf idealEnv.zAlloc samplesTwo 0 1)).phi.buf
              (dzFreqResToComplex ⟨1 / (2 * Real.pi), 0, 0⟩).2) ∧
      0 < (_dzFreqResIdentDataUpdateMag
          (solveStep idealEnv (startOf idealEnv.zAlloc samplesTwo 0 1))).mag.buf 0 ∧
      (∀ i, i < samplesTwo.length →
        0 < (identLoop idealEnv 2 (startOf idealEnv.zAlloc samplesTwo 0 1) none).mag.buf i)) := by
  have hD := denAtJw_one_ne_zero 0
    (solveStep idealEnv (startOf idealEnv.zAlloc samplesTwo 0 1)).phi.buf
    (dzFreqResToComplex ⟨1 / (2 * Real.pi), 0, 0⟩).2
  have hrun := loopDefined_one idealEnv 0 samplesTwo 2 _ none
    (Holds_startOf idealEnv.zAlloc samplesTwo 0 1)
  obtain ⟨hs, hr⟩ := secondPass_rows
  have hr2 := sampleRows_two secondPass hs.ns
  rw [hr] at hr2
  have hm0 : secondPass.mag.buf 0 = 9 / 10 :=
    (congrArg SampleRow.mag (List.cons.inj hr2).1).symm
  exact ⟨hD, hrun, hm0,
    reweighting_amended idealEnv samplesTwo 0 1 (idealEnv_granted 8) _
      (Holds_startOf idealEnv.zAlloc samplesTwo 0 1) 0 ⟨1 / (2 * Real.pi), 0, 0⟩ rfl hD 2 hrun⟩

/-! ## Two samples with a pole of the first estimate -/

theorem conv_sampleOf (c : zComplex ℝ) (omega : ℝ) (hc : c.toC ≠ 0) :
    dzFreqResToComplex (sampleOf c omega) = (c, omega) := by
  obtain ⟨fr, h1, h2⟩ := dzFreqResToComplex_FromComplex c omega hc
  have habs : zComplexAbs c ≠ 0 := fun h => hc ((zComplexAbs_eq_zero_iff c).1 h)
  simp only [dzFreqResFromComplex, if_neg habs, Option.some.injEq] at h1
  rw [← h1] at h2
  exact h2

theorem conv_pole :
    dzFreqResToComplex (sampleOf ⟨-12, -2⟩ 1) = (⟨-12, -2⟩, 1) ∧
    dzFreqResToComplex (sampleOf ⟨-2, 1⟩ 2) = (⟨-2, 1⟩, 2) := by
  constructor
  · apply conv_sampleOf
    intro h
    have := congrArg Complex.re h
    simp [zComplex.toC] at this
  · apply conv_sampleOf
    intro h
    have := congrArg Complex.re h
    simp [zComplex.toC] at this

/-- The tables of a sample for `max n_n n_d = 2`. -/
theorem tables_dim_two (fr : dzFreqRes) :
    (readRowOf 2 fr).mag = 1 ∧
    (readRowOf 2 fr).ps_re 0 = 1 ∧ (readRowOf 2 fr).ps_re 1 = 0 ∧
    (readRowOf 2 fr).ps_re 2 = -(dzFreqResToComplex fr).2 ^ 2 ∧
    (readRowOf 2 fr).ps_im 0 = 0 ∧ (readRowOf 2 fr).ps_im 1 = (dzFreqResToComplex fr).2 ∧
    (readRowOf 2 fr).ps_im 2 = 0 ∧
    (readRowOf 2 fr).fr_re 0 = (dzFreqResToComplex fr).1.re ∧
    (readRowOf 2 fr).fr_re 1 = -((dzFreqResToComplex fr).1.im * (dzFreqResToComplex fr).2) ∧
    (readRowOf 2 fr).fr_re 2 = -((dzFreqResToComplex fr).1.re * (dzFreqResToComplex fr).2 ^ 2) ∧
    (readRowOf 2 fr).fr_im 0 = (dzFreqResToComplex fr).1.im ∧
    (readRowOf 2 fr).fr_im 1 = (dzFreqResToComplex fr).1.re * (dzFreqResToComplex fr).2 ∧
    (readRowOf 2 fr).fr_im 2
      = -((dzFreqResToComplex fr).1.im * (dzFreqResToComplex fr).2 ^ 2) := by
  simp [readRowOf, readRow, iomegaPow, zComplexCreate, zComplexCMul]

/-- The rows `x_r`, `x_i` and the right-hand sides of the two samples of
`samplesPole` for `n_n = 0`, `n_d = 2` and the weight `1`. -/
theorem pole_rows :
    (rowRe 0 (readRowOf 2 (sampleOf ⟨-12, -2⟩ 1)) 0 = 1 ∧
      rowRe 0 (readRowOf 2 (sampleOf ⟨-12, -2⟩ 1)) 1 = -2 ∧
      rowRe 0 (readRowOf 2 (sampleOf ⟨-12, -2⟩ 1)) 2 = -12 ∧
      rowIm 0 (readRowOf 2 (sampleOf ⟨-12, -2⟩ 1)) 0 = 0 ∧
      rowIm 0 (readRowOf 2 (sampleOf ⟨-12, -2⟩ 1)) 1 = 12 ∧
      rowIm 0 (readRowOf 2 (sampleOf ⟨-12, -2⟩ 1)) 2 = -2 ∧
      (readRowOf 2 (sampleOf ⟨-12, -2⟩ 1)).fr_re 0 = -12 ∧
      (readRowOf 2 (sampleOf ⟨-12, -2⟩ 1)).fr_im 0 = -2) ∧
    (rowRe 0 (readRowOf 2 (sampleOf ⟨-2, 1⟩ 2)) 0 = 1 ∧
      rowRe 0 (readRowOf 2 (sampleOf ⟨-2, 1⟩ 2)) 1 = 2 ∧
      rowRe 0 (readRowOf 2 (sampleOf ⟨-2, 1⟩ 2)) 2 = -8 ∧
      rowIm 0 (readRowOf 2 (sampleOf ⟨-2, 1⟩ 2)) 0 = 0 ∧
      rowIm 0 (readRowOf 2 (sampleOf ⟨-2, 1⟩ 2)) 1 = 4 ∧
      rowIm 0 (readRowOf 2 (sampleOf ⟨-2, 1⟩ 2)) 2 = 4 ∧
      (readRowOf 2 (sampleOf ⟨-2, 1⟩ 2)).fr_re 0 = -2 ∧
      (readRowOf 2 (sampleOf ⟨-2, 1⟩ 2)).fr_im 0 = 1) := by
  obtain ⟨c1, c2⟩ := conv_pole
  have t1 := tables_dim_two (sampleOf ⟨-12, -2⟩ 1)
  have t2 := tables_dim_two (sampleOf ⟨-2, 1⟩ 2)
  rw [c1] at t1
  rw [c2] at t2
  obtain ⟨a0, a1, a2, a3, a4, a5, a6, a7, a8, a9, a10, a11, a12⟩ := t1
  obtain ⟨b0, b1, b2, b3, b4, b5, b6, b7, b8, b9, b10, b11, b12⟩ := t2
  refine ⟨⟨?_, ?_, ?_, ?_, ?_, ?_, a7, a10⟩, ⟨?_, ?_, ?_, ?_, ?_, ?_, b7, b10⟩⟩ <;>
    simp [rowRe, rowIm, a0, a1, a2, a3, a4, a5, a6, a7, a8, a9, a10, a11, a12,
      b0, b1, b2, b3, b4, b5, b6, b7, b8, b9, b10, b11, b12] <;> norm_num

/-! ## The first pass on the samples with a pole -/

/-- The normal equations of the first pass for `samplesPole`, `n_n = 0`,
`n_d = 2`. -/
theorem pole_normalEq :
    (_dzFreqResIdentDataLSMCreate (startOf idealEnv.zAlloc samplesPole 0 2)).q.row = 3 ∧
    (_dzFreqResIdentDataLSMCreate (startOf idealEnv.zAlloc samplesPole 0 2)).q.col = 3 ∧
    ((_dzFreqResIdentDataLSMCreate (startOf idealEnv.zAlloc samplesPole 0 2)).q.buf 0 0 = 2 ∧
      (_dzFreqResIdentDataLSMCreate (startOf idealEnv.zAlloc samplesPole 0 2)).q.buf 0 1 = 0 ∧
      (_dzFreqResIdentDataLSMCreate (startOf idealEnv.zAlloc samplesPole 0 2)).q.buf 0 2 = -20) ∧
    ((_dzFreqResIdentDataLSMCreate (startOf idealEnv.zAlloc samplesPole 0 2)).q.buf 1 0 = 0 ∧
      (_dzFreqResIdentDataLSMCreate (startOf idealEnv.zAlloc samplesPole 0 2)).q.buf 1 1 = 168 ∧
      (_dzFreqResIdentDataLSMCreate (startOf idealEnv.zAlloc samplesPole 0 2)).q.buf 1 2 = 0) ∧
    ((_dzFreqResIdentDataLSMCreate (startOf idealEnv.zAlloc samplesPole 0 2)).q.buf 2 0 = -20 ∧
      (_dzFreqResIdentDataLSMCreate (startOf idealEnv.zAlloc samplesPole 0 2)).q.buf 2 1 = 0 ∧
      (_dzFreqResIdentDataLSMCreate (startOf idealEnv.zAlloc samplesPole 0 2)).q.buf 2 2 = 228) ∧
    ((_dzFreqResIdentDataLSMCreate (startOf idealEnv.zAlloc samplesPole 0 2)).p.buf 0 = -14 ∧
      (_dzFreqResIdentDataLSMCreate (startOf idealEnv.zAlloc samplesPole 0 2)).p.buf 1 = 0 ∧
      (_dzFreqResIdentDataLSMCreate (startOf idealEnv.zAlloc samplesPole 0 2)).p.buf 2 = 168) := by
  have hs : Shape 0 2 2 (startOf idealEnv.zAlloc samplesPole 0 2) :=
    loopStart_shape idealEnv.zAlloc samplesPole 0 2
  have hne := NormalEq_LSMCreate _ hs
  have hr : sampleRows (startOf idealEnv.zAlloc samplesPole 0 2)
      = [readRowOf 2 (sampleOf ⟨-12, -2⟩ 1), readRowOf 2 (sampleOf ⟨-2, 1⟩ 2)] := by
    rw [sampleRows_startOf]; rfl
  rw [hr] at hne
  obtain ⟨⟨a0, a1, a2, a3, a4, a5, a6, a7⟩, ⟨b0, b1, b2, b3, b4, b5, b6, b7⟩⟩ := pole_rows
  have m1 : (readRowOf 2 (sampleOf ⟨-12, -2⟩ 1)).mag = 1 := rfl
  have m2 : (readRowOf 2 (sampleOf ⟨-2, 1⟩ 2)).mag = 1 := rfl
  have hq : ∀ i j, i < 3 → j < 3 →
      (_dzFreqResIdentDataLSMCreate (startOf idealEnv.zAlloc samplesPole 0 2)).q.buf i j
        = rowRe 0 (readRowOf 2 (sampleOf ⟨-12, -2⟩ 1)) i
            * rowRe 0 (readRowOf 2 (sampleOf ⟨-12, -2⟩ 1)) j
          + rowIm 0 (readRowOf 2 (sampleOf ⟨-12, -2⟩ 1)) i
            * rowIm 0 (readRowOf 2 (sampleOf ⟨-12, -2⟩ 1)) j
          + (rowRe 0 (readRowOf 2 (sampleOf ⟨-2, 1⟩ 2)) i
              * rowRe 0 (readRowOf 2 (sampleOf ⟨-2, 1⟩ 2)) j
            + rowIm 0 (readRowOf 2 (sampleOf ⟨-2, 1⟩ 2)) i
              * rowIm 0 (readRowOf 2 (sampleOf ⟨-2, 1⟩ 2)) j) := by
    intro i j hi hj
    rw [hne.2.2.1 i j hi hj]
    simp only [List.map_cons, List.map_nil, List.sum_cons, List.sum_nil, add_zero, qTerm]
  have hp : ∀ i, i < 3 →
      (_dzFreqResIdentDataLSMCreate (startOf idealEnv.zAlloc samplesPole 0 2)).p.buf i
        = (readRowOf 2 (sampleOf ⟨-12, -2⟩ 1)).fr_re 0 * 1
            * rowRe 0 (readRowOf 2 (sampleOf ⟨-12, -2⟩ 1)) i
          + (readRowOf 2 (sampleOf ⟨-12, -2⟩ 1)).fr_im 0 * 1
            * rowIm 0 (readRowOf 2 (sampleOf ⟨-12, -2⟩ 1)) i
          + ((readRowOf 2 (sampleOf ⟨-2, 1⟩ 2)).fr_re 0 * 1
              * rowRe 0 (readRowOf 2 (sampleOf ⟨-2, 1⟩ 2)) i
            + (readRowOf 2 (sampleOf ⟨-2, 1⟩ 2)).fr_im 0 * 1
              * rowIm 0 (readRowOf 2 (sampleOf ⟨-2, 1⟩ 2)) i) := by
    intro i hi
    rw [hne.2.2.2 i hi]
    simp only [List.map_cons, List.map_nil, List.sum_cons, List.sum_nil, add_zero, pTerm, m1, m2]
  refine ⟨hne.1, hne.2.1, ⟨?_, ?_, ?_⟩, ⟨?_, ?_, ?_⟩, ⟨?_, ?_, ?_⟩, ⟨?_, ?_, ?_⟩⟩
  · rw [hq 0 0 (by norm_num) (by norm_num), a0, a3, b0, b3]; norm_num
  · rw [hq 0 1 (by norm_num) (by norm_num), a0, a1, a3, a4, b0, b1, b3, b4]; norm_num
  · rw [hq 0 2 (by norm_num) (by norm_num), a0, a2, a3, a5, b0, b2, b3, b5]; norm_num
  · rw [hq 1 0 (by norm_num) (by norm_num), a0, a1, a3, a4, b0, b1, b3, b4]; norm_num
  · rw [hq 1 1 (by norm_num) (by norm_num), a1, a4, b1, b4]; norm_num
  · rw [hq 1 2 (by norm_num) (by norm_num), a1, a2, a4, a5, b1, b2, b4, b5]; norm_num
  · rw [hq 2 0 (by norm_num) (by norm_num), a0, a2, a3, a5, b0, b2, b3, b5]; norm_num
  · rw [hq 2 1 (by norm_num) (by norm_num), a1, a2, a4, a5, b1, b2, b4, b5]; norm_num
  · rw [hq 2 2 (by norm_num) (by norm_num), a2, a5, b2, b5]; norm_num
  · rw [hp 0 (by norm_num), a0, a3, a6, a7, b0, b3, b6, b7]; norm_num
  · rw [hp 1 (by norm_num), a1, a4, a6, a7, b1, b4, b6, b7]; norm_num
  · rw [hp 2 (by norm_num), a2, a5, a6, a7, b2, b5, b6, b7]; norm_num

/-- The first solve for `samplesPole`: `b_0 = 3`, `a_1 = 0`, `a_2 = 1`. -/
theorem pole_first (i : Nat) (hi : i < 3) :
    (solveStep idealEnv (startOf idealEnv.zAlloc samplesPole 0 2)).phi.buf i
      = if i = 0 then 3 else if i = 1 then 0 else 1 := by
  obtain ⟨hrow, hcol, ⟨q00, q01, q02⟩, ⟨q10, q11, q12⟩, ⟨q20, q21, q22⟩, ⟨p0, p1, p2⟩⟩ :=
    pole_normalEq
  have hu : IsUniqueSolution
      (_dzFreqResIdentDataLSMCreate (startOf idealEnv.zAlloc samplesPole 0 2)).q
      (_dzFreqResIdentDataLSMCreate (startOf idealEnv.zAlloc samplesPole 0 2)).p
      (fun i => if i = 0 then 3 else if i = 1 then 0 else 1) := by
    constructor
    · intro k hk
      rw [hrow] at hk
      rw [hcol]
      simp only [Finset.sum_range_succ, Finset.sum_range_zero, zero_add]
      interval_cases k
      · rw [q00, q01, q02, p0]; norm_num
      · rw [q10, q11, q12, p1]; norm_num
      · rw [q20, q21, q22, p2]; norm_num
    · intro y hy k hk
      rw [hcol] at hk
      have e0 := hy 0 (by rw [hrow]; norm_num)
      have e1 := hy 1 (by rw [hrow]; norm_num)
      have e2 := hy 2 (by rw [hrow]; norm_num)
      rw [hcol] at e0 e1 e2
      simp only [Finset.sum_range_succ, Finset.sum_range_zero, zero_add] at e0 e1 e2
      rw [q00, q01, q02, p0] at e0
      rw [q10, q11, q12, p1] at e1
      rw [q20, q21, q22, p2] at e2
      interval_cases k
      · simp only [if_true]; linarith
      · norm_num; linarith
      · norm_num; linarith
  exact exactSolve_exact _ _ _ _ hu i (by rw [hcol]; exact hi)

/-! ## A division by zero in the first pass -/

/-- C18, as stated, fails.  For the two samples of gain `-12 - 2j` at
`omega = 1` and gain `-2 + j` at `omega = 2` with `n_n = 0`, `n_d = 2` and the
exact solver, the normal equations of the first pass are
`2 b_0 - 20 a_2 = -14`, `168 a_1 = 0`, `-20 b_0 + 228 a_2 = 168`, with the one
solution `b_0 = 3`, `a_1 = 0`, `a_2 = 1`.  The test of convergence of the first
pass is false, so `_dzFreqResIdentDataUpdateMag` is called; there
`D(j omega_0; a) = 1 + j^2 = 0` and the division for the sample `0` is a
division by zero: the weight stored is `HUGE_VAL`, not a real number
`1 / |D|^2`, and the products of the next pass with it are not real numbers
either. -/
theorem reweighting_counterexample :
    dzFreqResToComplex (sampleOf ⟨-12, -2⟩ 1) = (⟨-12, -2⟩, 1) ∧
    dzFreqResToComplex (sampleOf ⟨-2, 1⟩ 2) = (⟨-2, 1⟩, 2) ∧
    _dzFreqResIdent idealEnv samplesPole 0 2 2
      = (true, identLoop idealEnv (ZITERINIT idealEnv.Z_MAX_ITER_NUM 2)
          (startOf idealEnv.zAlloc samplesPole 0 2) none) ∧
    ZITERINIT idealEnv.Z_MAX_ITER_NUM 2 = 2 ∧
    (solveStep idealEnv (startOf idealEnv.zAlloc samplesPole 0 2)).phi.buf 0 = 3 ∧
    (solveStep idealEnv (startOf idealEnv.zAlloc samplesPole 0 2)).phi.buf 1 = 0 ∧
    (solveStep idealEnv (startOf idealEnv.zAlloc samplesPole 0 2)).phi.buf 2 = 1 ∧
    zIsTinyDiff idealEnv.zTOL
      (zVecDist (solveStep idealEnv (startOf idealEnv.zAlloc samplesPole 0 2)).phi
        (solveStep idealEnv (startOf idealEnv.zAlloc samplesPole 0 2)).phi_prev) none = false ∧
    denAtJw 0 2 (solveStep idealEnv (startOf idealEnv.zAlloc samplesPole 0 2)).phi.buf 1 = 0 ∧
    storedMag 0 2 (solveStep idealEnv (startOf idealEnv.zAlloc samplesPole 0 2)).phi.buf
        (sampleRow (solveStep idealEnv (startOf idealEnv.zAlloc samplesPole 0 2)) 0) = none ∧
    ¬ UpdateDefined (solveStep idealEnv (startOf idealEnv.zAlloc samplesPole 0 2)) ∧
    ¬ loopDefined idealEnv (ZITERINIT idealEnv.Z_MAX_ITER_NUM 2)
        (startOf idealEnv.zAlloc samplesPole 0 2) none := by
  obtain ⟨c1, c2⟩ := conv_pole
  have f0 := pole_first 0 (by norm_num)
  have f1 := pole_first 1 (by norm_num)
  have f2 := pole_first 2 (by norm_num)
  simp only [if_true] at f0
  norm_num at f1 f2
  have hs : Shape 0 2 samplesPole.length (startOf idealEnv.zAlloc samplesPole 0 2) :=
    loopStart_shape idealEnv.zAlloc samplesPole 0 2
  have hh := Holds_solveStep idealEnv 0 2 samplesPole _
    (Holds_startOf idealEnv.zAlloc samplesPole 0 2)
  have hD : denAtJw 0 2 (solveStep idealEnv (startOf idealEnv.zAlloc samplesPole 0 2)).phi.buf 1
      = 0 := by
    simp [denAtJw, Finset.sum_range_succ, f1, f2]
  obtain ⟨hns, ht⟩ := Holds_sample 0 2 samplesPole _ hh 0 (sampleOf ⟨-12, -2⟩ 1) rfl
  have hst : storedMag 0 2
      (solveStep idealEnv (startOf idealEnv.zAlloc samplesPole 0 2)).phi.buf
      (sampleRow (solveStep idealEnv (startOf idealEnv.zAlloc samplesPole 0 2)) 0) = none := by
    apply storedMag_pole 0 2 _ _ (sampleOf ⟨-12, -2⟩ 1) ht
    rw [c1]
    exact hD
  have hz : ZITERINIT idealEnv.Z_MAX_ITER_NUM 2 = 2 := by simp [ZITERINIT]
  have hdist := first_dist idealEnv _ hs (startOf_phi_prev idealEnv.zAlloc samplesPole 0 2 0)
  have ht0 : zIsTinyDiff idealEnv.zTOL none none = false := rfl
  have hupd : ¬ UpdateDefined (solveStep idealEnv (startOf idealEnv.zAlloc samplesPole 0 2)) := by
    intro hu
    have h0 := hu 0 hns
    rw [hh.1.nn, hh.1.nd] at h0
    exact h0 hst
  refine ⟨c1, c2, ?_, hz, f0, f1, f2, ?_, hD, hst, hupd, ?_⟩
  · exact _dzFreqResIdent_granted_startOf idealEnv samplesPole 0 2 2 (idealEnv_granted 13)
      (by simp [samplesPole])
  · rw [hdist]
    exact ht0
  · intro hrun
    rw [hz, loopDefined_succ, hdist, ht0] at hrun
    simp only [Bool.false_eq_true, if_false] at hrun
    exact hupd hrun.1

/-! ## Two samples of a first order lag -/

theorem conv_lag :
    dzFreqResToComplex (sampleOf ⟨1 / 2, -1 / 2⟩ 1) = (⟨1 / 2, -1 / 2⟩, 1) ∧
    dzFreqResToComplex (sampleOf ⟨1 / 5, -2 / 5⟩ 2) = (⟨1 / 5, -2 / 5⟩, 2) := by
  constructor
  · apply conv_sampleOf
    intro h
    have := congrArg Complex.re h
    simp [zComplex.toC] at this
  · apply conv_sampleOf
    intro h
    have := congrArg Complex.re h
    simp [zComplex.toC] at this

theorem samplesLag_generated (fr : dzFreqRes) (h : fr ∈ samplesLag) :
    GeneratedBy tfLag 0 1 fr := by
  obtain ⟨c1, c2⟩ := conv_lag
  have hden : ∀ omega : ℝ, polyAtJw tfLag.den.buf 1 omega = 1 + Complex.I * omega := by
    intro omega
    simp [polyAtJw, tfLag, Finset.sum_range_succ]
  have hnum : ∀ omega : ℝ, polyAtJw tfLag.num.buf 0 omega = 1 := by
    intro omega
    simp [polyAtJw, tfLag]
  have hne : ∀ omega : ℝ, (1 : ℂ) + Complex.I * omega ≠ 0 := by
    intro omega h0
    have := congrArg Complex.re h0
    simp at this
  simp only [samplesLag, List.mem_cons, List.mem_singleton, List.not_mem_nil, or_false] at h
  rcases h with e | e <;> subst e
  · unfold GeneratedBy
    rw [c1, hden, hnum]
    refine ⟨hne _, ?_⟩
    rw [eq_div_iff (hne _)]
    apply Complex.ext <;> simp [zComplex.toC] <;> norm_num
  · unfold GeneratedBy
    rw [c2, hden, hnum]
    refine ⟨hne _, ?_⟩
    rw [eq_div_iff (hne _)]
    apply Complex.ext <;> simp [zComplex.toC] <;> norm_num

theorem lagRow_tables (m : ℝ) :
    ((lagRowOne m).mag = m ∧
      (lagRowOne m).ps_re 0 = 1 ∧ (lagRowOne m).ps_re 1 = 0 ∧
      (lagRowOne m).ps_im 0 = 0 ∧ (lagRowOne m).ps_im 1 = 1 ∧
      (lagRowOne m).fr_re 0 = 1 / 2 ∧ (lagRowOne m).fr_re 1 = 1 / 2 ∧
      (lagRowOne m).fr_im 0 = -1 / 2 ∧ (lagRowOne m).fr_im 1 = 1 / 2) ∧
    ((lagRowTwo m).mag = m ∧
      (lagRowTwo m).ps_re 0 = 1 ∧ (lagRowTwo m).ps_re 1 = 0 ∧
      (lagRowTwo m).ps_im 0 = 0 ∧ (lagRowTwo m).ps_im 1 = 2 ∧
      (lagRowTwo m).fr_re 0 = 1 / 5 ∧ (lagRowTwo m).fr_re 1 = 4 / 5 ∧
      (lagRowTwo m).fr_im 0 = -2 / 5 ∧ (lagRowTwo m).fr_im 1 = 2 / 5) := by
  obtain ⟨c1, c2⟩ := conv_lag
  have t1 := tables_dim_one (sampleOf ⟨1 / 2, -1 / 2⟩ 1)
  have t2 := tables_dim_one (sampleOf ⟨1 / 5, -2 / 5⟩ 2)
  rw [c1] at t1
  rw [c2] at t2
  obtain ⟨a1, a2, a3, a4, a5, a6, a7, a8⟩ := t1
  obtain ⟨b1, b2, b3, b4, b5, b6, b7, b8⟩ := t2
  refine ⟨⟨rfl, a1, a2, a3, a4, a5, ?_, a7, ?_⟩, ⟨rfl, b1, b2, b3, b4, b5, ?_, b7, ?_⟩⟩
  · show (readRowOf 1 (sampleOf ⟨1 / 2, -1 / 2⟩ 1)).fr_re 1 = 1 / 2
    rw [a6]; norm_num
  · show (readRowOf 1 (sampleOf ⟨1 / 2, -1 / 2⟩ 1)).fr_im 1 = 1 / 2
    rw [a8]; norm_num
  · show (readRowOf 1 (sampleOf ⟨1 / 5, -2 / 5⟩ 2)).fr_re 1 = 4 / 5
    rw [b6]; norm_num
  · show (readRowOf 1 (sampleOf ⟨1 / 5, -2 / 5⟩ 2)).fr_im 1 = 2 / 5
    rw [b8]; norm_num

/-- The normal matrix of the two samples of `1 / (1 + s)` for `n_n = 0`,
`n_d = 1` and the weights `m1`, `m2`. -/
theorem lag_normalEq (s : dzFreqResIdentData ℝ) (m1 m2 : ℝ) (h : Shape 0 1 2 s)
    (hrows : sampleRows s = [lagRowOne m1, lagRowTwo m2]) :
    (_dzFreqResIdentDataLSMCreate s).q.row = 2 ∧ (_dzFreqResIdentDataLSMCreate s).q.col = 2 ∧
    (_dzFreqResIdentDataLSMCreate s).q.buf 0 0 = m1 * m1 + m2 * m2 ∧
    (_dzFreqResIdentDataLSMCreate s).q.buf 0 1 = -(m1 * m1 / 2 + 4 * (m2 * m2) / 5) ∧
    (_dzFreqResIdentDataLSMCreate s).q.buf 1 0 = -(m1 * m1 / 2 + 4 * (m2 * m2) / 5) ∧
    (_dzFreqResIdentDataLSMCreate s).q.buf 1 1 = m1 * m1 / 2 + 4 * (m2 * m2) / 5 := by
  have hne := NormalEq_LSMCreate s h
  rw [hrows] at hne
  obtain ⟨⟨a0, a1, a2, a3, a4, a5, a6, a7, a8⟩, ⟨b0, b1, b2, b3, b4, b5, b6, b7, b8⟩⟩ :=
    lagRow_tables m1
  obtain ⟨-, ⟨d0, d1, d2, d3, d4, d5, d6, d7, d8⟩⟩ := lagRow_tables m2
  refine ⟨hne.1, hne.2.1, ?_, ?_, ?_, ?_⟩
  · rw [hne.2.2.1 0 0 (by norm_num) (by norm_num)]
    simp [qTerm, rowRe, rowIm, a0, a1, a2, a3, a4, a5, a6, a7, a8, d0, d1, d2, d3, d4, d5, d6,
      d7, d8]
  · rw [hne.2.2.1 0 1 (by norm_num) (by norm_num)]
    simp [qTerm, rowRe, rowIm, a0, a1, a2, a3, a4, a5, a6, a7, a8, d0, d1, d2, d3, d4, d5, d6,
      d7, d8]
    ring
  · rw [hne.2.2.1 1 0 (by norm_num) (by norm_num)]
    simp [qTerm, rowRe, rowIm, a0, a1, a2, a3, a4, a5, a6, a7, a8, d0, d1, d2, d3, d4, d5, d6,
      d7, d8]
    ring
  · rw [hne.2.2.1 1 1 (by norm_num) (by norm_num)]
    simp [qTerm, rowRe, rowIm, a0, a1, a2, a3, a4, a5, a6, a7, a8, d0, d1, d2, d3, d4, d5, d6,
      d7, d8]
    ring

/-- The normal matrix of the two samples of `1 / (1 + s)` is nonsingular for
all weights that are not zero. -/
theorem lag_nonsingular (s : dzFreqResIdentData ℝ) (m1 m2 : ℝ) (h : Shape 0 1 2 s)
    (hrows : sampleRows s = [lagRowOne m1, lagRowTwo m2]) (h1 : m1 ≠ 0) (h2 : m2 ≠ 0) :
    Nonsingular (_dzFreqResIdentDataLSMCreate s).q := by
  obtain ⟨hrow, hcol, q00, q01, q10, q11⟩ := lag_normalEq s m1 m2 h hrows
  intro y hy
  have e0 := hy 0 (by rw [hrow]; norm_num)
  have e1 := hy 1 (by rw [hrow]; norm_num)
  rw [hcol] at e0 e1 ⊢
  simp only [Finset.sum_range_succ, Finset.sum_range_zero, zero_add] at e0 e1
  rw [q00, q01] at e0
  rw [q10, q11] at e1
  have p1 : 0 < m1 * m1 := mul_self_pos.2 h1
  have p2 : 0 < m2 * m2 := mul_self_pos.2 h2
  have hc : (m1 * m1 / 2 + 4 * (m2 * m2) / 5) * (y 1 - y 0) = 0 := by linear_combination e1
  have hy01 : y 1 = y 0 := by
    rcases mul_eq_zero.1 hc with hz | hz
    · exfalso; linarith
    · linarith
  have hd : (m1 * m1 / 2 + m2 * m2 / 5) * y 0 = 0 := by
    rw [hy01] at e0
    linear_combination e0
  have hy0 : y 0 = 0 := by
    rcases mul_eq_zero.1 hd with hz | hz
    · exfalso; linarith
    · exact hz
  intro j hj
  interval_cases j
  · exact hy0
  · rw [hy01]; exact hy0

/-! ## The second pass on the samples of the lag -/

theorem samplesLag_start :
    Shape 0 1 2 (startOf idealEnv.zAlloc samplesLag 0 1) ∧
    sampleRows (startOf idealEnv.zAlloc samplesLag 0 1) = [lagRowOne 1, lagRowTwo 1] :=
  ⟨loopStart_shape idealEnv.zAlloc samplesLag 0 1, by
    rw [sampleRows_startOf]; rfl⟩

theorem paramsOf_tfLag (i : Nat) (hi : i < 2) : paramsOf tfLag 0 i = 1 := by
  interval_cases i <;> simp [paramsOf, tfLag]

/-- The first solve for `samplesLag`: `b_0 = 1`, `a_1 = 1`. -/
theorem samplesLag_first (i : Nat) (hi : i < 2) :
    (solveStep idealEnv (startOf idealEnv.zAlloc samplesLag 0 1)).phi.buf i = 1 := by
  obtain ⟨hs, hr⟩ := samplesLag_start
  have hsol := IsSolution_holds tfLag 0 1 samplesLag _
    (Holds_startOf idealEnv.zAlloc samplesLag 0 1) samplesLag_generated rfl
  have hu := unique_of_nonsingular _ _ _ hsol
    (lag_nonsingular _ 1 1 hs hr one_ne_zero one_ne_zero)
  have hcol : (_dzFreqResIdentDataLSMCreate (startOf idealEnv.zAlloc samplesLag 0 1)).q.col = 2 :=
    (NormalEq_LSMCreate _ hs).2.1
  have e := exactSolve_exact _ _
    (_dzFreqResIdentDataLSMCreate (startOf idealEnv.zAlloc samplesLag 0 1)).phi _ hu i
    (by rw [hcol]; exact hi)
  rw [paramsOf_tfLag i hi] at e
  exact e

/-- The second pass for `samplesLag` starts with the weights `1/2` and
`1/5`. -/
theorem lagPass_rows :
    Shape 0 1 2 lagPass ∧ sampleRows lagPass = [lagRowOne (1 / 2), lagRowTwo (1 / 5)] := by
  obtain ⟨hs, hr⟩ := samplesLag_start
  have hs1 := solveStep_shape idealEnv _ hs
  refine ⟨nextStep_shape _ hs1, ?_⟩
  unfold lagPass
  rw [sampleRows_nextStep, sampleRows_solveStep idealEnv _ hs, hr, hs1.nn, hs1.nd]
  obtain ⟨⟨a0, a1, a2, a3, a4, a5, a6, a7, a8⟩, ⟨b0, b1, b2, b3, b4, b5, b6, b7, b8⟩⟩ :=
    lagRow_tables 1
  have h1 := samplesLag_first 1 (by norm_num)
  have e1 : newMag 0 1 (solveStep idealEnv (startOf idealEnv.zAlloc samplesLag 0 1)).phi.buf
      (lagRowOne 1) = 1 / 2 := by
    simp only [newMag, List.range'_one, List.map_cons, List.map_nil, List.sum_cons,
      List.sum_nil, zero_add, h1, a1, a2, a3, a4]
    norm_num
  have e2 : newMag 0 1 (solveStep idealEnv (startOf idealEnv.zAlloc samplesLag 0 1)).phi.buf
      (lagRowTwo 1) = 1 / 5 := by
    simp only [newMag, List.range'_one, List.map_cons, List.map_nil, List.sum_cons,
      List.sum_nil, zero_add, h1, b1, b2, b3, b4]
    norm_num
  simp only [List.map_cons, List.map_nil, reweigh, e1, e2]
  rfl

theorem true_parameters_fixed_point_witness :
    (∀ fr, fr ∈ samplesLag → GeneratedBy tfLag 0 1 fr) ∧
    lagPass.mag.buf 0 = 1 / 2 ∧ lagPass.mag.buf 1 = 1 / 5 ∧
    Nonsingular (_dzFreqResIdentDataLSMCreate lagPass).q ∧
    IsExactSolver idealEnv.zLESolveGauss ∧
    IsSolution (_dzFreqResIdentDataLSMCreate lagPass).q (_dzFreqResIdentDataLSMCreate lagPass).p
      (paramsOf tfLag 0) ∧
    (∀ i, i < 0 + 1 + 1 → (solveStep idealEnv lagPass).phi.buf i = paramsOf tfLag 0 i) := by
  obtain ⟨hs, hr⟩ := lagPass_rows
  have hr2 := sampleRows_two lagPass hs.ns
  rw [hr] at hr2
  have hm0 : lagPass.mag.buf 0 = 1 / 2 :=
    (congrArg SampleRow.mag (List.cons.inj hr2).1).symm
  have hm1 : lagPass.mag.buf 1 = 1 / 5 :=
    (congrArg SampleRow.mag (List.cons.inj (List.cons.inj hr2).2).1).symm
  have hq := lag_nonsingular lagPass (1 / 2) (1 / 5) hs hr (by norm_num) (by norm_num)
  have hh : Holds 0 1 samplesLag lagPass :=
    Holds_nextStep 0 1 samplesLag _
      (Holds_solveStep idealEnv 0 1 samplesLag _ (Holds_startOf idealEnv.zAlloc samplesLag 0 1))
  have key := true_parameters_fixed_point idealEnv tfLag 0 1 samplesLag lagPass hh
    samplesLag_generated rfl
  exact ⟨samplesLag_generated, hm0, hm1, hq, exactSolve_exact, key.1,
    key.2 hq exactSolve_exact⟩

end Dzco
